import Mathlib

/-!
silly-file-server: access gate, streaming archiver, directory walk and image caches

A shallow embedding of `src/file-server.mjs`.  The functions `forbidden`,
`getZipPath`, `finalizeArchive`, `failureCleanup` and `packageRecursively` are
the same text in the older generation `src/file-server.js`.

* JavaScript strings are lists of characters (`Str`), so that `substring`,
  `split`, `startsWith` and `+` are structural functions that evaluate in the
  kernel; `undefined` is `none`.
* `passStore.map` is an object with string secrets; a lookup `passStore.map[key]`
  finds the key of the table or, failing that, a member inherited from
  `Object.prototype`.
* The asynchronous walk of `packageRecursively` is a tree of activations with
  their outstanding callbacks; a schedule picks which callback completes next,
  and every statement about the walk is for all schedules.
* The files under `./temp` are a map from paths to contents, and every
  synchronous call of `finalizeArchive` / `failureCleanup` may fail.
* The `PreCacher` is a state machine over its backlog and the items in flight;
  the encoder and `fs.writeFile` are parameters that may fail on any input.
* The timers of `PreCacher.watch` live on the clock of the event loop, in
  milliseconds: a timer runs when the clock has reached the time it is due.
* `path.normalize`, `path.join` and `path.resolve` are those of POSIX.
-/

namespace FileServer

/-! ## Strings -/

/-- A JavaScript string, as the list of its code units. -/
abbrev Str := List Char

/-- JavaScript `s.split(sep)` for a one-character separator: never empty,
`"".split("/")` is `[""]`. -/
def split (sep : Char) : Str → List Str
  | [] => [[]]
  | c :: cs =>
    if c = sep then [] :: split sep cs
    else
      match split sep cs with
      | [] => [[c]]
      | p :: ps => (c :: p) :: ps

/-- JavaScript `s.substring(n)` for `0 ≤ n`. -/
def substring (s : Str) (n : Nat) : Str := s.drop n

/-- JavaScript `s.startsWith(t)`. -/
def startsWith (s t : Str) : Bool := t.isPrefixOf s

/-- JavaScript `s.endsWith("/")`. -/
def endsWithSlash (s : Str) : Bool := s.getLast? == some '/'

/-! ## PasswordStore and the request gate -/

/-- The own properties of the object `passStore.map` that `JSON.parse` made of
`passwords.json`: `map key` is `some secret` when the table has the key with
the string `secret`, and `none` when it has no such key.  What
`passStore.map[key]` evaluates to is `getProperty`, which also finds the
members the object inherits. -/
abbrev PasswordMap := Str → Option Str

/-- JavaScript truthiness of a looked-up secret: a string is truthy unless it
is empty. -/
def truthy (s : Str) : Bool := !s.isEmpty

/-- JavaScript `pass == correctPass` for a credential that is a string or
`undefined` and a secret that is a string. -/
def looseEq (pass : Option Str) (correctPass : Str) : Bool := pass == some correctPass

/-- The members every object inherits from `Object.prototype`, by name, each
with the string `ToPrimitive` gives for it: the source text of a built-in
function (as V8 prints it), and `[object Object]` for the prototype itself,
which is what `__proto__` evaluates to. -/
def objectPrototypeMembers : List (Str × Str) :=
  [("constructor".toList, "function Object() \x7b [native code] \x7d".toList),
    ("__defineGetter__".toList, "function __defineGetter__() \x7b [native code] \x7d".toList),
    ("__defineSetter__".toList, "function __defineSetter__() \x7b [native code] \x7d".toList),
    ("hasOwnProperty".toList, "function hasOwnProperty() \x7b [native code] \x7d".toList),
    ("__lookupGetter__".toList, "function __lookupGetter__() \x7b [native code] \x7d".toList),
    ("__lookupSetter__".toList, "function __lookupSetter__() \x7b [native code] \x7d".toList),
    ("isPrototypeOf".toList, "function isPrototypeOf() \x7b [native code] \x7d".toList),
    ("propertyIsEnumerable".toList,
      "function propertyIsEnumerable() \x7b [native code] \x7d".toList),
    ("toString".toList, "function toString() \x7b [native code] \x7d".toList),
    ("valueOf".toList, "function valueOf() \x7b [native code] \x7d".toList),
    ("__proto__".toList, "[object Object]".toList),
    ("toLocaleString".toList, "function toLocaleString() \x7b [native code] \x7d".toList)]

/-- The member of `Object.prototype` of a name, as the string `ToPrimitive`
gives for it. -/
def inheritedMember (key : Str) : Option Str := objectPrototypeMembers.lookup key

/-- A value of `passStore.map[key]` other than `undefined`: a string of the
table, or a function or object inherited from `Object.prototype`, kept as the
string `ToPrimitive` gives for it. -/
inductive PropertyValue where
  | secret (s : Str) : PropertyValue
  | inherited (primitive : Str) : PropertyValue
  deriving DecidableEq

/-- JavaScript truthiness of a looked-up value: a string is truthy unless it
is empty; a function or an object is truthy. -/
def PropertyValue.truthy : PropertyValue → Bool
  | .secret s => FileServer.truthy s
  | .inherited _ => true

/-- JavaScript `pass == correctPass` for a credential that is a string or
`undefined`: `undefined` equals neither a string nor an object, and a string
is compared with a function or object through `ToPrimitive`. -/
def PropertyValue.looseEq (pass : Option Str) : PropertyValue → Bool
  | .secret s => FileServer.looseEq pass s
  | .inherited primitive => pass == some primitive

/-- JavaScript `passStore.map[key]`: the own property of the table when there
is one, else the member inherited from `Object.prototype`, else `undefined`
(`none`). -/
def getProperty (map : PasswordMap) (key : Str) : Option PropertyValue :=
  match map key with
  | some s => some (.secret s)
  | none => (inheritedMember key).map .inherited

/-- One step of the shared loop body of `hasAccess` and `checkPassword`:
`pathPortion += '/'+parts[i]`, then one leading slash is removed. -/
def nextPortion (pathPortion part : Str) : Str :=
  let appended := pathPortion ++ '/' :: part
  if startsWith appended ['/'] then substring appended 1 else appended

/-- The `for` loop of `PasswordStore.hasAccess` over the remaining parts. -/
def hasAccessLoop (map : PasswordMap) (pass : Option Str) : List Str → Str → Bool
  | [], _ => true
  | part :: rest, pathPortion =>
    let pathPortion := nextPortion pathPortion part
    match getProperty map pathPortion with
    | some correctPass =>
      if correctPass.truthy then correctPass.looseEq pass
      else hasAccessLoop map pass rest pathPortion
    | none => hasAccessLoop map pass rest pathPortion

/-- `PasswordStore.hasAccess(path, pass)` (file-server.mjs 328-343):
`path.substring(1).split('/')`, `shift()` to drop the root, then the loop. -/
def hasAccess (map : PasswordMap) (path : Str) (pass : Option Str) : Bool :=
  hasAccessLoop map pass (split '/' (substring path 1)).tail []

/-- What a middleware does with a request, in order: the calls it makes on the
response (`next()`, `res.status(n).send(..)`, `res.sendFile(path.resolve(file))`),
the steps of an archive build it starts, the deletion it schedules, and an
exception it raises. -/
inductive Effect where
  | next : Effect
  | send (status : Nat) : Effect
  | sendFile (file : Str) : Effect
  | mkdirp (dir : Str) : Effect
  | newArchiver (baseDir destination : Str) : Effect
  | packageRecursively (source : Str) : Effect
  | finalizeArchive : Effect
  | failureCleanup : Effect
  | setTimeout (delay : Nat) (unlinkTarget : Str) : Effect
  | throwTypeError : Effect
  | throwURIError : Effect
  deriving DecidableEq, Repr

/-- The `for` loop of `checkPassword` over the remaining parts. -/
def checkPasswordLoop (map : PasswordMap) (pass : Option Str) : List Str → Str → List Effect
  | [], _ => [Effect.next]
  | part :: rest, pathPortion =>
    let pathPortion := nextPortion pathPortion part
    match getProperty map pathPortion with
    | some correctPass =>
      if correctPass.truthy then
        if correctPass.looseEq pass then [Effect.next] else [Effect.send 403]
      else checkPasswordLoop map pass rest pathPortion
    | none => checkPasswordLoop map pass rest pathPortion

/-- The middleware `checkPassword(req,res,next)` (file-server.mjs 378-404) on
`req.path` and `req.query.pass`; the root segment is not dropped here. -/
def checkPassword (map : PasswordMap) (reqPath : Str) (pass : Option Str) : List Effect :=
  checkPasswordLoop map pass (split '/' (substring reqPath 1)) []

/-- The own properties of a password table given by its entries (distinct
keys). -/
def tableOf (entries : List (Str × Str)) : PasswordMap := fun key => entries.lookup key

/-! ## The access rule as the specification words it -/

/-- Segments joined by `/`. -/
def joinSlash : List Str → Str
  | [] => []
  | [a] => a
  | a :: b :: rest => a ++ '/' :: joinSlash (b :: rest)

/-- The non-empty initial runs of a list, shortest first. -/
def initialRuns {α : Type} : List α → List (List α)
  | [] => []
  | a :: rest => [a] :: (initialRuns rest).map (fun t => a :: t)

/-- The segments of a logical path below the root: `/inf/a/b` has `a`, `b`. -/
def segmentsBelowRoot (path : Str) : List Str := (split '/' (substring path 1)).tail

/-- The cumulative keys of a path, root first: `a`, `a/b`, `a/b/c`. -/
def cumulativeKeys (segments : List Str) : List Str := (initialRuns segments).map joinSlash

/-- The access rule in the words of the specification: the first cumulative
key that has a secret in the table decides, by comparing the credential with
that secret; no such key means allow. -/
def hasAccessSpec (map : PasswordMap) (path : Str) (pass : Option Str) : Bool :=
  match (cumulativeKeys (segmentsBelowRoot path)).findSome? map with
  | some secret => looseEq pass secret
  | none => true

/-- A key as the loop looks it up: leading slashes removed. -/
def stripLeadingSlashes (s : Str) : Str := s.dropWhile (fun c => c = '/')

/-- The secret of a key when it is a non-empty string. -/
def truthySecret (map : PasswordMap) (key : Str) : Option Str :=
  (map key).filter truthy

/-- The access rule the loop implements on the keys of the table: keys are the
cumulative keys without leading slashes, and only a non-empty secret counts. -/
def hasAccessFirstTruthy (map : PasswordMap) (path : Str) (pass : Option Str) : Bool :=
  match ((cumulativeKeys (segmentsBelowRoot path)).map stripLeadingSlashes).findSome?
      (truthySecret map) with
  | some secret => looseEq pass secret
  | none => true

/-! ## YazlArchiver -/

/-- JavaScript `x|0` on an integer: reduction to a signed 32-bit value. -/
def toInt32 (x : Int) : Int := (x + 2147483648) % 4294967296 - 2147483648

/-- The state of a `YazlArchiver`.  `entries` are the calls
`zipfile.addFile(realPath, metadataPath)` made so far and `dirCalls` the
arguments of `addDirectory`, both in call order. -/
structure YazlArchiver where
  baseDir : Str
  destination : Str
  filesAdded : Int
  dirsAdded : Int
  archiveSize : Int
  finished : Bool
  entries : List (Str × Str)
  dirCalls : List Str
  deriving DecidableEq

/-- The fields set by `constructor(baseDir, destination)`. -/
def YazlArchiver.create (baseDir destination : Str) : YazlArchiver :=
  { baseDir := baseDir, destination := destination, filesAdded := 0, dirsAdded := 0,
    archiveSize := -1, finished := false, entries := [], dirCalls := [] }

/-- `getZipPath(filePath)`: `filePath.substring(this.baseDir.length+1)`. -/
def YazlArchiver.getZipPath (a : YazlArchiver) (filePath : Str) : Str :=
  substring filePath (a.baseDir.length + 1)

/-- `addFile(filePath)`. -/
def YazlArchiver.addFile (a : YazlArchiver) (filePath : Str) : YazlArchiver :=
  { a with entries := a.entries ++ [(filePath, a.getZipPath filePath)],
           filesAdded := toInt32 (a.filesAdded + 1) }

/-- `addDirectory(filePath)`. -/
def YazlArchiver.addDirectory (a : YazlArchiver) (filePath : Str) : YazlArchiver :=
  { a with dirCalls := a.dirCalls ++ [filePath], dirsAdded := toInt32 (a.dirsAdded + 1) }

/-- The path of the provisional file, `destination+'.temp'`. -/
def YazlArchiver.tempPath (a : YazlArchiver) : Str := a.destination ++ ".temp".toList

/-! ## The directory tree seen by `fs.readdir` and `fs.stat` -/

/-- What the file system holds at a path, as far as the walk can tell. -/
inductive Node where
  | noent : Node
  | file : Node
  | dirErr : Node
  | dir (entries : List (Str × Node)) : Node

/-- The outcome of `fs.stat`: an error, or whether `stats.isDirectory()`. -/
inductive StatResult where
  | err : StatResult
  | notDirectory : StatResult
  | directory : StatResult
  deriving DecidableEq

/-- The result `fs.stat(filePath, cb)` hands to its callback. -/
def Node.stat : Node → StatResult
  | .noent => .err
  | .file => .notDirectory
  | .dirErr => .directory
  | .dir _ => .directory

/-- The result `fs.readdir(directory, cb)` hands to its callback: `none` for an
error, else the entries. -/
def Node.readdir : Node → Option (List (Str × Node))
  | .dir entries => some entries
  | _ => none

/-- `path.join(directory, file)` for a normalised directory path and an entry
name. -/
def pathJoin (directory file : Str) : Str := directory ++ '/' :: file

/-! ## packageRecursively -/

/-- The reason a walk is rejected with. -/
inductive WalkError where
  | io (path : Str) : WalkError
  | noFiles : WalkError
  deriving DecidableEq

/-- The state of the promise returned by `packageRecursively`. -/
inductive Settled where
  | pending : Settled
  | resolved : Settled
  | rejected (e : WalkError) : Settled
  deriving DecidableEq

/-- `resolve()`: settles a pending promise, has no effect on a settled one. -/
def Settled.resolve : Settled → Settled
  | .pending => .resolved
  | s => s

/-- `reject(e)`: settles a pending promise, has no effect on a settled one. -/
def Settled.reject (e : WalkError) : Settled → Settled
  | .pending => .rejected e
  | s => s

/-- The variables shared by all callbacks of one `packageRecursively` call:
`stop`, the promise, the archiver; `errors` counts the callbacks that were
handed an error. -/
structure Shared where
  stop : Bool
  promise : Settled
  archiver : YazlArchiver
  errors : Nat

/-- The outstanding work of one `innerLoop` activation or of one entry of its
`files.forEach`: nothing outstanding, an `fs.stat` whose callback has not run,
an `fs.readdir` whose callback has not run, or a listing whose `forEach` has
run, with its counter `filesComplete` and one item per file. -/
inductive Act where
  | idle : Act
  | stat (filePath : Str) (node : Node) : Act
  | readdir (directory : Str) (node : Node) : Act
  | each (directory : Str) (filesComplete : Nat) (files : List Act) : Act

mutual
/-- The number of callbacks outstanding in an activation. -/
def Act.pending : Act → Nat
  | .idle => 0
  | .stat _ _ => 1
  | .readdir _ _ => 1
  | .each _ _ files => pendingList files
/-- The number of callbacks outstanding in the items of a listing. -/
def pendingList : List Act → Nat
  | [] => 0
  | a :: rest => a.pending + pendingList rest
end

mutual
/-- A bound on the callbacks that can still run once `fs.stat` is issued. -/
def Node.statWork : Node → Nat
  | .noent => 1
  | .file => 1
  | .dirErr => 2
  | .dir entries => 2 + entriesWork entries
/-- The sum of `statWork` over the entries of a directory. -/
def entriesWork : List (Str × Node) → Nat
  | [] => 0
  | (_, n) :: rest => n.statWork + entriesWork rest
end

/-- A bound on the callbacks that can still run once `fs.readdir` is issued. -/
def Node.readdirWork : Node → Nat
  | .dir entries => 1 + entriesWork entries
  | _ => 1

mutual
/-- A bound on the callbacks that can still run in an activation. -/
def Act.work : Act → Nat
  | .idle => 0
  | .stat _ node => node.statWork
  | .readdir _ node => node.readdirWork
  | .each _ _ files => workList files
/-- The sum of `work` over the items of a listing. -/
def workList : List Act → Nat
  | [] => 0
  | a :: rest => a.work + workList rest
end

/-- The body of `files.forEach` in the `fs.readdir` callback: an `fs.stat` per
file unless `stop` is set. -/
def forEachFile (stop : Bool) (directory : Str) (files : List (Str × Node)) : List Act :=
  files.map (fun f => if stop then Act.idle else Act.stat (pathJoin directory f.1) f.2)

mutual
/-- Runs the `k`-th outstanding callback of an activation.  The result is the
activation afterwards, the shared variables afterwards, and whether the
activation called its `successCallback` (for an entry of a `forEach`: whether
it ran `filesComplete++` of the enclosing listing). -/
def fire (top : Str) (k : Nat) : Act → Shared → Act × Shared × Bool
  | .idle, g => (.idle, g, false)
  | .stat filePath node, g =>
    match node.stat with
    | .err =>
      (.idle, { g with stop := true, promise := g.promise.reject (.io filePath),
                       errors := g.errors + 1 }, false)
    | .directory =>
      (.readdir filePath node, { g with archiver := g.archiver.addDirectory filePath }, false)
    | .notDirectory =>
      (.idle, { g with archiver := g.archiver.addFile filePath }, true)
  | .readdir directory node, g =>
    match node.readdir with
    | none =>
      (.idle, { g with promise := g.promise.reject (.io directory), errors := g.errors + 1 },
        false)
    | some [] =>
      if directory = top then (.idle, { g with promise := g.promise.reject .noFiles }, false)
      else (.idle, g, true)
    | some (f :: fs) => (.each directory 0 (forEachFile g.stop directory (f :: fs)), g, false)
  | .each directory filesComplete files, g =>
    match fireList top k files g with
    | (files1, g1, true) =>
      if filesComplete + 1 = files.length then
        if directory = top then
          (.each directory (filesComplete + 1) files1,
            { g1 with promise := g1.promise.resolve }, false)
        else (.each directory (filesComplete + 1) files1, g1, true)
      else (.each directory (filesComplete + 1) files1, g1, false)
    | (files1, g1, false) => (.each directory filesComplete files1, g1, false)
/-- Runs the `k`-th outstanding callback among the items of a listing. -/
def fireList (top : Str) (k : Nat) : List Act → Shared → List Act × Shared × Bool
  | [], g => ([], g, false)
  | a :: rest, g =>
    if k < a.pending then
      match fire top k a g with
      | (a1, g1, done) => (a1 :: rest, g1, done)
    else
      match fireList top (k - a.pending) rest g with
      | (rest1, g1, done) => (a :: rest1, g1, done)
end

/-- A `packageRecursively` call in progress. -/
structure Walk where
  shared : Shared
  root : Act

/-- The state right after `packageRecursively(topDirectory, archiver)` returns
its promise: `innerLoop(topDirectory, ()=>resolve())` has issued `fs.readdir`. -/
def Walk.start (top : Str) (tree : Node) (archiver : YazlArchiver) : Walk :=
  { shared := { stop := false, promise := .pending, archiver := archiver, errors := 0 },
    root := .readdir top tree }

/-- One turn of the event loop: the outstanding callback selected by `choice`
runs; the `successCallback` of the top activation is `()=>resolve()`. -/
def Walk.step (top : Str) (w : Walk) (choice : Nat) : Walk :=
  if w.root.pending = 0 then w
  else
    match fire top (choice % w.root.pending) w.root w.shared with
    | (root1, g1, true) => { shared := { g1 with promise := g1.promise.resolve }, root := root1 }
    | (root1, g1, false) => { shared := g1, root := root1 }

/-- Runs the callbacks in the default order until `fuel` turns have passed. -/
def Walk.drain (top : Str) : Nat → Walk → Walk
  | 0, w => w
  | fuel + 1, w => Walk.drain top fuel (w.step top 0)

/-- `packageRecursively(topDirectory, archiver)` run to quiescence: `schedule`
chooses which outstanding callback completes next, and once it is used up the
remaining callbacks complete in the default order. -/
def packageRecursively (top : Str) (tree : Node) (archiver : YazlArchiver)
    (schedule : List Nat) : Walk :=
  let w := schedule.foldl (Walk.step top) (Walk.start top tree archiver)
  Walk.drain top w.root.work w

/-! ## The files under `./temp` -/

/-- The content of a file under `./temp`; for an archive, the names of its
entries in the order they were added. -/
abbrev Content := List Str

/-- The regular files under `./temp`, by path. -/
abbrev Fs := Str → Option Content

/-- Writes (or with `none` removes) the file at `path`. -/
def Fs.set (fs : Fs) (path : Str) (c : Option Content) : Fs :=
  fun q => if q = path then c else fs q

/-- Which synchronous file-system calls fail for a reason other than a missing
file (permissions, a directory in the way, a busy file). -/
structure Faults where
  statFault : Bool
  unlinkFault : Bool
  renameFault : Bool

/-- `fs.statSync(path)` failing with a code other than `ENOENT`, failing with
`ENOENT`, or returning the stats. -/
inductive StatSync where
  | otherError : StatSync
  | enoent : StatSync
  | stats : StatSync
  deriving DecidableEq

/-- `fs.statSync(path)`. -/
def statSync (fs : Fs) (faults : Faults) (path : Str) : StatSync :=
  if faults.statFault then .otherError
  else if (fs path).isSome then .stats else .enoent

/-- `fs.unlinkSync(path)`: `none` when it throws. -/
def unlinkSync (fs : Fs) (faults : Faults) (path : Str) : Option Fs :=
  if faults.unlinkFault then none
  else if (fs path).isSome then some (fs.set path none) else none

/-- `fs.renameSync(oldPath, newPath)`: `none` when it throws; on success the
file leaves `oldPath` and replaces whatever was at `newPath`. -/
def renameSync (fs : Fs) (faults : Faults) (oldPath newPath : Str) : Option Fs :=
  if faults.renameFault then none
  else
    match fs oldPath with
    | some c => some ((fs.set oldPath none).set newPath (some c))
    | none => none

/-- The file-system effect of `constructor(baseDir, destination)`:
`fs.createWriteStream(destination+'.temp')` creates or truncates the
provisional file. -/
def YazlArchiver.open (a : YazlArchiver) (fs : Fs) : Fs := fs.set a.tempPath (some [])

/-- The file system when the pipe closes after `zipfile.end()`: the provisional
file holds the entries added. -/
def YazlArchiver.flush (a : YazlArchiver) (fs : Fs) : Fs :=
  fs.set a.tempPath (some (a.entries.map Prod.snd))

/-- The `'close'` handler installed by `finalizeArchive()` (file-server.mjs
433-463).  The boolean is `true` when the promise is resolved and `false` when
it is rejected (with no reason). -/
def YazlArchiver.finalizeArchive (a : YazlArchiver) (fs : Fs) (faults : Faults) :
    YazlArchiver × Fs × Bool :=
  match statSync fs faults a.destination with
  | .otherError => (a, fs, false)
  | .enoent =>
    match renameSync fs faults a.tempPath a.destination with
    | some fs2 => ({ a with finished := true }, fs2, true)
    | none => (a, fs, false)
  | .stats =>
    match unlinkSync fs faults a.destination with
    | none => (a, fs, false)
    | some fs1 =>
      match renameSync fs1 faults a.tempPath a.destination with
      | some fs2 => ({ a with finished := true }, fs2, true)
      | none => (a, fs1, false)

/-- The `'close'` handler installed by `failureCleanup()` (file-server.mjs
466-480).  The boolean is `true` when the promise is resolved and `false` when
it is rejected. -/
def YazlArchiver.failureCleanup (a : YazlArchiver) (fs : Fs) (faults : Faults) : Fs × Bool :=
  match unlinkSync fs faults a.tempPath with
  | some fs1 => (fs1, true)
  | none => (fs, true)

/-! ## decodeURIComponent -/

/-- The value of a hexadecimal digit. -/
def hexVal (c : Char) : Option Nat :=
  if '0' ≤ c ∧ c ≤ '9' then some (c.toNat - 48)
  else if 'a' ≤ c ∧ c ≤ 'f' then some (c.toNat - 87)
  else if 'A' ≤ c ∧ c ≤ 'F' then some (c.toNat - 55)
  else none

/-- Reads one escape `%XY` from the front of a string. -/
def readOctet : Str → Option (Nat × Str)
  | '%' :: h :: l :: rest =>
    match hexVal h, hexVal l with
    | some a, some b => some (16 * a + b, rest)
    | _, _ => none
  | _ => none

/-- Reads one continuation escape `%XY` with `10xxxxxx` and returns its six
payload bits. -/
def readContinuation (s : Str) : Option (Nat × Str) :=
  match readOctet s with
  | some (b, rest) => if 128 ≤ b ∧ b < 192 then some (b - 128, rest) else none
  | none => none

/-- The code point encoded by a UTF-8 lead octet `b ≥ 128` and the escapes that
follow it; `none` for an invalid sequence. -/
def readMultiByte (b : Nat) (s : Str) : Option (Nat × Str) :=
  if 194 ≤ b ∧ b < 224 then
    match readContinuation s with
    | some (c1, r1) => some ((b - 192) * 64 + c1, r1)
    | none => none
  else if 224 ≤ b ∧ b < 240 then
    match readContinuation s with
    | some (c1, r1) =>
      match readContinuation r1 with
      | some (c2, r2) =>
        let cp := (b - 224) * 4096 + c1 * 64 + c2
        if 2048 ≤ cp ∧ ¬ (55296 ≤ cp ∧ cp < 57344) then some (cp, r2) else none
      | none => none
    | none => none
  else if 240 ≤ b ∧ b < 245 then
    match readContinuation s with
    | some (c1, r1) =>
      match readContinuation r1 with
      | some (c2, r2) =>
        match readContinuation r2 with
        | some (c3, r3) =>
          let cp := (b - 240) * 262144 + c1 * 4096 + c2 * 64 + c3
          if 65536 ≤ cp ∧ cp < 1114112 then some (cp, r3) else none
        | none => none
      | none => none
    | none => none
  else none

/-- The loop of `decodeURIComponent`; `none` stands for a thrown `URIError`.
Every round consumes at least one character, so a fuel equal to the length of
the string is never used up. -/
def decodeLoop : Nat → Str → Option Str
  | 0, _ => some []
  | _ + 1, [] => some []
  | fuel + 1, c :: cs =>
    if c = '%' then
      match readOctet (c :: cs) with
      | none => none
      | some (b, rest) =>
        if b < 128 then (decodeLoop fuel rest).map (fun t => Char.ofNat b :: t)
        else
          match readMultiByte b rest with
          | some (cp, rest2) => (decodeLoop fuel rest2).map (fun t => Char.ofNat cp :: t)
          | none => none
    else (decodeLoop fuel cs).map (fun t => c :: t)

/-- JavaScript `decodeURIComponent(s)`; `none` stands for a thrown `URIError`. -/
def decodeURIComponent (s : Str) : Option Str := decodeLoop s.length s

/-! ## doZip -/

/-- The retention delay `TIME_TO_PURGE_ZIPS = 60 * 60000 * 24`. -/
def TIME_TO_PURGE_ZIPS : Nat := 60 * 60000 * 24

/-- The part of a request `doZip` reads: `req.path` and `req.query.zip`. -/
structure Request where
  path : Str
  zip : Option Str

/-- Everything outside the handler that decides how a request goes: the files
under `./temp`, what `fs.readdir` / `fs.stat` report at each absolute path of
the served tree, whether the promise of `mkdirp` resolves, which synchronous
calls fail, and the order in which the callbacks of the walk complete. -/
structure World where
  files : Fs
  served : Str → Node
  mkdirpOk : Bool
  faults : Faults
  schedule : List Nat

/-- The outcome of handling one request: what the handler did, the files under
`./temp` afterwards, and the archiver if one was constructed. -/
structure ZipRun where
  effects : List Effect
  files : Fs
  archiver : Option YazlArchiver

/-- JavaScript `s.substring(0, s.lastIndexOf('/'))` for a string that contains
a slash. -/
def upToLastSlash (s : Str) : Str := ((s.reverse.dropWhile (fun c => c ≠ '/')).drop 1).reverse

/-- The middleware `doZip(req,res,next)` (file-server.mjs 567-618).
`fs.access(destination, R_OK)` reports no error exactly when the file exists.
There is no `return` after the 400 response for the root.  A rejected `mkdirp`
has no handler.  `finalizeArchive` rejects with no reason, so the handler
`function(err)` that reads `err.message` raises a `TypeError` before it can
send the 500 response. -/
def doZip (FILE_DIR : Str) (w : World) (req : Request) : ZipRun :=
  if req.zip ≠ some ['1'] then { effects := [Effect.next], files := w.files, archiver := none }
  else
    match decodeURIComponent req.path with
    | none => { effects := [Effect.throwURIError], files := w.files, archiver := none }
    | some decoded =>
      let reqPath := if endsWithSlash decoded then decoded.take (decoded.length - 1) else decoded
      let refusal := if reqPath = "/inf".toList then [Effect.send 400] else []
      let source := FILE_DIR ++ reqPath
      let destination := "./temp".toList ++ reqPath ++ ".zip".toList
      let begun := refusal ++ [Effect.mkdirp (upToLastSlash destination)]
      if !w.mkdirpOk then { effects := begun, files := w.files, archiver := none }
      else if (w.files destination).isSome then
        { effects := begun ++ [Effect.sendFile destination], files := w.files, archiver := none }
      else
        let archiver := YazlArchiver.create FILE_DIR destination
        let walk := packageRecursively source (w.served source) archiver w.schedule
        let built := begun ++ [Effect.newArchiver FILE_DIR destination,
          Effect.packageRecursively source]
        let packed := walk.shared.archiver
        match walk.shared.promise with
        | .resolved =>
          match packed.finalizeArchive (packed.flush (archiver.open w.files)) w.faults with
          | (done, files2, true) =>
            { effects := built ++ [Effect.finalizeArchive, Effect.sendFile destination,
                Effect.setTimeout TIME_TO_PURGE_ZIPS destination],
              files := files2, archiver := some done }
          | (done, files2, false) =>
            { effects := built ++ [Effect.finalizeArchive, Effect.throwTypeError],
              files := files2, archiver := some done }
        | .rejected _ =>
          match packed.failureCleanup (packed.flush (archiver.open w.files)) w.faults with
          | (files2, _) =>
            { effects := built ++ [Effect.failureCleanup, Effect.send 500],
              files := files2, archiver := some packed }
        | .pending => { effects := built, files := archiver.open w.files, archiver := some packed }

/-! ## Invariants of the walk -/

/-- The number of items of a listing with no callback outstanding. -/
def quietCount : List Act → Nat
  | [] => 0
  | a :: rest => (if a.pending = 0 then 1 else 0) + quietCount rest

mutual
/-- An activation below the top directory is sound when every path in it is
longer than the top path and no listing has counted more completions than it
has items at rest. -/
def Act.Sound (top : Str) : Act → Prop
  | .idle => True
  | .stat filePath _ => top.length < filePath.length
  | .readdir directory _ => top.length < directory.length
  | .each directory filesComplete files =>
    top.length < directory.length ∧ filesComplete ≤ quietCount files ∧ SoundList top files
/-- Soundness of every item of a listing. -/
def SoundList (top : Str) : List Act → Prop
  | [] => True
  | a :: rest => a.Sound top ∧ SoundList top rest
end

/-- Soundness of the top activation, whose directory is the top path. -/
def RootSound (top : Str) : Act → Prop
  | .idle => True
  | .stat _ _ => False
  | .readdir directory _ => directory = top
  | .each directory filesComplete files =>
    directory = top ∧ filesComplete ≤ quietCount files ∧ SoundList top files

/-- How the shared variables change when a callback below the top runs: either
no error was handed over, and `stop`, the promise and the error count are as
before, or one was, the promise got `reject(err)` and the archiver is
untouched.  In both cases the calls recorded by the archiver only grow. -/
def Nested (g g1 : Shared) : Prop :=
  ((g1.errors = g.errors ∧ g1.promise = g.promise ∧ g1.stop = g.stop)
    ∨ (g1.errors = g.errors + 1 ∧ (∃ p, g1.promise = g.promise.reject (.io p))
        ∧ g1.archiver = g.archiver))
  ∧ (∃ fs, g1.archiver.entries = g.archiver.entries ++ fs)
  ∧ (∃ ds, g1.archiver.dirCalls = g.archiver.dirCalls ++ ds)

/-- The invariant of a walk in progress. -/
def Walk.Inv (top : Str) (w : Walk) : Prop :=
  RootSound top w.root
  ∧ (w.shared.promise = .resolved → w.root.pending = 0)
  ∧ (w.shared.promise = .rejected .noFiles → w.root.pending = 0)
  ∧ (0 < w.shared.errors → ∃ p, w.shared.promise = .rejected (.io p))

/-- The state after the callbacks chosen by `schedule` have run. -/
def Walk.after (top : Str) (tree : Node) (archiver : YazlArchiver) (schedule : List Nat) : Walk :=
  schedule.foldl (Walk.step top) (Walk.start top tree archiver)

/-! ## Trees in which no `readdir` or `stat` fails -/

mutual
/-- No `fs.stat` and no `fs.readdir` fails at or below this node. -/
def Node.noFail : Node → Bool
  | .noent => false
  | .file => true
  | .dirErr => false
  | .dir entries => entriesNoFail entries
/-- No `fs.stat` and no `fs.readdir` fails at or below these entries. -/
def entriesNoFail : List (Str × Node) → Bool
  | [] => true
  | (_, n) :: rest => n.noFail && entriesNoFail rest
end

mutual
/-- The paths of the non-directory entries at or below `path`. -/
def Node.filePaths (path : Str) : Node → List Str
  | .noent => []
  | .file => [path]
  | .dirErr => []
  | .dir entries => entriesFilePaths path entries
/-- The paths of the non-directory entries below `directory`. -/
def entriesFilePaths (directory : Str) : List (Str × Node) → List Str
  | [] => []
  | (name, n) :: rest => n.filePaths (pathJoin directory name) ++ entriesFilePaths directory rest
end

mutual
/-- The paths of the directory entries at or below `path`. -/
def Node.dirPaths (path : Str) : Node → List Str
  | .noent => []
  | .file => []
  | .dirErr => [path]
  | .dir entries => path :: entriesDirPaths path entries
/-- The paths of the directory entries below `directory`. -/
def entriesDirPaths (directory : Str) : List (Str × Node) → List Str
  | [] => []
  | (name, n) :: rest => n.dirPaths (pathJoin directory name) ++ entriesDirPaths directory rest
end

/-- The paths of the non-directory entries a pending `fs.readdir` will reach. -/
def Node.filePathsBelow (directory : Str) (n : Node) : List Str :=
  match n.readdir with
  | some entries => entriesFilePaths directory entries
  | none => []

/-- The paths of the directory entries a pending `fs.readdir` will reach. -/
def Node.dirPathsBelow (directory : Str) (n : Node) : List Str :=
  match n.readdir with
  | some entries => entriesDirPaths directory entries
  | none => []

mutual
/-- The files an activation has still to pass to `addFile`. -/
def Act.restFiles : Act → List Str
  | .idle => []
  | .stat filePath n => n.filePaths filePath
  | .readdir directory n => n.filePathsBelow directory
  | .each _ _ files => restFilesList files
/-- The files the items of a listing have still to pass to `addFile`. -/
def restFilesList : List Act → List Str
  | [] => []
  | a :: rest => a.restFiles ++ restFilesList rest
end

mutual
/-- The directories an activation has still to pass to `addDirectory`. -/
def Act.restDirs : Act → List Str
  | .idle => []
  | .stat filePath n => n.dirPaths filePath
  | .readdir directory n => n.dirPathsBelow directory
  | .each _ _ files => restDirsList files
/-- The directories the items of a listing have still to pass to
`addDirectory`. -/
def restDirsList : List Act → List Str
  | [] => []
  | a :: rest => a.restDirs ++ restDirsList rest
end

mutual
/-- An activation of a walk in which nothing has failed: the nodes still to
visit are free of failures and every listing has counted exactly its items at
rest. -/
def Act.Clean : Act → Prop
  | .idle => True
  | .stat _ n => n.noFail = true
  | .readdir _ n => n.noFail = true ∧ n.stat = .directory
  | .each _ filesComplete files => filesComplete = quietCount files ∧ CleanList files
/-- Cleanness of every item of a listing. -/
def CleanList : List Act → Prop
  | [] => True
  | a :: rest => a.Clean ∧ CleanList rest
end

/-- The counters of an archiver agree with the calls it has recorded, and
every entry is named by `getZipPath`. -/
def YazlArchiver.Consistent (a : YazlArchiver) : Prop :=
  a.filesAdded = toInt32 a.entries.length ∧ a.dirsAdded = toInt32 a.dirCalls.length
    ∧ ∀ e ∈ a.entries, e.2 = a.getZipPath e.1

/-- The top activation of a walk over the entries `es` in which nothing has
failed, together with the state of the promise. -/
def RootClean (es : List (Str × Node)) (promise : Settled) : Act → Prop
  | .idle => es = [] ∧ promise = .rejected .noFiles
  | .stat _ _ => False
  | .readdir _ n => n = .dir es ∧ promise = .pending
  | .each _ filesComplete files =>
    es ≠ [] ∧ filesComplete = quietCount files ∧ CleanList files
      ∧ (filesComplete = files.length → promise = .resolved)
      ∧ (filesComplete ≠ files.length → promise = .pending)

/-- The invariant of a walk, started with archiver `a0` over the entries `es`
of the top directory, in which nothing has failed. -/
def Walk.Clean (top : Str) (es : List (Str × Node)) (a0 : YazlArchiver) (w : Walk) : Prop :=
  w.shared.stop = false ∧ w.shared.errors = 0
    ∧ RootClean es w.shared.promise w.root
    ∧ ((w.shared.archiver.entries.map Prod.fst : Multiset Str) + (w.root.restFiles : Multiset Str)
        = (a0.entries.map Prod.fst : Multiset Str) + (entriesFilePaths top es : Multiset Str))
    ∧ ((w.shared.archiver.dirCalls : Multiset Str) + (w.root.restDirs : Multiset Str)
        = (a0.dirCalls : Multiset Str) + (entriesDirPaths top es : Multiset Str))

/-- The archiver `a1` is `a` after some calls of `addFile` and `addDirectory`:
same base directory and destination, counters and entry names in step with
the calls recorded. -/
def YazlArchiver.Extends (a a1 : YazlArchiver) : Prop :=
  a1.baseDir = a.baseDir ∧ a1.destination = a.destination ∧ a1.finished = a.finished
    ∧ a1.archiveSize = a.archiveSize ∧ (a.Consistent → a1.Consistent)

/-! ## Concrete inputs -/

/-- The served root used in concrete runs. -/
def exampleFileDir : Str := "/srv/file-dir".toList

/-- A requested directory below the served root. -/
def exampleTop : Str := "/srv/file-dir/inf/album".toList

/-- A fresh archiver for the requested directory. -/
def exampleArchiver : YazlArchiver :=
  YazlArchiver.create exampleFileDir "./temp/inf/album.zip".toList

/-- A directory holding the files `a.txt` and `sub/b.txt`. -/
def albumEntries : List (Str × Node) :=
  [("a.txt".toList, .file), ("sub".toList, .dir [("b.txt".toList, .file)])]

/-- A directory holding only an empty sub-directory. -/
def hollowEntries : List (Str × Node) := [("empty".toList, .dir [])]

/-- A directory in which `fs.readdir` of the sub-directory `locked` fails. -/
def brokenEntries : List (Str × Node) :=
  [("a.txt".toList, .file), ("locked".toList, .dirErr)]

/-- A directory holding 2^31 files, named `0`, `1`, `2`, ... -/
def bigEntries : List (Str × Node) :=
  (List.range 2147483648).map (fun i => (Nat.toDigits 10 i, Node.file))

/-- The rule table of the specification's example, keyed as written there. -/
def rulesAsWritten : PasswordMap :=
  tableOf [("/inf/secret".toList, "p1".toList), ("/inf/secret/nested".toList, "p2".toList)]

/-- The same rules under the keys `checkPassword` looks up. -/
def rulesForGate : PasswordMap :=
  tableOf [("inf/secret".toList, "p1".toList), ("inf/secret/nested".toList, "p2".toList)]

/-- The same rules under the keys `hasAccess` looks up. -/
def rulesForListing : PasswordMap :=
  tableOf [("secret".toList, "p1".toList), ("secret/nested".toList, "p2".toList)]

/-- No synchronous file-system call fails for a reason other than a missing
file. -/
def noFaults : Faults := { statFault := false, unlinkFault := false, renameFault := false }

/-- What the served tree holds in the concrete runs: the directory `album`,
with `a.txt` and `sub/b.txt`, is the only entry of `inf`. -/
def exampleServed (path : Str) : Node :=
  if path = "/srv/file-dir/inf/album".toList then .dir albumEntries
  else if path = "/srv/file-dir/inf".toList then .dir [("album".toList, .dir albumEntries)]
  else .noent

/-- A server with no archive under `./temp`. -/
def exampleWorld : World :=
  { files := fun _ => none, served := exampleServed, mkdirpOk := true, faults := noFaults,
    schedule := [] }

/-- A server that already holds an archive of the served root. -/
def cachedRootWorld : World :=
  { exampleWorld with
    files := fun path => if path = "./temp/inf.zip".toList then some [] else none }

/-- The request `GET /inf?zip=1`. -/
def rootZipRequest : Request := { path := "/inf".toList, zip := some ['1'] }

/-- The request `GET /inf/?zip=1`. -/
def rootSlashZipRequest : Request := { path := "/inf/".toList, zip := some ['1'] }

/-- The request `GET /inf/album?zip=1`. -/
def albumZipRequest : Request := { path := "/inf/album".toList, zip := some ['1'] }

/-! ## doZip: the shape of a run -/

/-- A server on which `fs.renameSync` fails. -/
def renameFailsWorld : World :=
  { exampleWorld with
    faults := { statFault := false, unlinkFault := false, renameFault := true } }

/-- A server on which `fs.statSync` fails with a code other than `ENOENT`. -/
def statFailsWorld : World :=
  { exampleWorld with
    faults := { statFault := true, unlinkFault := false, renameFault := false } }

/-- A served tree in which `fs.readdir` of `inf/album/locked` fails. -/
def brokenServed (path : Str) : Node :=
  if path = "/srv/file-dir/inf/album".toList then .dir brokenEntries else .noent

/-- A server whose directory `inf/album` cannot be packaged. -/
def brokenWorld : World := { exampleWorld with served := brokenServed }

/-- The request path `doZip` works with: decoded, one trailing slash removed. -/
def trimSlash (decoded : Str) : Str :=
  if endsWithSlash decoded then decoded.take (decoded.length - 1) else decoded

/-- The canonical destination of the archive of a request path. -/
def zipDestination (reqPath : Str) : Str := "./temp".toList ++ reqPath ++ ".zip".toList

/-- What `doZip` does before it knows whether an archive exists: the refusal
for the root, then `mkdirp` of the destination's directory. -/
def zipBegun (reqPath : Str) : List Effect :=
  (if reqPath = "/inf".toList then [Effect.send 400] else [])
    ++ [Effect.mkdirp (upToLastSlash (zipDestination reqPath))]

/-- What `doZip` does up to the start of a build. -/
def zipBuilt (FILE_DIR reqPath : Str) : List Effect :=
  zipBegun reqPath ++ [Effect.newArchiver FILE_DIR (zipDestination reqPath),
    Effect.packageRecursively (FILE_DIR ++ reqPath)]

/-- Whether an effect is the scheduling of a deletion. -/
def Effect.isSetTimeout : Effect → Bool
  | .setTimeout _ _ => true
  | _ => false

/-- Whether an effect is a step of an archive build. -/
def Effect.isBuildStep : Effect → Bool
  | .newArchiver _ _ => true
  | .packageRecursively _ => true
  | .finalizeArchive => true
  | .failureCleanup => true
  | .setTimeout _ _ => true
  | _ => false

/-- The callback `doZip` schedules with `setTimeout`: `fs.unlink(destination, cb)`,
whose error is only logged. -/
def purgeZip (fs : Fs) (faults : Faults) (destination : Str) : Fs :=
  match unlinkSync fs faults destination with
  | some fs1 => fs1
  | none => fs

/-- The body of `doZip` once the request path is decoded and trimmed. -/
def doZipAt (FILE_DIR : Str) (w : World) (reqPath : Str) : ZipRun :=
  if !w.mkdirpOk then { effects := zipBegun reqPath, files := w.files, archiver := none }
  else if (w.files (zipDestination reqPath)).isSome then
    { effects := zipBegun reqPath ++ [Effect.sendFile (zipDestination reqPath)],
      files := w.files, archiver := none }
  else
    match (packageRecursively (FILE_DIR ++ reqPath) (w.served (FILE_DIR ++ reqPath))
        (YazlArchiver.create FILE_DIR (zipDestination reqPath)) w.schedule).shared.promise with
    | .resolved =>
      match (packageRecursively (FILE_DIR ++ reqPath) (w.served (FILE_DIR ++ reqPath))
          (YazlArchiver.create FILE_DIR (zipDestination reqPath))
          w.schedule).shared.archiver.finalizeArchive
          ((packageRecursively (FILE_DIR ++ reqPath) (w.served (FILE_DIR ++ reqPath))
            (YazlArchiver.create FILE_DIR (zipDestination reqPath))
            w.schedule).shared.archiver.flush
            ((YazlArchiver.create FILE_DIR (zipDestination reqPath)).open w.files))
          w.faults with
      | (done, files2, true) =>
        { effects := zipBuilt FILE_DIR reqPath ++ [Effect.finalizeArchive,
            Effect.sendFile (zipDestination reqPath),
            Effect.setTimeout TIME_TO_PURGE_ZIPS (zipDestination reqPath)],
          files := files2, archiver := some done }
      | (done, files2, false) =>
        { effects := zipBuilt FILE_DIR reqPath ++ [Effect.finalizeArchive,
            Effect.throwTypeError],
          files := files2, archiver := some done }
    | .rejected _ =>
      { effects := zipBuilt FILE_DIR reqPath ++ [Effect.failureCleanup, Effect.send 500],
        files := ((packageRecursively (FILE_DIR ++ reqPath) (w.served (FILE_DIR ++ reqPath))
          (YazlArchiver.create FILE_DIR (zipDestination reqPath))
          w.schedule).shared.archiver.failureCleanup
          ((packageRecursively (FILE_DIR ++ reqPath) (w.served (FILE_DIR ++ reqPath))
            (YazlArchiver.create FILE_DIR (zipDestination reqPath))
            w.schedule).shared.archiver.flush
            ((YazlArchiver.create FILE_DIR (zipDestination reqPath)).open w.files))
          w.faults).1,
        archiver := some (packageRecursively (FILE_DIR ++ reqPath)
          (w.served (FILE_DIR ++ reqPath))
          (YazlArchiver.create FILE_DIR (zipDestination reqPath)) w.schedule).shared.archiver }
    | .pending =>
      { effects := zipBuilt FILE_DIR reqPath,
        files := (YazlArchiver.create FILE_DIR (zipDestination reqPath)).open w.files,
        archiver := some (packageRecursively (FILE_DIR ++ reqPath)
          (w.served (FILE_DIR ++ reqPath))
          (YazlArchiver.create FILE_DIR (zipDestination reqPath)) w.schedule).shared.archiver }

/-- The possible runs of `doZip` for a zip request with request path `reqPath`:
`mkdirp` rejected; archive reused; built and published; packaged but not
finalized; not packaged; walk unsettled. -/
def ZipShape (FILE_DIR : Str) (w : World) (reqPath : Str) (run : ZipRun) : Prop :=
  (w.mkdirpOk = false ∧ run.effects = zipBegun reqPath ∧ run.archiver = none
      ∧ run.files = w.files)
  ∨ (w.mkdirpOk = true ∧ (∃ c, w.files (zipDestination reqPath) = some c)
      ∧ run.effects = zipBegun reqPath ++ [Effect.sendFile (zipDestination reqPath)]
      ∧ run.archiver = none ∧ run.files = w.files)
  ∨ (w.mkdirpOk = true ∧ w.files (zipDestination reqPath) = none
      ∧ (∃ a, run.archiver = some a ∧ a.finished = true)
      ∧ run.effects = zipBuilt FILE_DIR reqPath ++ [Effect.finalizeArchive,
          Effect.sendFile (zipDestination reqPath),
          Effect.setTimeout TIME_TO_PURGE_ZIPS (zipDestination reqPath)]
      ∧ (∃ c, run.files (zipDestination reqPath) = some c)
      ∧ run.files (zipDestination reqPath ++ ".temp".toList) = none)
  ∨ (w.mkdirpOk = true ∧ w.files (zipDestination reqPath) = none
      ∧ (∃ a, run.archiver = some a ∧ a.finished = false)
      ∧ run.effects = zipBuilt FILE_DIR reqPath ++ [Effect.finalizeArchive,
          Effect.throwTypeError])
  ∨ (w.mkdirpOk = true ∧ w.files (zipDestination reqPath) = none
      ∧ (∃ a, run.archiver = some a ∧ a.finished = false)
      ∧ run.effects = zipBuilt FILE_DIR reqPath ++ [Effect.failureCleanup, Effect.send 500]
      ∧ (w.faults.unlinkFault = false
          → run.files (zipDestination reqPath ++ ".temp".toList) = none)
      ∧ run.files (zipDestination reqPath) = none)
  ∨ (w.mkdirpOk = true ∧ w.files (zipDestination reqPath) = none
      ∧ (∃ a, run.archiver = some a ∧ a.finished = false)
      ∧ run.effects = zipBuilt FILE_DIR reqPath)

/-- A server that already holds an archive of `inf/album`. -/
def cachedAlbumWorld : World :=
  { exampleWorld with
    files := fun path =>
      if path = "./temp/inf/album.zip".toList then some ["inf/album/old.txt".toList] else none }

/-! ## Paths (`path.normalize`, `path.join`, `path.resolve` of POSIX) -/

/-- The loop of `lastIndexOf`: `i` is the index of the next character and
`found` the last index seen so far. -/
def lastIndexOfFrom (c : Char) : Str → Nat → Int → Int
  | [], _, found => found
  | x :: rest, i, found => lastIndexOfFrom c rest (i + 1) (if x = c then (i : Int) else found)

/-- JavaScript `s.lastIndexOf(c)`, which is -1 when `c` does not occur. -/
def lastIndexOf (c : Char) (s : Str) : Int := lastIndexOfFrom c s 0 (-1)

/-- Lower case of one ASCII letter. -/
def lowerChar (c : Char) : Char :=
  if 'A' ≤ c ∧ c ≤ 'Z' then Char.ofNat (c.toNat + 32) else c

/-- JavaScript `s.toLowerCase()` on the ASCII letters. -/
def toLowerCase (s : Str) : Str := s.map lowerChar

/-- The segment loop of `normalizeString`: empty and `.` segments are dropped,
`..` removes the segment before it, or is kept when there is none to remove and
`allowAboveRoot` holds.  `kept` is the result so far, last segment first. -/
def normSegments (allowAboveRoot : Bool) : List Str → List Str → List Str
  | [], kept => kept.reverse
  | seg :: rest, kept =>
    if seg = [] ∨ seg = ['.'] then normSegments allowAboveRoot rest kept
    else if seg = ['.', '.'] then
      match kept with
      | [] =>
        if allowAboveRoot then normSegments allowAboveRoot rest [seg]
        else normSegments allowAboveRoot rest []
      | top :: below =>
        if top = ['.', '.'] then
          (if allowAboveRoot then normSegments allowAboveRoot rest (seg :: top :: below)
           else normSegments allowAboveRoot rest (top :: below))
        else normSegments allowAboveRoot rest below
    else normSegments allowAboveRoot rest (seg :: kept)

/-- `path.normalize(p)`. -/
def normalize (p : Str) : Str :=
  if p = [] then ['.']
  else
    let isAbsolute := p.head? == some '/'
    let trailing := p.getLast? == some '/'
    let body := joinSlash (normSegments (!isAbsolute) (split '/' p) [])
    if body = [] then (if isAbsolute then ['/'] else if trailing then ['.', '/'] else ['.'])
    else (if isAbsolute then '/' :: body else body) ++ (if trailing then ['/'] else [])

/-- `path.join(a, b)`. -/
def pathJoin2 (a b : Str) : Str :=
  if a = [] ∧ b = [] then ['.']
  else if a = [] then normalize b
  else if b = [] then normalize a
  else normalize (a ++ '/' :: b)

/-- `path.resolve(base, rel)` for an absolute `base`. -/
def pathResolve (base rel : Str) : Str :=
  '/' :: joinSlash (normSegments false
    (split '/' (if rel.head? == some '/' then rel else if rel = [] then base
      else base ++ '/' :: rel)) [])

/-! ## Compression types and work items -/

/-- An entry of `IMAGE_COMPRESSION_TYPES`, without its encoder options. -/
structure CompressionType where
  extension : Str
  mime : Str
  method : Str
  deriving DecidableEq

/-- The entry `avif`. -/
def avifType : CompressionType :=
  { extension := "avif".toList, mime := "avif".toList, method := "avif".toList }

/-- The entry `jpg`. -/
def jpgType : CompressionType :=
  { extension := "jpg".toList, mime := "jpg".toList, method := "jpeg".toList }

/-- The entry `jxl`. -/
def jxlType : CompressionType :=
  { extension := "jxl".toList, mime := "jxl".toList, method := "jxl".toList }

/-- The entry `webp`. -/
def webpType : CompressionType :=
  { extension := "webp".toList, mime := "webp".toList, method := "webp".toList }

/-- The table `IMAGE_COMPRESSION_TYPES`, in the order of `Object.keys`. -/
def IMAGE_COMPRESSION_TYPES : List (Str × CompressionType) :=
  [("avif".toList, avifType), ("jpg".toList, jpgType), ("jxl".toList, jxlType),
    ("webp".toList, webpType)]

/-- The list `EXTENSIONS_TO_COMPRESS`. -/
def EXTENSIONS_TO_COMPRESS : List Str :=
  ["jpg".toList, "jpeg".toList, "png".toList, "dng".toList, "avif".toList, "jxl".toList,
    "webp".toList, "heic".toList]

/-- `IMAGE_COMPRESSION_TYPES[DEFAULT_THUMBNAIL_COMPRESSION_TYPE]`. -/
def thumbnailType : CompressionType := avifType

/-- `IMAGE_COMPRESSION_TYPES[key]` with the fallback
`IMAGE_COMPRESSION_TYPES[DEFAULT_IMAGE_COMPRESSION_TYPE]` for a missing entry. -/
def imageTypeOrDefault (key : Option Str) : CompressionType :=
  match key with
  | none => webpType
  | some k => (IMAGE_COMPRESSION_TYPES.lookup k).getD webpType

/-- The `type` of a work item. -/
inductive ItemType where
  | thumbnail : ItemType
  | lossy : ItemType
  deriving DecidableEq

/-- An entry of `PreCacher.items`. -/
structure WorkItem where
  type : ItemType
  compressionType : CompressionType
  destination : Str
  source : Str
  deriving DecidableEq

/-- The directories `FILE_DIR`, `THUMBNAIL_DIR` and `LOSSY_DIR`, as absolute
normalised paths. -/
structure Dirs where
  FILE_DIR : Str
  THUMBNAIL_DIR : Str
  LOSSY_DIR : Str

/-! ## PreCacher._addImagesToList -/

/-- An entry returned by `fs.readdirSync(inDir, {withFileTypes: true})`: a
regular file, or a directory or symbolic link (`file.isDirectory() ||
file.isSymbolicLink()`) on which `readdirSync` returns entries or throws. -/
inductive Source where
  | file : Source
  | listed (entries : List (Str × Source)) : Source
  | unlistable : Source

/-- The extension `_addImagesToList` computes for a file name:
`name.substring(name.lastIndexOf('.')+1).toLowerCase()`. -/
def extensionOf (name : Str) : Str :=
  toLowerCase (substring name (lastIndexOf '.' name + 1).toNat)

/-- The name without the extension, the dot kept:
`name.substring(0, name.length - ext.length)`. -/
def stemOf (name : Str) : Str := name.take (name.length - (extensionOf name).length)

/-- The body of `files.forEach` for an entry that is a regular file: the items
pushed, the thumbnail first and the lossy outputs in the order of the table.
`readable` is what `fs.accessSync(path, R_OK)` reports. -/
def itemsForFile (dirs : Dirs) (readable : Str → Bool) (relativeDir name : Str) :
    List WorkItem :=
  if extensionOf name ∈ EXTENSIONS_TO_COMPRESS then
    (if readable (pathJoin2 (pathJoin2 dirs.THUMBNAIL_DIR relativeDir)
          (stemOf name ++ thumbnailType.extension)) then []
      else [{ type := .thumbnail, compressionType := thumbnailType,
              destination := pathJoin2 (pathJoin2 dirs.THUMBNAIL_DIR relativeDir)
                (stemOf name ++ thumbnailType.extension),
              source := pathJoin2 (pathJoin2 dirs.FILE_DIR relativeDir) name }])
    ++ IMAGE_COMPRESSION_TYPES.filterMap (fun entry =>
        if readable (pathJoin2 (pathJoin2 dirs.LOSSY_DIR relativeDir)
            (stemOf name ++ entry.2.extension)) then none
        else some { type := .lossy, compressionType := entry.2,
                    destination := pathJoin2 (pathJoin2 dirs.LOSSY_DIR relativeDir)
                      (stemOf name ++ entry.2.extension),
                    source := pathJoin2 (pathJoin2 dirs.FILE_DIR relativeDir) name })
  else []

/-- Whether `file.isDirectory() || file.isSymbolicLink()` holds of an entry. -/
def Source.isDirectoryOrLink : Source → Bool
  | .file => false
  | _ => true

mutual
/-- `_addImagesToList(relativeDir)` (file-server.mjs 107-145) on the entry at
`relativeDir`, starting from the backlog `items`: `none` when an exception
leaves the call, which happens when `fs.readdirSync(inDir)` throws, that call
standing before the `try`. -/
def addImagesToList (dirs : Dirs) (readable : Str → Bool) (relativeDir : Str) :
    Source → List WorkItem → Option (List WorkItem)
  | .file, _ => none
  | .unlistable, _ => none
  | .listed files, items => some (forEachEntry dirs readable relativeDir files items)
/-- The `files.forEach` inside the `try`: an exception that leaves a recursive
call ends the loop and is caught by the `catch` of this call. -/
def forEachEntry (dirs : Dirs) (readable : Str → Bool) (relativeDir : Str) :
    List (Str × Source) → List WorkItem → List WorkItem
  | [], items => items
  | (name, s) :: rest, items =>
    if s.isDirectoryOrLink then
      match addImagesToList dirs readable (pathJoin2 relativeDir name) s items with
      | some items1 => forEachEntry dirs readable relativeDir rest items1
      | none => items
    else
      forEachEntry dirs readable relativeDir rest
        (items ++ itemsForFile dirs readable relativeDir name)
end

mutual
/-- Every directory or symbolic link at or below this entry can be listed. -/
def Source.allListed : Source → Bool
  | .file => true
  | .listed entries => entriesAllListed entries
  | .unlistable => false
/-- Every directory or symbolic link among or below these entries can be
listed. -/
def entriesAllListed : List (Str × Source) → Bool
  | [] => true
  | (_, s) :: rest => s.allListed && entriesAllListed rest
end

mutual
/-- The items the files at or below an entry call for: for a regular file its
own items, for a directory those of its files, in the order of the listings. -/
def expectedItems (dirs : Dirs) (readable : Str → Bool) (relativeDir name : Str) :
    Source → List WorkItem
  | .file => itemsForFile dirs readable relativeDir name
  | .unlistable => []
  | .listed entries => expectedEntries dirs readable (pathJoin2 relativeDir name) entries
/-- The items the files below a directory call for. -/
def expectedEntries (dirs : Dirs) (readable : Str → Bool) (relativeDir : Str) :
    List (Str × Source) → List WorkItem
  | [] => []
  | (name, s) :: rest =>
    expectedItems dirs readable relativeDir name s ++ expectedEntries dirs readable relativeDir rest
end

/-! ## PreCacher: draining the backlog -/

/-- The bytes of a file. -/
abbrev Bytes := List Nat

/-- The files of the served tree and of the caches, by path. -/
abbrev Disk := Str → Option Bytes

/-- The encoder and the cache volume: `encode` is the `sharp` pipeline of
`makeThumbnail` / `makeLossyImage` up to `toBuffer` (`none` for an error), and
`writable` tells whether `fs.writeFile` succeeds at a path. -/
structure Media where
  encode : ItemType → CompressionType → Bytes → Option Bytes
  writable : Str → Bool

/-- The state of the `PreCacher`: the backlog `items`; the items popped whose
callbacks have not yet reached `_continueOrComplete`; the disk; and, for the
record, the items popped so far, the number of encoder calls and the
destinations written. -/
structure PreCacher where
  items : List WorkItem
  inFlight : List WorkItem
  disk : Disk
  dequeued : List WorkItem
  encoderCalls : Nat
  written : List Str

/-- The state after `new PreCacher(..)` has scanned the tree. -/
def PreCacher.create (items : List WorkItem) (disk : Disk) : PreCacher :=
  { items := items, inFlight := [], disk := disk, dequeued := [], encoderCalls := 0,
    written := [] }

/-- `_process()` (file-server.mjs 239-270) up to the call of `fs.readFile`:
`this.items.pop()` takes the last item; on an empty backlog `item` is
`undefined` and reading `item.type` raises a `TypeError` (`none`). -/
def PreCacher._process (p : PreCacher) : Option PreCacher :=
  match p.items.getLast? with
  | none => none
  | some item =>
    some { p with items := p.items.dropLast, inFlight := p.inFlight ++ [item],
                  dequeued := p.dequeued ++ [item] }

/-- `_continueOrComplete()`. -/
def PreCacher._continueOrComplete (p : PreCacher) : Option PreCacher :=
  if p.items.length ≠ 0 then p._process else some p

/-- The callbacks of the `k`-th item in flight, taken as one turn: the
callback of `fs.readFile(item.source)`, then `this.makeThumbnail` or
`this.makeLossyImage` (encode, then `fs.writeFile(destination)`), each path
ending in `_continueOrComplete()`. -/
def PreCacher.finish (media : Media) (p : PreCacher) (k : Nat) : Option PreCacher :=
  match p.inFlight.get? k with
  | none => some p
  | some item =>
    match p.disk item.source with
    | none => PreCacher._continueOrComplete { p with inFlight := p.inFlight.eraseIdx k }
    | some imageBuffer =>
      match media.encode item.type item.compressionType imageBuffer with
      | none =>
        PreCacher._continueOrComplete
          { p with inFlight := p.inFlight.eraseIdx k, encoderCalls := p.encoderCalls + 1 }
      | some out =>
        if media.writable item.destination then
          PreCacher._continueOrComplete
            { p with inFlight := p.inFlight.eraseIdx k, encoderCalls := p.encoderCalls + 1,
                     disk := fun q => if q = item.destination then some out else p.disk q,
                     written := p.written ++ [item.destination] }
        else
          PreCacher._continueOrComplete
            { p with inFlight := p.inFlight.eraseIdx k, encoderCalls := p.encoderCalls + 1 }

/-- What happens to the `PreCacher`: `start()`; the expiry of the watcher's
timer, whose `_addImagesToList` has found the items `found`; the completion of
the `k`-th item in flight. -/
inductive Event where
  | start : Event
  | timer (found : List WorkItem) : Event
  | finish (k : Nat) : Event

/-- One event.  `start()` is `this._process()`; the timer callback is
`this._addImagesToList(relativeDir); this._process(); this.watch(relativeDir)`. -/
def PreCacher.step (media : Media) (p : PreCacher) : Event → Option PreCacher
  | .start => p._process
  | .timer found => PreCacher._process { p with items := p.items ++ found }
  | .finish k => p.finish media k

/-- A sequence of events; `none` once an exception has been raised. -/
def PreCacher.run (media : Media) : List Event → PreCacher → Option PreCacher
  | [], p => some p
  | e :: rest, p =>
    match p.step media e with
    | some p1 => PreCacher.run media rest p1
    | none => none

/-! ## imageCompress -/

/-- The part of a request `imageCompress` reads: `req.path`, whether
`req.headers['x-no-compression']` is set, `req.query.original` and
`req.query.imagecompress`. -/
structure ImageRequest where
  path : Str
  noCompression : Bool
  original : Option Str
  imagecompress : Option Str

/-- What `imageCompress` decides to do: raise the `URIError` of
`decodeURIComponent`, send the original file, call
`makeLossyImage(originalPath, lossyConvertedPath, true, imageType)`, or answer
404. -/
inductive ImagePlan where
  | throwURIError : ImagePlan
  | sendOriginal (originalPath : Str) : ImagePlan
  | makeLossyImage (originalPath lossyConvertedPath : Str) (imageType : CompressionType) :
      ImagePlan
  | notFound : ImagePlan
  deriving DecidableEq

/-- The middleware `imageCompress(req, res, next)` (file-server.mjs 916-949) up
to the call of `makeLossyImage`.  `lastDotIndex` is taken in `req.path` and
used to cut the decoded `reqPath`. -/
def imageCompress (dirs : Dirs) (req : ImageRequest) : ImagePlan :=
  match decodeURIComponent req.path with
  | none => .throwURIError
  | some decoded =>
    let reqPath := if endsWithSlash decoded then decoded.take (decoded.length - 1) else decoded
    let originalPath := pathJoin2 dirs.FILE_DIR ('.' :: reqPath)
    if req.noCompression ∨ req.original = some ['1'] then .sendOriginal originalPath
    else
      let lastDotIndex := lastIndexOf '.' req.path
      if lastDotIndex ≠ -1 then
        let ext := toLowerCase (substring req.path (lastDotIndex + 1).toNat)
        if ext ∈ EXTENSIONS_TO_COMPRESS then
          let imageType := imageTypeOrDefault req.imagecompress
          .makeLossyImage originalPath
            (pathResolve dirs.LOSSY_DIR
              ('.' :: reqPath.take lastDotIndex.toNat ++ '.' :: imageType.extension))
            imageType
        else if ext = "gif".toList then .sendOriginal originalPath
        else .notFound
      else .notFound

/-! ## Concrete inputs for the caches -/

/-- The directories used in concrete runs. -/
def exampleDirs : Dirs :=
  { FILE_DIR := "/srv/file-dir".toList, THUMBNAIL_DIR := "/srv/thumbnails".toList,
    LOSSY_DIR := "/srv/lossy".toList }

/-- An empty cache: nothing is readable. -/
def nothingReadable : Str → Bool := fun _ => false

/-- A served tree whose directory `inf` lists a symbolic link to a regular
file (on which `readdirSync` throws) before the image `b.jpg`. -/
def linkFirstTree : Source :=
  .listed [("inf".toList, .listed [("link".toList, .unlistable), ("b.jpg".toList, .file)])]

/-- A served tree whose directory `inf` holds the image `my photo.jpg`. -/
def photoTree : Source := .listed [("inf".toList, .listed [("my photo.jpg".toList, .file)])]

/-- A served tree whose directory `inf` holds the image `a.b.jpg`. -/
def dottedTree : Source := .listed [("inf".toList, .listed [("a.b.jpg".toList, .file)])]

/-- A served tree that holds one file named `jpg`, without a dot. -/
def bareNameTree : Source := .listed [("jpg".toList, .file)]

/-- The request `GET /lossy/inf/my%20photo.jpg`. -/
def photoRequest : ImageRequest :=
  { path := "/inf/my%20photo.jpg".toList, noCompression := false, original := none,
    imagecompress := none }

/-- The request `GET /lossy/inf/a.b.jpg`. -/
def dottedRequest : ImageRequest :=
  { path := "/inf/a.b.jpg".toList, noCompression := false, original := none,
    imagecompress := none }

/-- The lossy `webp` item for `inf/one.jpg`. -/
def itemOne : WorkItem :=
  { type := .lossy, compressionType := webpType, destination := "/srv/lossy/inf/one.webp".toList,
    source := "/srv/file-dir/inf/one.jpg".toList }

/-- The thumbnail item for `inf/two.jpg`. -/
def itemTwo : WorkItem :=
  { type := .thumbnail, compressionType := avifType,
    destination := "/srv/thumbnails/inf/two.avif".toList,
    source := "/srv/file-dir/inf/two.jpg".toList }

/-- A disk that holds the source `inf/one.jpg` and an older output for it. -/
def exampleDisk : Disk := fun path =>
  if path = "/srv/file-dir/inf/one.jpg".toList then some [1, 2, 3]
  else if path = "/srv/lossy/inf/one.webp".toList then some [9]
  else none

/-- An encoder that always succeeds, on a cache volume that is writable. -/
def exampleMedia : Media :=
  { encode := fun _ _ bytes => some (0 :: bytes), writable := fun _ => true }

/-! ## forbidden -/

/-- JavaScript `s.includes(t)`. -/
def includes (t : Str) : Str → Bool
  | [] => startsWith [] t
  | c :: rest => startsWith (c :: rest) t || includes t rest

/-- The middleware `forbidden(req,res,next)` (file-server.mjs 353-362) on
`req.originalUrl`: the calls it makes on the response.  The first `if` has
neither a `return` nor an `else`, so the second statement runs after the 400
response for `//` as well. -/
def forbidden (originalUrl : Str) : List Effect :=
  (if includes "//".toList originalUrl then [Effect.send 400] else [])
  ++ (if includes "..".toList originalUrl then [Effect.send 400] else [Effect.next])

/-- Whether `path` lies below the directory `root`. -/
def isUnder (root path : Str) : Bool := startsWith path (root ++ ['/'])

/-! ## makeLossyImage and makeThumbnail -/

/-- The files seen by the request handlers: the regular files by path, the
paths that are directories (on which `fs.stat` and `fs.access` succeed and
`fs.readFile` fails), and the directories for which `mkdirp` resolves. -/
structure Volume where
  disk : Disk
  isDirectory : Str → Bool
  mkdirpOk : Str → Bool

/-- How the promise of `makeLossyImage` settles: `resolve(image)`, where
`image` is `undefined` (`none`) in build-only mode, or `reject(err)`. -/
inductive Settlement where
  | resolved (image : Option Bytes) : Settlement
  | rejected : Settlement
  deriving DecidableEq

/-- One call of `makeLossyImage`: how its promise settles, the number of calls
of the encoder, the files once the callback of `fs.writeFile` has run, and the
paths written. -/
structure LossyRun where
  settlement : Settlement
  encoderCalls : Nat
  disk : Disk
  written : List Str

/-- The miss branch of `makeLossyImage`: read the original, `mkdirp` the
directory of `lossyPath`, encode, `resolve`, then `fs.writeFile(lossyPath)`,
whose failure is only logged. -/
def buildLossyImage (media : Media) (vol : Volume) (originalPath lossyPath : Str)
    (returnImage : Bool) (imageType : CompressionType) : LossyRun :=
  match vol.disk originalPath with
  | none => { settlement := .rejected, encoderCalls := 0, disk := vol.disk, written := [] }
  | some data =>
    if vol.mkdirpOk (lossyPath.take (lastIndexOf '/' lossyPath).toNat) then
      match media.encode .lossy imageType data with
      | none => { settlement := .rejected, encoderCalls := 1, disk := vol.disk, written := [] }
      | some out =>
        if media.writable lossyPath then
          { settlement := .resolved (if returnImage then some out else none), encoderCalls := 1,
            disk := fun q => if q = lossyPath then some out else vol.disk q,
            written := [lossyPath] }
        else
          { settlement := .resolved (if returnImage then some out else none), encoderCalls := 1,
            disk := vol.disk, written := [] }
    else { settlement := .rejected, encoderCalls := 0, disk := vol.disk, written := [] }

/-- The function `makeLossyImage(originalPath, lossyPath, returnImage,
imageType)` (file-server.mjs 872-914).  The first call is `fs.readFile` of
`lossyPath` when the image is to be returned and `fs.stat` otherwise. -/
def makeLossyImage (media : Media) (vol : Volume) (originalPath lossyPath : Str)
    (returnImage : Bool) (imageType : CompressionType) : LossyRun :=
  if returnImage then
    match vol.disk lossyPath with
    | some data =>
      { settlement := .resolved (some data), encoderCalls := 0, disk := vol.disk, written := [] }
    | none => buildLossyImage media vol originalPath lossyPath returnImage imageType
  else if (vol.disk lossyPath).isSome || vol.isDirectory lossyPath then
    { settlement := .resolved none, encoderCalls := 0, disk := vol.disk, written := [] }
  else buildLossyImage media vol originalPath lossyPath returnImage imageType

/-- `IMAGE_COMPRESSION_TYPES[key]` with the fallback
`IMAGE_COMPRESSION_TYPES[DEFAULT_THUMBNAIL_COMPRESSION_TYPE]` for a missing
entry. -/
def thumbnailTypeOrDefault (key : Option Str) : CompressionType :=
  match key with
  | none => thumbnailType
  | some k => (IMAGE_COMPRESSION_TYPES.lookup k).getD thumbnailType

/-- The paths `makeThumbnail` derives from the decoded request path. -/
structure ThumbnailPaths where
  originalPath : Str
  directory : Str
  output : Str
  deriving DecidableEq

/-- The first lines of `makeThumbnail` (file-server.mjs 806-817), after
`decodeURIComponent`: `substr(0, n)` with `n = -1` is the empty string. -/
def thumbnailPaths (dirs : Dirs) (decoded : Str) (imageType : CompressionType) :
    ThumbnailPaths :=
  let reqPath := if endsWithSlash decoded then decoded.take (decoded.length - 1) else decoded
  let lastSlash := lastIndexOf '/' reqPath
  let directory := pathJoin2 dirs.THUMBNAIL_DIR ('.' :: reqPath.take lastSlash.toNat)
  let file := substring reqPath (lastSlash + 1).toNat
  let fileNoExtension := file.take (lastIndexOf '.' file).toNat
  { originalPath := pathJoin2 dirs.FILE_DIR ('.' :: reqPath),
    directory := directory,
    output := pathResolve directory (fileNoExtension ++ '.' :: imageType.extension) }

/-- What `makeThumbnail` answers: `res.sendFile(file)`, `res.send(out)` with
the encoder's output, or the `URIError` of `decodeURIComponent`. -/
inductive ImageResponse where
  | sendFile (file : Str) : ImageResponse
  | sendImage (out : Bytes) : ImageResponse
  | throwURIError : ImageResponse
  deriving DecidableEq

/-- One call of `makeThumbnail`: the response, the number of calls of the
encoder, the files once the callback of `fs.writeFile` has run, and the paths
written. -/
structure ThumbnailRun where
  response : ImageResponse
  encoderCalls : Nat
  disk : Disk
  written : List Str

/-- The middleware `makeThumbnail(req,res,next)` (file-server.mjs 805-852).
`fs.access(output, R_OK)` succeeds on a file and on a directory. -/
def makeThumbnail (dirs : Dirs) (media : Media) (vol : Volume) (req : ImageRequest) :
    ThumbnailRun :=
  match decodeURIComponent req.path with
  | none => { response := .throwURIError, encoderCalls := 0, disk := vol.disk, written := [] }
  | some decoded =>
    let imageType := thumbnailTypeOrDefault req.imagecompress
    let paths := thumbnailPaths dirs decoded imageType
    if (vol.disk paths.output).isSome || vol.isDirectory paths.output then
      { response := .sendFile paths.output, encoderCalls := 0, disk := vol.disk, written := [] }
    else if vol.mkdirpOk paths.directory then
      match vol.disk paths.originalPath with
      | some imageBuffer =>
        match media.encode .thumbnail imageType imageBuffer with
        | none =>
          { response := .sendFile paths.originalPath, encoderCalls := 1, disk := vol.disk,
            written := [] }
        | some out =>
          if media.writable paths.output then
            { response := .sendImage out, encoderCalls := 1,
              disk := fun q => if q = paths.output then some out else vol.disk q,
              written := [paths.output] }
          else
            { response := .sendImage out, encoderCalls := 1, disk := vol.disk, written := [] }
      | none =>
        { response := .sendFile paths.originalPath, encoderCalls := 0, disk := vol.disk,
          written := [] }
    else
      { response := .sendFile paths.originalPath, encoderCalls := 0, disk := vol.disk,
        written := [] }

/-! ## PreCacher.watch: the shared timer -/

/-- The `event` argument of the listener of `fs.watch`. -/
inductive WatchEvent where
  | rename : WatchEvent
  | change : WatchEvent
  deriving DecidableEq

/-- A timer armed by `setTimeout` and neither run nor cleared yet: its handle,
the time of the event loop at which it is due, and the `relativeDir` its
callback re-scans. -/
structure Timer where
  handle : Nat
  due : Nat
  relativeDir : Str
  deriving DecidableEq

/-- The timers of a `PreCacher`: the clock of the event loop in milliseconds,
the field `this.timer`, the timers armed (in the order of `setTimeout`, which
is the order of their due times since every delay is 1000), the next handle,
and the re-scans run so far (time and `relativeDir` of each call of
`_addImagesToList` by a timer callback). -/
structure Watcher where
  now : Nat
  timer : Option Nat
  armed : List Timer
  nextHandle : Nat
  scans : List (Nat × Str)

/-- The state after `new PreCacher(..)`: `this.timer = null`, no timer armed. -/
def Watcher.create : Watcher :=
  { now := 0, timer := none, armed := [], nextHandle := 1, scans := [] }

/-- The event loop reaches the time `t`: every timer due by then runs its
callback, `this._addImagesToList(relativeDir); this._process();
this.watch(relativeDir)`, which arms no timer and leaves `this.timer` as it
is. -/
def Watcher.advance (w : Watcher) (t : Nat) : Watcher :=
  { w with
    now := max w.now t,
    armed := w.armed.filter (fun tm => decide (t < tm.due)),
    scans := w.scans
      ++ (w.armed.filter (fun tm => decide (tm.due ≤ t))).map (fun tm => (tm.due, tm.relativeDir)) }

/-- `clearTimeout(handle)`. -/
def Watcher.clearTimeout (w : Watcher) (handle : Nat) : Watcher :=
  { w with armed := w.armed.filter (fun tm => decide (tm.handle ≠ handle)) }

/-- `this.timer = setTimeout(callback, 1000)` in the listener registered for
`relativeDir`. -/
def Watcher.setTimeout (w : Watcher) (relativeDir : Str) : Watcher :=
  { w with
    timer := some w.nextHandle,
    armed := w.armed ++ [{ handle := w.nextHandle, due := w.now + 1000, relativeDir := relativeDir }],
    nextHandle := w.nextHandle + 1 }

/-- The listener that `watch(relativeDir)` registers with `fs.watch`
(file-server.mjs 175-183), called at the time `t`. -/
def Watcher.onEvent (w : Watcher) (t : Nat) (event : WatchEvent) (relativeDir : Str) : Watcher :=
  let w1 := w.advance t
  match event with
  | .rename =>
    (match w1.timer with
      | some handle => w1.clearTimeout handle
      | none => w1).setTimeout relativeDir
  | .change => w1

/-- The events of the watched directories, in the order of their arrival. -/
def Watcher.run : List (Nat × WatchEvent × Str) → Watcher → Watcher
  | [], w => w
  | (t, event, relativeDir) :: rest, w => Watcher.run rest (w.onEvent t event relativeDir)

/-- A burst of `rename` events: the time and the watched directory of each. -/
def renames (burst : List (Nat × Str)) : List (Nat × WatchEvent × Str) :=
  burst.map (fun e => (e.1, WatchEvent.rename, e.2))

/-! ## Concrete inputs for the request handlers -/

/-- A volume that holds the files of `exampleDisk`, on which `mkdirp`
succeeds. -/
def exampleVolume : Volume :=
  { disk := exampleDisk, isDirectory := fun _ => false, mkdirpOk := fun _ => true }

/-- The request `GET /thumbnails/inf/one.jpg`. -/
def oneRequest : ImageRequest :=
  { path := "/inf/one.jpg".toList, noCompression := false, original := none,
    imagecompress := none }

/-- The request `GET /lossy/inf/notes.txt`. -/
def notesRequest : ImageRequest :=
  { path := "/inf/notes.txt".toList, noCompression := false, original := none,
    imagecompress := none }

/-- The request `GET /lossy/inf/README`, a name without a dot. -/
def readmeRequest : ImageRequest :=
  { path := "/inf/README".toList, noCompression := false, original := none,
    imagecompress := none }

/-- The request `GET /lossy/inf/anim.GIF`. -/
def gifRequest : ImageRequest :=
  { path := "/inf/anim.GIF".toList, noCompression := false, original := none,
    imagecompress := none }

/-- The request `GET /lossy/inf/%2e%2e/%2e%2e/etc/key.png`. -/
def escapingRequest : ImageRequest :=
  { path := "/inf/%2e%2e/%2e%2e/etc/key.png".toList, noCompression := false, original := none,
    imagecompress := none }

/-- The request `GET /files/inf/%2e%2e/%2e%2e/etc?zip=1`. -/
def escapingZipRequest : Request :=
  { path := "/inf/%2e%2e/%2e%2e/etc".toList, zip := some ['1'] }

/-- A table that protects `secret` under the key `hasAccess` looks up. -/
def listingRule : PasswordMap := tableOf [("secret".toList, "p1".toList)]

/-- A table that protects `secret` under the key `checkPassword` looks up. -/
def gateRule : PasswordMap := tableOf [("inf/secret".toList, "p1".toList)]

/-- The volume a later call sees: the files as an earlier call left them. -/
def Volume.after (vol : Volume) (disk : Disk) : Volume := { vol with disk := disk }

/-- The one timer of the watcher is armed for the event that came at the time
`t` in the directory `relativeDir`: it is the only timer armed, `this.timer`
holds its handle, and it is due 1000 ms after `t`. -/
def Watcher.Armed (w : Watcher) (t : Nat) (relativeDir : Str) : Prop :=
  ∃ handle, w.armed = [{ handle := handle, due := t + 1000, relativeDir := relativeDir }]
    ∧ w.timer = some handle ∧ w.now = t

/-! ## Theorems -/

theorem split_ne_nil (sep : Char) (s : Str) : split sep s ≠ [] := by
  cases s with
  | nil => simp [split]
  | cons c cs =>
    simp only [split]
    split
    · simp
    · split <;> simp

theorem split_no_sep (sep : Char) (s : Str) : ∀ p ∈ split sep s, sep ∉ p := by
  induction s with
  | nil => simp [split]
  | cons c cs ih =>
    intro p hp
    simp only [split] at hp
    split at hp
    · rcases List.mem_cons.1 hp with h | h
      · subst h; simp
      · exact ih p h
    · rename_i hc
      split at hp
      · rename_i heq
        exact absurd heq (split_ne_nil sep cs)
      · rename_i q qs heq
        rcases List.mem_cons.1 hp with h | h
        · subst h
          have hq : sep ∉ q := ih q (by rw [heq]; exact List.mem_cons_self _ _)
          intro hmem
          rcases List.mem_cons.1 hmem with h1 | h1
          · exact hc h1.symm
          · exact hq h1
        · exact ih p (by rw [heq]; exact List.mem_cons_of_mem _ h)

theorem joinSlash_append_singleton (pre : List Str) (p : Str) (h : pre ≠ []) :
    joinSlash (pre ++ [p]) = joinSlash pre ++ '/' :: p := by
  induction pre with
  | nil => exact absurd rfl h
  | cons a rest ih =>
    cases rest with
    | nil => simp [joinSlash]
    | cons b rest2 =>
      have hrec := ih (by simp)
      show a ++ '/' :: joinSlash ((b :: rest2) ++ [p]) = (a ++ '/' :: joinSlash (b :: rest2)) ++ '/' :: p
      rw [hrec]
      simp

theorem dropWhile_append_of_nil {α : Type} (q : α → Bool) (l m : List α)
    (h : l.dropWhile q = []) : (l ++ m).dropWhile q = m.dropWhile q := by
  induction l with
  | nil => simp
  | cons a l ih =>
    simp only [List.cons_append, List.dropWhile_cons] at h ⊢
    by_cases ha : q a = true
    · simp only [ha, if_true] at h ⊢
      exact ih h
    · simp [ha] at h

theorem dropWhile_append_of_cons {α : Type} (q : α → Bool) (l m : List α) (a : α)
    (t : List α) (h : l.dropWhile q = a :: t) : (l ++ m).dropWhile q = a :: t ++ m := by
  induction l with
  | nil => simp at h
  | cons b l ih =>
    simp only [List.cons_append, List.dropWhile_cons] at h ⊢
    by_cases hb : q b = true
    · simp only [hb, if_true] at h ⊢
      exact ih h
    · simp only [hb, Bool.false_eq_true, if_false] at h ⊢
      injection h with h1 h2
      subst h1 h2
      rfl

theorem stripLeadingSlashes_of_not_mem (p : Str) (h : '/' ∉ p) : stripLeadingSlashes p = p := by
  cases p with
  | nil => rfl
  | cons c cs =>
    have hc : c ≠ '/' := fun e => h (by simp [e])
    simp [stripLeadingSlashes, List.dropWhile_cons, hc]

theorem stripLeadingSlashes_head (s : Str) (c : Char) (cs : Str)
    (h : stripLeadingSlashes s = c :: cs) : c ≠ '/' := by
  induction s with
  | nil => simp [stripLeadingSlashes] at h
  | cons a l ih =>
    simp only [stripLeadingSlashes, List.dropWhile_cons] at h
    by_cases ha : a = '/'
    · simp only [ha, decide_True, if_true] at h
      exact ih h
    · simp only [ha, decide_False] at h
      simp at h
      exact h.1 ▸ ha

theorem nextPortion_nil (p : Str) : nextPortion [] p = p := by
  simp [nextPortion, startsWith, substring]

theorem nextPortion_cons (a : Char) (l p : Str) (ha : a ≠ '/') :
    nextPortion (a :: l) p = a :: l ++ '/' :: p := by
  simp [nextPortion, startsWith, substring, Ne.symm ha]

theorem nextPortion_strip (pre : List Str) (p : Str) (hp : '/' ∉ p) :
    nextPortion (stripLeadingSlashes (joinSlash pre)) p
      = stripLeadingSlashes (joinSlash (pre ++ [p])) := by
  by_cases hpre : pre = []
  · subst hpre
    have h1 : stripLeadingSlashes (joinSlash ([] ++ [p])) = p :=
      stripLeadingSlashes_of_not_mem p hp
    rw [h1]
    exact nextPortion_nil p
  · rw [joinSlash_append_singleton pre p hpre]
    have hstrip : stripLeadingSlashes ('/' :: p) = p := by
      have := stripLeadingSlashes_of_not_mem p hp
      simpa [stripLeadingSlashes, List.dropWhile_cons] using this
    cases hacc : stripLeadingSlashes (joinSlash pre) with
    | nil =>
      have h2 : stripLeadingSlashes (joinSlash pre ++ '/' :: p) = stripLeadingSlashes ('/' :: p) :=
        dropWhile_append_of_nil _ _ _ hacc
      rw [h2, hstrip]
      exact nextPortion_nil p
    | cons a l =>
      have ha : a ≠ '/' := stripLeadingSlashes_head (joinSlash pre) a l hacc
      have h2 : stripLeadingSlashes (joinSlash pre ++ '/' :: p) = a :: l ++ '/' :: p :=
        dropWhile_append_of_cons _ _ _ a l hacc
      rw [h2]
      exact nextPortion_cons a l p ha

theorem initialRuns_map_append {α β : Type} (f : List α → β) (pre : List α) (a : α)
    (rest : List α) :
    (initialRuns (a :: rest)).map (fun t => f (pre ++ t))
      = f (pre ++ [a]) :: (initialRuns rest).map (fun t => f ((pre ++ [a]) ++ t)) := by
  simp [initialRuns, List.map_map, Function.comp_def]

/-- The value looked up at a key that is in the table, or that is not the name
of an inherited member. -/
theorem getProperty_of_own (map : PasswordMap) (key : Str)
    (h : map key = none → inheritedMember key = none) :
    getProperty map key = (map key).map PropertyValue.secret := by
  cases hm : map key with
  | none => simp [getProperty, hm, h hm]
  | some s => simp [getProperty, hm]

/-- The loop of `hasAccess`, started after the segments `pre`, finds the first
stripped cumulative key with a non-empty secret, when no key it looks up
outside the table is the name of an inherited member. -/
theorem hasAccessLoop_eq (map : PasswordMap) (pass : Option Str) (rest : List Str) :
    ∀ pre : List Str, (∀ p ∈ rest, '/' ∉ p) →
      (∀ key ∈ (initialRuns rest).map (fun t => stripLeadingSlashes (joinSlash (pre ++ t))),
        map key = none → inheritedMember key = none) →
      hasAccessLoop map pass rest (stripLeadingSlashes (joinSlash pre))
        = match ((initialRuns rest).map
              (fun t => stripLeadingSlashes (joinSlash (pre ++ t)))).findSome?
              (truthySecret map) with
          | some secret => looseEq pass secret
          | none => true := by
  induction rest with
  | nil => intro pre _ _; simp [hasAccessLoop, initialRuns]
  | cons p rest ih =>
    intro pre hno hown
    have hp : '/' ∉ p := hno p (List.mem_cons_self _ _)
    have hrest : ∀ q ∈ rest, '/' ∉ q := fun q hq => hno q (List.mem_cons_of_mem _ hq)
    rw [initialRuns_map_append (fun l => stripLeadingSlashes (joinSlash l))] at hown ⊢
    have hown0 := hown _ (List.mem_cons_self _ _)
    have hownRest : ∀ key ∈ (initialRuns rest).map
        (fun t => stripLeadingSlashes (joinSlash ((pre ++ [p]) ++ t))),
        map key = none → inheritedMember key = none :=
      fun key hk => hown key (List.mem_cons_of_mem _ hk)
    simp only [hasAccessLoop, List.findSome?_cons]
    rw [nextPortion_strip pre p hp, getProperty_of_own map _ hown0]
    cases hm : map (stripLeadingSlashes (joinSlash (pre ++ [p]))) with
    | none =>
      simp only [truthySecret, hm, Option.filter, Option.map_none']
      exact ih (pre ++ [p]) hrest hownRest
    | some s =>
      by_cases hs : truthy s = true
      · simp [truthySecret, hm, Option.filter, hs, PropertyValue.truthy, PropertyValue.looseEq]
      · simp only [truthySecret, hm, Option.filter, hs, Option.map_some', PropertyValue.truthy]
        simp only [Bool.false_eq_true, if_false]
        exact ih (pre ++ [p]) hrest hownRest

/-- C1 (as amended): for every password table, logical path and credential,
where no key looked up outside the table is the name of a member that every
object inherits from `Object.prototype`: `hasAccess` walks the segments below
the root and returns `credential == secret` for the first looked-up key that
has a non-empty secret, the looked-up keys being the cumulative keys with
leading slashes removed; it returns true when no such key exists. -/
theorem hasAccess_first_truthy_key (map : PasswordMap) (path : Str) (pass : Option Str)
    (hown : ∀ key ∈ (cumulativeKeys (segmentsBelowRoot path)).map stripLeadingSlashes,
      map key = none → inheritedMember key = none) :
    hasAccess map path pass = hasAccessFirstTruthy map path pass := by
  have h := hasAccessLoop_eq map pass (segmentsBelowRoot path) []
    (fun p hp => split_no_sep '/' (substring path 1) p (List.mem_of_mem_tail hp))
  simp only [joinSlash, stripLeadingSlashes, List.dropWhile_nil, List.nil_append] at h
  simp only [cumulativeKeys, List.map_map] at hown
  simp only [hasAccess, hasAccessFirstTruthy, cumulativeKeys, List.map_map]
  exact h hown

/-- C1 (witness): the path `/inf/secret/nested/file` with the credential `p1`
on the table `secret: p1`, `secret/nested: p2`; the keys looked up are
`secret`, `secret/nested` and `secret/nested/file`. -/
theorem hasAccess_first_truthy_key_witness :
    (∀ key ∈ (cumulativeKeys (segmentsBelowRoot "/inf/secret/nested/file".toList)).map
        stripLeadingSlashes,
      rulesForListing key = none → inheritedMember key = none)
    ∧ hasAccess rulesForListing "/inf/secret/nested/file".toList (some "p1".toList)
      = hasAccessFirstTruthy rulesForListing "/inf/secret/nested/file".toList
          (some "p1".toList)
    ∧ hasAccessFirstTruthy rulesForListing "/inf/secret/nested/file".toList
          (some "p1".toList) = true :=
  ⟨by decide,
    hasAccess_first_truthy_key rulesForListing "/inf/secret/nested/file".toList
      (some "p1".toList) (by decide),
    by decide⟩

/-- A key that is the name of an inherited member and not in the table: on the
empty table `hasAccess` denies `/inf/constructor` without a credential, and
`checkPassword` answers 403 to the path `/constructor/x`; a credential that
is the text of the function is accepted. -/
theorem inherited_member_counts_as_secret :
    hasAccess (tableOf []) "/inf/constructor".toList none = false
    ∧ checkPassword (tableOf []) "/constructor/x".toList none = [Effect.send 403]
    ∧ hasAccess (tableOf []) "/inf/constructor".toList
        (some "function Object() \x7b [native code] \x7d".toList) = true
    ∧ hasAccess (tableOf [("constructor".toList, "p".toList)]) "/inf/constructor".toList
        (some "p".toList) = true := by
  decide

/-- C1 (counterexample): with the table `secret ↦ ""` the path `/inf/secret/x`
is granted without a credential although its first cumulative key has an
entry, and with the table `secret ↦ p` the path `/inf//secret` is denied
although none of its cumulative keys (the empty key and `/secret`) is in the
table. -/
theorem hasAccess_not_first_cumulative_key :
    (hasAccess (tableOf [("secret".toList, [])]) "/inf/secret/x".toList none = true
      ∧ hasAccessSpec (tableOf [("secret".toList, [])]) "/inf/secret/x".toList none = false)
    ∧ (hasAccess (tableOf [("secret".toList, "p".toList)]) "/inf//secret".toList none = false
      ∧ hasAccessSpec (tableOf [("secret".toList, "p".toList)]) "/inf//secret".toList none
          = true) := by
  decide


/-! ### The walk: measure and soundness -/

theorem statWork_pos (n : Node) : 1 ≤ n.statWork := by
  cases n <;> simp only [Node.statWork] <;> omega

theorem readdirWork_lt_statWork (n : Node) (h : n.stat = .directory) :
    n.readdirWork < n.statWork := by
  cases n <;> simp [Node.stat] at h <;> simp only [Node.readdirWork, Node.statWork] <;> omega

theorem readdirWork_pos (n : Node) : 1 ≤ n.readdirWork := by
  cases n <;> simp only [Node.readdirWork] <;> omega

mutual
theorem pending_le_work : ∀ a : Act, a.pending ≤ a.work
  | .idle => by simp [Act.pending, Act.work]
  | .stat _ n => by
    simp only [Act.pending, Act.work]
    exact statWork_pos n
  | .readdir _ n => by
    simp only [Act.pending, Act.work]
    exact readdirWork_pos n
  | .each _ _ files => by
    simp only [Act.pending, Act.work]
    exact pendingList_le_workList files
theorem pendingList_le_workList : ∀ l : List Act, pendingList l ≤ workList l
  | [] => by simp [pendingList, workList]
  | a :: rest => by
    simp only [pendingList, workList]
    exact Nat.add_le_add (pending_le_work a) (pendingList_le_workList rest)
end

theorem quietCount_le_length : ∀ l : List Act, quietCount l ≤ l.length
  | [] => by simp [quietCount]
  | a :: rest => by
    have := quietCount_le_length rest
    simp only [quietCount, List.length_cons]
    split <;> omega

theorem pendingList_eq_zero_of_quietCount :
    ∀ l : List Act, quietCount l = l.length → pendingList l = 0
  | [] => by simp [pendingList]
  | a :: rest => by
    intro h
    have hle := quietCount_le_length rest
    simp only [quietCount, List.length_cons] at h
    simp only [pendingList]
    split at h
    · rename_i ha
      rw [ha, pendingList_eq_zero_of_quietCount rest (by omega)]
    · omega

theorem quietCount_eq_length_of_pendingList :
    ∀ l : List Act, pendingList l = 0 → quietCount l = l.length
  | [] => by simp [quietCount]
  | a :: rest => by
    intro h
    simp only [pendingList] at h
    have ha : a.pending = 0 := by omega
    have hr : pendingList rest = 0 := by omega
    simp [quietCount, ha, quietCount_eq_length_of_pendingList rest hr]
    omega

theorem workList_forEachFile (stop : Bool) (d : Str) :
    ∀ es : List (Str × Node), workList (forEachFile stop d es) ≤ entriesWork es
  | [] => by simp [forEachFile, workList, entriesWork]
  | (name, n) :: rest => by
    have ih := workList_forEachFile stop d rest
    cases stop
    · simp only [forEachFile, List.map_cons, workList, entriesWork, Act.work,
        Bool.false_eq_true, if_false] at ih ⊢
      omega
    · simp only [forEachFile, List.map_cons, workList, entriesWork, Act.work, if_true] at ih ⊢
      omega

theorem soundList_forEachFile (top : Str) (stop : Bool) (d : Str)
    (hd : top.length ≤ d.length) :
    ∀ es : List (Str × Node), SoundList top (forEachFile stop d es)
  | [] => by simp [forEachFile, SoundList]
  | (name, n) :: rest => by
    have ih := soundList_forEachFile top stop d hd rest
    simp only [forEachFile, List.map_cons, SoundList] at ih ⊢
    refine ⟨?_, ih⟩
    cases stop
    · simp [Act.Sound, pathJoin]
      omega
    · simp [Act.Sound]

theorem length_forEachFile (stop : Bool) (d : Str) (es : List (Str × Node)) :
    (forEachFile stop d es).length = es.length := by
  simp [forEachFile]

theorem nested_refl (g : Shared) : Nested g g :=
  ⟨Or.inl ⟨rfl, rfl, rfl⟩, ⟨[], by simp⟩, ⟨[], by simp⟩⟩

mutual
theorem fire_sound (top : Str) : ∀ (a : Act) (g : Shared) (k : Nat),
    a.Sound top → k < a.pending →
    ∃ a1 g1 done, fire top k a g = (a1, g1, done) ∧ a1.Sound top ∧ a1.work < a.work
      ∧ (done = true → a1.pending = 0) ∧ Nested g g1
  | .idle, g, k => by
    intro _ hk
    simp [Act.pending] at hk
  | .stat filePath node, g, k => by
    intro hs _
    simp only [Act.Sound] at hs
    cases hn : node.stat with
    | err =>
      refine ⟨_, _, _, (by simp only [fire, hn]; rfl), ?_, ?_, ?_, ?_⟩
      · simp [Act.Sound]
      · simp only [Act.work]
        exact statWork_pos node
      · simp
      · exact ⟨Or.inr ⟨rfl, ⟨filePath, rfl⟩, rfl⟩, ⟨[], by simp⟩, ⟨[], by simp⟩⟩
    | directory =>
      refine ⟨_, _, _, (by simp only [fire, hn]; rfl), ?_, ?_, ?_, ?_⟩
      · simpa [Act.Sound] using hs
      · simp only [Act.work]
        exact readdirWork_lt_statWork node hn
      · simp
      · exact ⟨Or.inl ⟨rfl, rfl, rfl⟩, ⟨[], by simp [YazlArchiver.addDirectory]⟩,
          ⟨[filePath], by simp [YazlArchiver.addDirectory]⟩⟩
    | notDirectory =>
      refine ⟨_, _, _, (by simp only [fire, hn]; rfl), ?_, ?_, ?_, ?_⟩
      · simp [Act.Sound]
      · simp only [Act.work]
        exact statWork_pos node
      · simp [Act.pending]
      · exact ⟨Or.inl ⟨rfl, rfl, rfl⟩,
          ⟨[(filePath, g.archiver.getZipPath filePath)], by simp [YazlArchiver.addFile]⟩,
          ⟨[], by simp [YazlArchiver.addFile]⟩⟩
  | .readdir directory node, g, k => by
    intro hs _
    simp only [Act.Sound] at hs
    have hne : directory ≠ top := fun e => by rw [e] at hs; omega
    cases hn : node.readdir with
    | none =>
      refine ⟨_, _, _, (by simp only [fire, hn]; rfl), ?_, ?_, ?_, ?_⟩
      · simp [Act.Sound]
      · simp only [Act.work]
        exact readdirWork_pos node
      · simp
      · exact ⟨Or.inr ⟨rfl, ⟨directory, rfl⟩, rfl⟩, ⟨[], by simp⟩, ⟨[], by simp⟩⟩
    | some es =>
      cases es with
      | nil =>
        refine ⟨_, _, _, (by simp only [fire, hn, if_neg hne]; rfl), ?_, ?_, ?_, ?_⟩
        · simp [Act.Sound]
        · simp only [Act.work]
          exact readdirWork_pos node
        · simp [Act.pending]
        · exact nested_refl g
      | cons f fs =>
        refine ⟨_, _, _, (by simp only [fire, hn]; rfl), ?_, ?_, ?_, ?_⟩
        · simp only [Act.Sound]
          exact ⟨hs, Nat.zero_le _, soundList_forEachFile top g.stop directory (by omega) _⟩
        · have hw := workList_forEachFile g.stop directory (f :: fs)
          have hnode : node = .dir (f :: fs) := by
            cases node <;> simp [Node.readdir] at hn
            rw [hn]
          simp only [Act.work, hnode, Node.readdirWork]
          omega
        · simp
        · exact nested_refl g
  | .each directory filesComplete files, g, k => by
    intro hs hk
    simp only [Act.Sound] at hs
    simp only [Act.pending] at hk
    have hne : directory ≠ top := fun e => by rw [e] at hs; omega
    obtain ⟨files1, g1, done, hf, hs1, hw1, hlen, hq, hqd, hn⟩ :=
      fireList_sound top files g k hs.2.2 hk
    have hqle := quietCount_le_length files1
    cases done with
    | false =>
      refine ⟨_, _, _, (by simp only [fire, hf]; rfl), ?_, ?_, ?_, hn⟩
      · simp only [Act.Sound]
        exact ⟨hs.1, by omega, hs1⟩
      · simpa only [Act.work] using hw1
      · simp
    | true =>
      have hqd1 := hqd rfl
      by_cases hc : filesComplete + 1 = files.length
      · refine ⟨_, _, _, (by simp only [fire, hf, if_pos hc, if_neg hne]; rfl), ?_, ?_, ?_, hn⟩
        · simp only [Act.Sound]
          exact ⟨hs.1, by omega, hs1⟩
        · simpa only [Act.work] using hw1
        · intro _
          simp only [Act.pending]
          exact pendingList_eq_zero_of_quietCount files1 (by omega)
      · refine ⟨_, _, _, (by simp only [fire, hf, if_neg hc]; rfl), ?_, ?_, ?_, hn⟩
        · simp only [Act.Sound]
          exact ⟨hs.1, by omega, hs1⟩
        · simpa only [Act.work] using hw1
        · simp
theorem fireList_sound (top : Str) : ∀ (l : List Act) (g : Shared) (k : Nat),
    SoundList top l → k < pendingList l →
    ∃ l1 g1 done, fireList top k l g = (l1, g1, done) ∧ SoundList top l1
      ∧ workList l1 < workList l ∧ l1.length = l.length ∧ quietCount l ≤ quietCount l1
      ∧ (done = true → quietCount l + 1 ≤ quietCount l1) ∧ Nested g g1
  | [], g, k => by
    intro _ hk
    simp [pendingList] at hk
  | a :: rest, g, k => by
    intro hs hk
    simp only [SoundList] at hs
    simp only [pendingList] at hk
    by_cases hka : k < a.pending
    · obtain ⟨a1, g1, done, hf, hs1, hw1, hd, hn⟩ := fire_sound top a g k hs.1 hka
      refine ⟨a1 :: rest, g1, done, by simp only [fireList, if_pos hka, hf], ?_, ?_, ?_, ?_, ?_, hn⟩
      · exact ⟨hs1, hs.2⟩
      · simp only [workList]
        omega
      · simp
      · have ha : a.pending ≠ 0 := by omega
        simp only [quietCount, if_neg ha]
        omega
      · intro hdone
        have ha : a.pending ≠ 0 := by omega
        simp only [quietCount, if_neg ha, if_pos (hd hdone)]
        omega
    · obtain ⟨r1, g1, done, hf, hs1, hw1, hlen, hq, hqd, hn⟩ :=
        fireList_sound top rest g (k - a.pending) hs.2 (by omega)
      refine ⟨a :: r1, g1, done, by simp only [fireList, if_neg hka, hf], ?_, ?_, ?_, ?_, ?_, hn⟩
      · exact ⟨hs.1, hs1⟩
      · simp only [workList]
        omega
      · simp [hlen]
      · simp only [quietCount]
        omega
      · intro hdone
        have := hqd hdone
        simp only [quietCount]
        omega
end


/-! ### The walk: the top activation and the invariant -/

/-- How the shared variables change in one turn of the event loop: as for a
callback below the top, or by `reject` for an empty top directory, or by a
callback below the top followed by `resolve()`; in the last two cases nothing
is outstanding afterwards. -/
theorem fire_root (top : Str) (root : Act) (g : Shared) (k : Nat)
    (hs : RootSound top root) (hk : k < root.pending) :
    ∃ r1 g1, fire top k root g = (r1, g1, false) ∧ RootSound top r1 ∧ r1.work < root.work
      ∧ (Nested g g1
        ∨ (r1.pending = 0 ∧ g1.errors = g.errors ∧ g1.archiver = g.archiver
            ∧ g1.promise = g.promise.reject .noFiles)
        ∨ (r1.pending = 0 ∧ ∃ g0, Nested g g0 ∧ g1.errors = g0.errors
            ∧ g1.archiver = g0.archiver ∧ g1.promise = g0.promise.resolve)) := by
  cases root with
  | idle => simp [Act.pending] at hk
  | stat p n => exact absurd hs (by simp [RootSound])
  | readdir directory node =>
    simp only [RootSound] at hs
    subst hs
    cases hn : node.readdir with
    | none =>
      refine ⟨_, _, (by simp only [fire, hn]; rfl), ?_, ?_, Or.inl ?_⟩
      · simp [RootSound]
      · simp only [Act.work]
        exact readdirWork_pos node
      · exact ⟨Or.inr ⟨rfl, ⟨directory, rfl⟩, rfl⟩, ⟨[], by simp⟩, ⟨[], by simp⟩⟩
    | some es =>
      cases es with
      | nil =>
        refine ⟨_, _, (by simp only [fire, hn, if_true]; rfl), ?_, ?_, Or.inr (Or.inl ?_)⟩
        · simp [RootSound]
        · simp only [Act.work]
          exact readdirWork_pos node
        · exact ⟨rfl, rfl, rfl, rfl⟩
      | cons f fs =>
        refine ⟨_, _, (by simp only [fire, hn]; rfl), ?_, ?_, Or.inl (nested_refl g)⟩
        · exact ⟨rfl, Nat.zero_le _, soundList_forEachFile directory g.stop directory
            (Nat.le_refl _) _⟩
        · have hw := workList_forEachFile g.stop directory (f :: fs)
          have hnode : node = .dir (f :: fs) := by
            cases node <;> simp [Node.readdir] at hn
            rw [hn]
          simp only [Act.work, hnode, Node.readdirWork]
          omega
  | each directory filesComplete files =>
    simp only [RootSound] at hs
    obtain ⟨hd, hc0, hsl⟩ := hs
    subst hd
    simp only [Act.pending] at hk
    obtain ⟨files1, g1, done, hf, hs1, hw1, hlen, hq, hqd, hn⟩ :=
      fireList_sound directory files g k hsl hk
    have hqle := quietCount_le_length files1
    cases done with
    | false =>
      refine ⟨_, _, (by simp only [fire, hf]; rfl), ?_, ?_, Or.inl hn⟩
      · exact ⟨rfl, by omega, hs1⟩
      · simpa only [Act.work] using hw1
    | true =>
      have hqd1 := hqd rfl
      by_cases hc : filesComplete + 1 = files.length
      · refine ⟨Act.each directory (filesComplete + 1) files1,
          { g1 with promise := g1.promise.resolve },
          (by simp only [fire, hf, if_pos hc, if_true]), ?_, ?_,
          Or.inr (Or.inr ⟨?_, g1, hn, rfl, rfl, rfl⟩)⟩
        · exact ⟨rfl, by omega, hs1⟩
        · simpa only [Act.work] using hw1
        · simp only [Act.pending]
          exact pendingList_eq_zero_of_quietCount files1 (by omega)
      · refine ⟨_, _, (by simp only [fire, hf, if_neg hc]; rfl), ?_, ?_, Or.inl hn⟩
        · exact ⟨rfl, by omega, hs1⟩
        · simpa only [Act.work] using hw1

theorem step_of_quiet (top : Str) (w : Walk) (c : Nat) (h : w.root.pending = 0) :
    w.step top c = w := by
  simp [Walk.step, h]

theorem reject_io_cases (s : Settled) (p : Str) :
    (s = .pending ∧ s.reject (.io p) = .rejected (.io p)) ∨ (s ≠ .pending ∧ s.reject (.io p) = s) := by
  cases s <;> simp [Settled.reject]

/-- One turn of the event loop keeps the invariant, consumes work when a
callback is outstanding, and only adds to the calls the archiver has recorded. -/
theorem step_inv (top : Str) (w : Walk) (c : Nat) (h : w.Inv top) :
    (w.step top c).Inv top
      ∧ (w.root.pending ≠ 0 → (w.step top c).root.work < w.root.work)
      ∧ (∃ fs, (w.step top c).shared.archiver.entries = w.shared.archiver.entries ++ fs)
      ∧ (∃ ds, (w.step top c).shared.archiver.dirCalls = w.shared.archiver.dirCalls ++ ds)
      ∧ w.shared.errors ≤ (w.step top c).shared.errors := by
  by_cases hp : w.root.pending = 0
  · rw [step_of_quiet top w c hp]
    exact ⟨h, fun hne => absurd hp hne, ⟨[], by simp⟩, ⟨[], by simp⟩, Nat.le_refl _⟩
  · obtain ⟨hroot, hres, hnof, herr⟩ := h
    have hk : c % w.root.pending < w.root.pending := Nat.mod_lt _ (Nat.pos_of_ne_zero hp)
    obtain ⟨r1, g1, hf, hs1, hw1, hcases⟩ := fire_root top w.root w.shared _ hroot hk
    have hstep : w.step top c = { shared := g1, root := r1 } := by
      simp only [Walk.step, if_neg hp, hf]
    rw [hstep]
    have hnr : w.shared.promise ≠ .resolved := fun e => hp (hres e)
    have hnn : w.shared.promise ≠ .rejected .noFiles := fun e => hp (hnof e)
    -- what a callback below the top preserves
    have key : ∀ g0 : Shared, Nested w.shared g0 →
        g0.promise ≠ .resolved ∧ g0.promise ≠ .rejected .noFiles
        ∧ (0 < g0.errors → ∃ p, g0.promise = .rejected (.io p))
        ∧ w.shared.errors ≤ g0.errors := by
      intro g0 hn
      rcases hn.1 with ⟨he, hpr, _⟩ | ⟨he, ⟨p, hpr⟩, _⟩
      · refine ⟨by rw [hpr]; exact hnr, by rw [hpr]; exact hnn, ?_, by omega⟩
        intro hpos
        rw [hpr]
        exact herr (by omega)
      · rcases reject_io_cases w.shared.promise p with ⟨_, h2⟩ | ⟨h1, h2⟩
        · rw [h2] at hpr
          exact ⟨by rw [hpr]; simp, by rw [hpr]; simp, fun _ => ⟨p, hpr⟩, by omega⟩
        · rw [h2] at hpr
          refine ⟨by rw [hpr]; exact hnr, by rw [hpr]; exact hnn, ?_, by omega⟩
          intro _
          rw [hpr]
          cases hw : w.shared.promise with
          | pending => exact absurd hw h1
          | resolved => exact absurd hw hnr
          | rejected e =>
            cases e with
            | io q => exact ⟨q, rfl⟩
            | noFiles => exact absurd hw hnn
    refine ⟨?_, fun _ => hw1, ?_, ?_, ?_⟩
    · refine ⟨hs1, ?_, ?_, ?_⟩
      · intro hres1
        rcases hcases with hn | ⟨hq, _⟩ | ⟨hq, _⟩
        · exact absurd hres1 (key g1 hn).1
        · exact hq
        · exact hq
      · intro hnof1
        rcases hcases with hn | ⟨hq, _⟩ | ⟨hq, _⟩
        · exact absurd hnof1 (key g1 hn).2.1
        · exact hq
        · exact hq
      · intro hpos
        rcases hcases with hn | ⟨_, he, _, hpr⟩ | ⟨_, g0, hn, he, _, hpr⟩
        · exact (key g1 hn).2.2.1 hpos
        · obtain ⟨p, hp1⟩ := herr (by rw [he] at hpos; exact hpos)
          exact ⟨p, by rw [hpr, hp1]; rfl⟩
        · obtain ⟨p, hp1⟩ := (key g0 hn).2.2.1 (by rw [he] at hpos; exact hpos)
          exact ⟨p, by rw [hpr, hp1]; rfl⟩
    · rcases hcases with hn | ⟨_, _, ha, _⟩ | ⟨_, g0, hn, _, ha, _⟩
      · exact hn.2.1
      · exact ⟨[], by simp [ha]⟩
      · obtain ⟨fs, hfs⟩ := hn.2.1
        exact ⟨fs, by simp [ha, hfs]⟩
    · rcases hcases with hn | ⟨_, _, ha, _⟩ | ⟨_, g0, hn, _, ha, _⟩
      · exact hn.2.2
      · exact ⟨[], by simp [ha]⟩
      · obtain ⟨ds, hds⟩ := hn.2.2
        exact ⟨ds, by simp [ha, hds]⟩
    · rcases hcases with hn | ⟨_, he, _, _⟩ | ⟨_, g0, hn, he, _, _⟩
      · exact (key g1 hn).2.2.2
      · simp [he]
      · have := (key g0 hn).2.2.2
        simp only [he]
        exact this

theorem start_inv (top : Str) (tree : Node) (a : YazlArchiver) : (Walk.start top tree a).Inv top := by
  refine ⟨?_, ?_, ?_, ?_⟩ <;> simp [Walk.start, RootSound]

theorem foldl_inv (top : Str) : ∀ (sched : List Nat) (w : Walk), w.Inv top →
    (sched.foldl (Walk.step top) w).Inv top
  | [], _, h => h
  | c :: rest, w, h => foldl_inv top rest (w.step top c) (step_inv top w c h).1

theorem foldl_grows (top : Str) : ∀ (sched : List Nat) (w : Walk), w.Inv top →
    (∃ fs, (sched.foldl (Walk.step top) w).shared.archiver.entries
        = w.shared.archiver.entries ++ fs)
    ∧ (∃ ds, (sched.foldl (Walk.step top) w).shared.archiver.dirCalls
        = w.shared.archiver.dirCalls ++ ds)
  | [], _, _ => ⟨⟨[], by simp⟩, ⟨[], by simp⟩⟩
  | c :: rest, w, h => by
    obtain ⟨hinv, _, ⟨fs, hfs⟩, ⟨ds, hds⟩, _⟩ := step_inv top w c h
    obtain ⟨⟨fs2, hfs2⟩, ⟨ds2, hds2⟩⟩ := foldl_grows top rest (w.step top c) hinv
    refine ⟨⟨fs ++ fs2, ?_⟩, ⟨ds ++ ds2, ?_⟩⟩
    · simp only [List.foldl_cons, hfs2, hfs, List.append_assoc]
    · simp only [List.foldl_cons, hds2, hds, List.append_assoc]

theorem foldl_of_resolved (top : Str) : ∀ (sched : List Nat) (w : Walk), w.Inv top →
    w.shared.promise = .resolved → sched.foldl (Walk.step top) w = w
  | [], _, _, _ => rfl
  | c :: rest, w, h, hres => by
    have hq : w.root.pending = 0 := h.2.1 hres
    simp only [List.foldl_cons, step_of_quiet top w c hq]
    exact foldl_of_resolved top rest w h hres

theorem drain_eq_foldl (top : Str) : ∀ (fuel : Nat) (w : Walk),
    Walk.drain top fuel w = (List.replicate fuel 0).foldl (Walk.step top) w
  | 0, _ => rfl
  | fuel + 1, w => by
    simp only [Walk.drain, List.replicate_succ, List.foldl_cons]
    exact drain_eq_foldl top fuel (w.step top 0)

theorem drain_quiet (top : Str) : ∀ (fuel : Nat) (w : Walk), w.Inv top →
    w.root.work ≤ fuel → (Walk.drain top fuel w).root.pending = 0
  | 0, w, _, hw => by
    have := pending_le_work w.root
    simp only [Walk.drain]
    omega
  | fuel + 1, w, h, hw => by
    simp only [Walk.drain]
    obtain ⟨hinv, hdec, _⟩ := step_inv top w 0 h
    by_cases hp : w.root.pending = 0
    · rw [step_of_quiet top w 0 hp]
      have hrec := drain_eq_foldl top fuel w
      rw [hrec]
      clear hrec
      have : ∀ (l : List Nat), (l.foldl (Walk.step top) w) = w := by
        intro l
        induction l with
        | nil => rfl
        | cons c rest ih => simp only [List.foldl_cons, step_of_quiet top w c hp, ih]
      rw [this]
      exact hp
    · exact drain_quiet top fuel (w.step top 0) hinv (by have := hdec hp; omega)

theorem packageRecursively_eq_after (top : Str) (tree : Node) (a : YazlArchiver)
    (sched : List Nat) :
    packageRecursively top tree a sched
      = Walk.after top tree a
          (sched ++ List.replicate (Walk.after top tree a sched).root.work 0) := by
  simp only [packageRecursively, Walk.after, drain_eq_foldl, List.foldl_append]

theorem after_inv (top : Str) (tree : Node) (a : YazlArchiver) (sched : List Nat) :
    (Walk.after top tree a sched).Inv top :=
  foldl_inv top sched _ (start_inv top tree a)

theorem packageRecursively_inv (top : Str) (tree : Node) (a : YazlArchiver) (sched : List Nat) :
    (packageRecursively top tree a sched).Inv top := by
  rw [packageRecursively_eq_after]
  exact after_inv top tree a _

theorem packageRecursively_quiet (top : Str) (tree : Node) (a : YazlArchiver)
    (sched : List Nat) : (packageRecursively top tree a sched).root.pending = 0 := by
  simp only [packageRecursively]
  exact drain_quiet top _ _ (foldl_inv top sched _ (start_inv top tree a)) (Nat.le_refl _)


/-! ### The walk when nothing fails -/

mutual
theorem restFiles_of_quiet : ∀ a : Act, a.pending = 0 → a.restFiles = [] ∧ a.restDirs = []
  | .idle, _ => by simp [Act.restFiles, Act.restDirs]
  | .stat _ _, h => by simp [Act.pending] at h
  | .readdir _ _, h => by simp [Act.pending] at h
  | .each _ _ files, h => by
    simp only [Act.pending] at h
    simpa only [Act.restFiles, Act.restDirs] using restFilesList_of_quiet files h
theorem restFilesList_of_quiet : ∀ l : List Act, pendingList l = 0 →
    restFilesList l = [] ∧ restDirsList l = []
  | [], _ => by simp [restFilesList, restDirsList]
  | a :: rest, h => by
    simp only [pendingList] at h
    have h1 := restFiles_of_quiet a (by omega)
    have h2 := restFilesList_of_quiet rest (by omega)
    simp [restFilesList, restDirsList, h1.1, h1.2, h2.1, h2.2]
end

theorem forEachFile_clean (d : Str) : ∀ es : List (Str × Node), entriesNoFail es = true →
    CleanList (forEachFile false d es) ∧ quietCount (forEachFile false d es) = 0
      ∧ restFilesList (forEachFile false d es) = entriesFilePaths d es
      ∧ restDirsList (forEachFile false d es) = entriesDirPaths d es
  | [], _ => by
    simp [forEachFile, CleanList, quietCount, restFilesList, restDirsList, entriesFilePaths,
      entriesDirPaths]
  | (name, n) :: rest, h => by
    simp only [entriesNoFail, Bool.and_eq_true] at h
    obtain ⟨h1, h2, h3, h4⟩ := forEachFile_clean d rest h.2
    have hcons : forEachFile false d ((name, n) :: rest)
        = Act.stat (pathJoin d name) n :: forEachFile false d rest := by
      simp [forEachFile]
    rw [hcons]
    refine ⟨⟨h.1, h1⟩, ?_, ?_, ?_⟩
    · simp only [quietCount, Act.pending, h2]
      simp
    · simp only [restFilesList, Act.restFiles, entriesFilePaths, h3]
    · simp only [restDirsList, Act.restDirs, entriesDirPaths, h4]

theorem node_of_noFail_directory (n : Node) (h : n.noFail = true) (hd : n.stat = .directory) :
    ∃ es, n = .dir es ∧ entriesNoFail es = true := by
  cases n with
  | noent => simp [Node.noFail] at h
  | file => simp [Node.stat] at hd
  | dirErr => simp [Node.noFail] at h
  | dir es => exact ⟨es, rfl, by simpa [Node.noFail] using h⟩

theorem stat_of_noFail (n : Node) (h : n.noFail = true) :
    (n = .file) ∨ (∃ es, n = .dir es ∧ entriesNoFail es = true) := by
  cases n with
  | noent => simp [Node.noFail] at h
  | file => exact Or.inl rfl
  | dirErr => simp [Node.noFail] at h
  | dir es => exact Or.inr ⟨es, rfl, by simpa [Node.noFail] using h⟩

mutual
theorem fire_clean (top : Str) : ∀ (a : Act) (g : Shared) (k : Nat),
    a.Sound top → a.Clean → g.stop = false → k < a.pending →
    ∃ a1 g1 done, fire top k a g = (a1, g1, done) ∧ a1.Clean
      ∧ g1.stop = false ∧ g1.errors = g.errors ∧ g1.promise = g.promise
      ∧ (a1.pending = 0 → done = true)
      ∧ ((g1.archiver.entries.map Prod.fst : Multiset Str) + (a1.restFiles : Multiset Str)
          = (g.archiver.entries.map Prod.fst : Multiset Str) + (a.restFiles : Multiset Str))
      ∧ ((g1.archiver.dirCalls : Multiset Str) + (a1.restDirs : Multiset Str)
          = (g.archiver.dirCalls : Multiset Str) + (a.restDirs : Multiset Str))
  | .idle, g, k => by
    intro _ _ _ hk
    simp [Act.pending] at hk
  | .stat filePath node, g, k => by
    intro _ hc hstop _
    simp only [Act.Clean] at hc
    rcases stat_of_noFail node hc with hfile | ⟨es, hdir, hes⟩
    · subst hfile
      refine ⟨Act.idle, { g with archiver := g.archiver.addFile filePath }, true,
        (by simp only [fire, Node.stat]), ?_, hstop, rfl, rfl, ?_, ?_, ?_⟩
      · simp [Act.Clean]
      · simp
      · simp only [YazlArchiver.addFile, Act.restFiles, Node.filePaths, List.map_append,
          List.map_cons, List.map_nil, ← Multiset.coe_add]
        simp
      · simp [YazlArchiver.addFile, Act.restDirs, Node.dirPaths]
    · subst hdir
      refine ⟨Act.readdir filePath (Node.dir es),
        { g with archiver := g.archiver.addDirectory filePath }, false,
        (by simp only [fire, Node.stat]), ?_, hstop, rfl, rfl, ?_, ?_, ?_⟩
      · simp [Act.Clean, Node.noFail, hes, Node.stat]
      · simp [Act.pending]
      · simp [YazlArchiver.addDirectory, Act.restFiles, Node.filePaths, Node.filePathsBelow,
          Node.readdir]
      · simp only [YazlArchiver.addDirectory, Act.restDirs, Node.dirPaths, Node.dirPathsBelow,
          Node.readdir, Multiset.coe_add, List.append_assoc, List.singleton_append]
  | .readdir directory node, g, k => by
    intro hs hc hstop _
    simp only [Act.Sound] at hs
    simp only [Act.Clean] at hc
    have hne : directory ≠ top := fun e => by rw [e] at hs; omega
    obtain ⟨es, hdir, hes⟩ := node_of_noFail_directory node hc.1 hc.2
    subst hdir
    cases es with
    | nil =>
      refine ⟨Act.idle, g, true, (by simp only [fire, Node.readdir, if_neg hne]), ?_, hstop,
        rfl, rfl, ?_, ?_, ?_⟩
      · simp [Act.Clean]
      · simp
      · simp [Act.restFiles, Node.filePathsBelow, Node.readdir, entriesFilePaths]
      · simp [Act.restDirs, Node.dirPathsBelow, Node.readdir, entriesDirPaths]
    | cons f fs =>
      obtain ⟨h1, h2, h3, h4⟩ := forEachFile_clean directory (f :: fs) hes
      refine ⟨Act.each directory 0 (forEachFile false directory (f :: fs)), g, false,
        (by simp only [fire, Node.readdir, hstop]), ?_, hstop, rfl, rfl, ?_, ?_, ?_⟩
      · simp only [Act.Clean]
        exact ⟨h2.symm, h1⟩
      · intro hq
        simp only [Act.pending] at hq
        have := quietCount_eq_length_of_pendingList _ hq
        rw [h2, length_forEachFile] at this
        simp at this
      · simp only [Act.restFiles, h3, Node.filePathsBelow, Node.readdir]
      · simp only [Act.restDirs, h4, Node.dirPathsBelow, Node.readdir]
  | .each directory filesComplete files, g, k => by
    intro hs hc hstop hk
    simp only [Act.Sound] at hs
    simp only [Act.Clean] at hc
    simp only [Act.pending] at hk
    have hne : directory ≠ top := fun e => by rw [e] at hs; omega
    obtain ⟨files1, g1, done, hf, hc1, hstop1, herr1, hpr1, hlen, hq0, hq1, hfm, hdm⟩ :=
      fireList_clean top files g k hs.2.2 hc.2 hstop hk
    have hqle := quietCount_le_length files
    have hnq : quietCount files ≠ files.length := fun e => by
      have := pendingList_eq_zero_of_quietCount files e
      omega
    cases done with
    | false =>
      have hq := hq0 rfl
      refine ⟨_, _, _, (by simp only [fire, hf]; rfl), ?_, hstop1, herr1, hpr1, ?_, ?_, ?_⟩
      · simp only [Act.Clean]
        exact ⟨by omega, hc1⟩
      · intro hq2
        simp only [Act.pending] at hq2
        have := quietCount_eq_length_of_pendingList _ hq2
        omega
      · simpa only [Act.restFiles] using hfm
      · simpa only [Act.restDirs] using hdm
    | true =>
      have hq := hq1 rfl
      by_cases hcl : filesComplete + 1 = files.length
      · refine ⟨_, _, _, (by simp only [fire, hf, if_pos hcl, if_neg hne]; rfl), ?_, hstop1, herr1,
          hpr1, ?_, ?_, ?_⟩
        · simp only [Act.Clean]
          exact ⟨by omega, hc1⟩
        · simp
        · simpa only [Act.restFiles] using hfm
        · simpa only [Act.restDirs] using hdm
      · refine ⟨_, _, _, (by simp only [fire, hf, if_neg hcl]; rfl), ?_, hstop1, herr1, hpr1,
          ?_, ?_, ?_⟩
        · simp only [Act.Clean]
          exact ⟨by omega, hc1⟩
        · intro hq2
          simp only [Act.pending] at hq2
          have := quietCount_eq_length_of_pendingList _ hq2
          omega
        · simpa only [Act.restFiles] using hfm
        · simpa only [Act.restDirs] using hdm
theorem fireList_clean (top : Str) : ∀ (l : List Act) (g : Shared) (k : Nat),
    SoundList top l → CleanList l → g.stop = false → k < pendingList l →
    ∃ l1 g1 done, fireList top k l g = (l1, g1, done) ∧ CleanList l1
      ∧ g1.stop = false ∧ g1.errors = g.errors ∧ g1.promise = g.promise
      ∧ l1.length = l.length
      ∧ (done = false → quietCount l1 = quietCount l)
      ∧ (done = true → quietCount l1 = quietCount l + 1)
      ∧ ((g1.archiver.entries.map Prod.fst : Multiset Str) + (restFilesList l1 : Multiset Str)
          = (g.archiver.entries.map Prod.fst : Multiset Str) + (restFilesList l : Multiset Str))
      ∧ ((g1.archiver.dirCalls : Multiset Str) + (restDirsList l1 : Multiset Str)
          = (g.archiver.dirCalls : Multiset Str) + (restDirsList l : Multiset Str))
  | [], g, k => by
    intro _ _ _ hk
    simp [pendingList] at hk
  | a :: rest, g, k => by
    intro hs hc hstop hk
    simp only [SoundList] at hs
    simp only [CleanList] at hc
    simp only [pendingList] at hk
    by_cases hka : k < a.pending
    · obtain ⟨a1, g1, done, hf, hc1, hstop1, herr1, hpr1, hqd, hfm, hdm⟩ :=
        fire_clean top a g k hs.1 hc.1 hstop hka
      obtain ⟨a2, g2, done2, hf2, _, _, hdq, _⟩ := fire_sound top a g k hs.1 hka
      rw [hf] at hf2
      have ha : a.pending ≠ 0 := by omega
      refine ⟨a1 :: rest, g1, done, (by simp only [fireList, if_pos hka, hf]), ⟨hc1, hc.2⟩,
        hstop1, herr1, hpr1, by simp, ?_, ?_, ?_, ?_⟩
      · intro hd
        have : a1.pending ≠ 0 := fun e => by
          have := hqd e
          rw [hd] at this
          exact absurd this (by simp)
        simp only [quietCount, if_neg ha, if_neg this]
      · intro hd
        have hinj : a1 = a2 ∧ done = done2 := by
          injection hf2 with e1 e2
          injection e2 with e3 e4
          exact ⟨e1, e4⟩
        have : a1.pending = 0 := by
          rw [hinj.1]
          exact hdq (by rw [← hinj.2]; exact hd)
        simp only [quietCount, if_neg ha, if_pos this]
        omega
      · simp only [restFilesList, ← Multiset.coe_add] at hfm ⊢
        rw [← add_assoc, hfm, add_assoc]
      · simp only [restDirsList, ← Multiset.coe_add] at hdm ⊢
        rw [← add_assoc, hdm, add_assoc]
    · obtain ⟨r1, g1, done, hf, hc1, hstop1, herr1, hpr1, hlen, hq0, hq1, hfm, hdm⟩ :=
        fireList_clean top rest g (k - a.pending) hs.2 hc.2 hstop (by omega)
      refine ⟨a :: r1, g1, done, (by simp only [fireList, if_neg hka, hf]), ⟨hc.1, hc1⟩,
        hstop1, herr1, hpr1, by simp [hlen], ?_, ?_, ?_, ?_⟩
      · intro hd
        simp only [quietCount, hq0 hd]
      · intro hd
        simp only [quietCount, hq1 hd]
        omega
      · simp only [restFilesList, ← Multiset.coe_add] at hfm ⊢
        rw [add_left_comm, hfm, add_left_comm]
      · simp only [restDirsList, ← Multiset.coe_add] at hdm ⊢
        rw [add_left_comm, hdm, add_left_comm]
end


/-! ### The walk when nothing fails: the top activation -/

theorem fire_root_clean (top : Str) (es : List (Str × Node)) (hes : entriesNoFail es = true)
    (root : Act) (g : Shared) (k : Nat)
    (hs : RootSound top root) (hc : RootClean es g.promise root) (hstop : g.stop = false)
    (hk : k < root.pending) :
    ∃ r1 g1, fire top k root g = (r1, g1, false) ∧ RootClean es g1.promise r1
      ∧ g1.stop = false ∧ g1.errors = g.errors
      ∧ ((g1.archiver.entries.map Prod.fst : Multiset Str) + (r1.restFiles : Multiset Str)
          = (g.archiver.entries.map Prod.fst : Multiset Str) + (root.restFiles : Multiset Str))
      ∧ ((g1.archiver.dirCalls : Multiset Str) + (r1.restDirs : Multiset Str)
          = (g.archiver.dirCalls : Multiset Str) + (root.restDirs : Multiset Str)) := by
  cases root with
  | idle => simp [Act.pending] at hk
  | stat p n => exact absurd hs (by simp [RootSound])
  | readdir directory node =>
    simp only [RootSound] at hs
    subst hs
    obtain ⟨hnode, hpend⟩ := hc
    subst hnode
    cases es with
    | nil =>
      refine ⟨Act.idle, { g with promise := g.promise.reject .noFiles }, 
        (by simp only [fire, Node.readdir, if_true]), ?_, hstop, rfl, ?_, ?_⟩
      · exact ⟨rfl, by simp [hpend, Settled.reject]⟩
      · simp [Act.restFiles, Node.filePathsBelow, Node.readdir, entriesFilePaths]
      · simp [Act.restDirs, Node.dirPathsBelow, Node.readdir, entriesDirPaths]
    | cons f fs =>
      obtain ⟨h1, h2, h3, h4⟩ := forEachFile_clean directory (f :: fs) hes
      refine ⟨Act.each directory 0 (forEachFile false directory (f :: fs)), g,
        (by simp only [fire, Node.readdir, hstop]), ?_, hstop, rfl, ?_, ?_⟩
      · refine ⟨by simp, h2.symm, h1, ?_, fun _ => hpend⟩
        intro h0
        rw [length_forEachFile] at h0
        simp at h0
      · simp only [Act.restFiles, h3, Node.filePathsBelow, Node.readdir]
      · simp only [Act.restDirs, h4, Node.dirPathsBelow, Node.readdir]
  | each directory filesComplete files =>
    simp only [RootSound] at hs
    obtain ⟨hd, _, hsl⟩ := hs
    subst hd
    obtain ⟨hne, hcq, hcl, hres, hpen⟩ := hc
    simp only [Act.pending] at hk
    obtain ⟨files1, g1, done, hf, hc1, hstop1, herr1, hpr1, hlen, hq0, hq1, hfm, hdm⟩ :=
      fireList_clean directory files g k hsl hcl hstop hk
    have hqle := quietCount_le_length files
    have hnq : quietCount files ≠ files.length := fun e => by
      have := pendingList_eq_zero_of_quietCount files e
      omega
    have hpending : g.promise = .pending := hpen (by omega)
    cases done with
    | false =>
      have hq := hq0 rfl
      refine ⟨Act.each directory filesComplete files1, g1, (by simp only [fire, hf]), ?_,
        hstop1, herr1, ?_, ?_⟩
      · refine ⟨hne, by omega, hc1, fun h0 => absurd h0 (by omega), fun _ => ?_⟩
        rw [hpr1]
        exact hpending
      · simpa only [Act.restFiles] using hfm
      · simpa only [Act.restDirs] using hdm
    | true =>
      have hq := hq1 rfl
      by_cases hcl2 : filesComplete + 1 = files.length
      · refine ⟨Act.each directory (filesComplete + 1) files1,
          { g1 with promise := g1.promise.resolve },
          (by simp only [fire, hf, if_pos hcl2, if_true]), ?_, hstop1, herr1, ?_, ?_⟩
        · refine ⟨hne, by omega, hc1, fun _ => ?_, fun h0 => absurd h0 (by omega)⟩
          show g1.promise.resolve = .resolved
          rw [hpr1, hpending]
          rfl
        · simpa only [Act.restFiles] using hfm
        · simpa only [Act.restDirs] using hdm
      · refine ⟨Act.each directory (filesComplete + 1) files1, g1,
          (by simp only [fire, hf, if_neg hcl2]), ?_, hstop1, herr1, ?_, ?_⟩
        · refine ⟨hne, by omega, hc1, fun h0 => absurd h0 (by omega), fun _ => ?_⟩
          rw [hpr1]
          exact hpending
        · simpa only [Act.restFiles] using hfm
        · simpa only [Act.restDirs] using hdm

theorem step_clean (top : Str) (es : List (Str × Node)) (hes : entriesNoFail es = true)
    (a0 : YazlArchiver) (w : Walk) (c : Nat) (hinv : w.Inv top) (h : w.Clean top es a0) :
    (w.step top c).Clean top es a0 := by
  by_cases hp : w.root.pending = 0
  · rw [step_of_quiet top w c hp]
    exact h
  · obtain ⟨hstop, herr, hroot, hfm, hdm⟩ := h
    have hk : c % w.root.pending < w.root.pending := Nat.mod_lt _ (Nat.pos_of_ne_zero hp)
    obtain ⟨r1, g1, hf, hrc, hstop1, herr1, hfm1, hdm1⟩ :=
      fire_root_clean top es hes w.root w.shared _ hinv.1 hroot hstop hk
    have hstep : w.step top c = { shared := g1, root := r1 } := by
      simp only [Walk.step, if_neg hp, hf]
    rw [hstep]
    exact ⟨hstop1, by rw [herr1]; exact herr, hrc, by rw [hfm1]; exact hfm,
      by rw [hdm1]; exact hdm⟩

theorem start_clean (top : Str) (es : List (Str × Node)) (a0 : YazlArchiver) :
    (Walk.start top (.dir es) a0).Clean top es a0 := by
  refine ⟨rfl, rfl, ⟨rfl, rfl⟩, ?_, ?_⟩
  · simp [Walk.start, Act.restFiles, Node.filePathsBelow, Node.readdir]
  · simp [Walk.start, Act.restDirs, Node.dirPathsBelow, Node.readdir]

theorem foldl_clean (top : Str) (es : List (Str × Node)) (hes : entriesNoFail es = true)
    (a0 : YazlArchiver) : ∀ (sched : List Nat) (w : Walk), w.Inv top → w.Clean top es a0 →
    (sched.foldl (Walk.step top) w).Clean top es a0
  | [], _, _, h => h
  | c :: rest, w, hinv, h =>
    foldl_clean top es hes a0 rest (w.step top c) (step_inv top w c hinv).1
      (step_clean top es hes a0 w c hinv h)

theorem packageRecursively_clean (top : Str) (es : List (Str × Node))
    (hes : entriesNoFail es = true) (a0 : YazlArchiver) (sched : List Nat) :
    (packageRecursively top (.dir es) a0 sched).Clean top es a0 := by
  rw [packageRecursively_eq_after]
  exact foldl_clean top es hes a0 _ _ (start_inv top _ a0) (start_clean top es a0)

/-- The outcome of a walk over a tree in which nothing fails, whatever the
schedule: an empty top directory rejects with "No files", any other resolves,
and the calls recorded are, up to order, the files and the directories of the
tree. -/
theorem packageRecursively_noFail (top : Str) (es : List (Str × Node))
    (hes : entriesNoFail es = true) (a0 : YazlArchiver) (sched : List Nat) :
    (es = [] → (packageRecursively top (.dir es) a0 sched).shared.promise = .rejected .noFiles)
    ∧ (es ≠ [] → (packageRecursively top (.dir es) a0 sched).shared.promise = .resolved)
    ∧ (packageRecursively top (.dir es) a0 sched).shared.errors = 0
    ∧ ((packageRecursively top (.dir es) a0 sched).shared.archiver.entries.map Prod.fst).Perm
        (a0.entries.map Prod.fst ++ entriesFilePaths top es)
    ∧ ((packageRecursively top (.dir es) a0 sched).shared.archiver.dirCalls).Perm
        (a0.dirCalls ++ entriesDirPaths top es) := by
  have hq := packageRecursively_quiet top (.dir es) a0 sched
  obtain ⟨_, herr, hroot, hfm, hdm⟩ := packageRecursively_clean top es hes a0 sched
  obtain ⟨hrf, hrd⟩ := restFiles_of_quiet _ hq
  rw [hrf] at hfm
  rw [hrd] at hdm
  simp only [Multiset.coe_add, List.append_nil, Multiset.coe_eq_coe] at hfm hdm
  refine ⟨?_, ?_, herr, hfm, hdm⟩
  · intro he
    subst he
    cases hr : (packageRecursively top (.dir []) a0 sched).root with
    | idle =>
      rw [hr] at hroot
      exact hroot.2
    | stat p n =>
      rw [hr] at hroot
      exact absurd hroot (by simp [RootClean])
    | readdir d n =>
      rw [hr] at hq
      simp [Act.pending] at hq
    | each d c files =>
      rw [hr] at hroot
      exact absurd rfl hroot.1
  · intro hne
    cases hr : (packageRecursively top (.dir es) a0 sched).root with
    | idle =>
      rw [hr] at hroot
      exact absurd hroot.1 hne
    | stat p n =>
      rw [hr] at hroot
      exact absurd hroot (by simp [RootClean])
    | readdir d n =>
      rw [hr] at hq
      simp [Act.pending] at hq
    | each d c files =>
      rw [hr] at hroot hq
      obtain ⟨_, hcq, hcl, hres, _⟩ := hroot
      simp only [Act.pending] at hq
      have hlen := quietCount_eq_length_of_pendingList files hq
      exact hres (by omega)


/-! ### The archiver during the walk -/

theorem toInt32_succ (x : Int) : toInt32 (toInt32 x + 1) = toInt32 (x + 1) := by
  unfold toInt32
  omega

theorem toInt32_of_small (n : Nat) (h : n < 2147483648) : toInt32 n = n := by
  unfold toInt32
  omega

theorem extends_refl (a : YazlArchiver) : a.Extends a := ⟨rfl, rfl, rfl, rfl, id⟩

theorem extends_trans {a b c : YazlArchiver} (h1 : a.Extends b) (h2 : b.Extends c) :
    a.Extends c :=
  ⟨h2.1.trans h1.1, h2.2.1.trans h1.2.1, h2.2.2.1.trans h1.2.2.1, h2.2.2.2.1.trans h1.2.2.2.1,
    fun h => h2.2.2.2.2 (h1.2.2.2.2 h)⟩

theorem extends_addFile (a : YazlArchiver) (p : Str) : a.Extends (a.addFile p) := by
  refine ⟨rfl, rfl, rfl, rfl, ?_⟩
  intro ⟨hf, hd, hz⟩
  refine ⟨?_, hd, ?_⟩
  · simp only [YazlArchiver.addFile, List.length_append, List.length_singleton, hf]
    rw [toInt32_succ]
    simp
  · intro e he
    simp only [YazlArchiver.addFile, List.mem_append, List.mem_singleton] at he
    rcases he with he | he
    · exact hz e he
    · rw [he]
      rfl

theorem extends_addDirectory (a : YazlArchiver) (p : Str) : a.Extends (a.addDirectory p) := by
  refine ⟨rfl, rfl, rfl, rfl, ?_⟩
  intro ⟨hf, hd, hz⟩
  refine ⟨hf, ?_, hz⟩
  simp only [YazlArchiver.addDirectory, List.length_append, List.length_singleton, hd]
  rw [toInt32_succ]
  simp

mutual
theorem fire_extends (top : Str) : ∀ (a : Act) (g : Shared) (k : Nat),
    g.archiver.Extends (fire top k a g).2.1.archiver
  | .idle, g, k => by
    simp only [fire]
    exact extends_refl _
  | .stat filePath node, g, k => by
    simp only [fire]
    cases node.stat
    · exact extends_refl _
    · exact extends_addFile _ _
    · exact extends_addDirectory _ _
  | .readdir directory node, g, k => by
    simp only [fire]
    cases node.readdir with
    | none => exact extends_refl _
    | some es =>
      cases es with
      | nil =>
        by_cases hd : directory = top
        · simp only [if_pos hd]
          exact extends_refl _
        · simp only [if_neg hd]
          exact extends_refl _
      | cons f fs => exact extends_refl _
  | .each directory filesComplete files, g, k => by
    have ih := fireList_extends top files g k
    simp only [fire]
    rcases hf : fireList top k files g with ⟨files1, g1, done⟩
    rw [hf] at ih
    cases done with
    | false => exact ih
    | true =>
      by_cases hc : filesComplete + 1 = files.length
      · by_cases hd : directory = top
        · simp only [if_pos hc, if_pos hd]
          exact ih
        · simp only [if_pos hc, if_neg hd]
          exact ih
      · simp only [if_neg hc]
        exact ih
theorem fireList_extends (top : Str) : ∀ (l : List Act) (g : Shared) (k : Nat),
    g.archiver.Extends (fireList top k l g).2.1.archiver
  | [], g, k => by
    simp only [fireList]
    exact extends_refl _
  | a :: rest, g, k => by
    simp only [fireList]
    by_cases hka : k < a.pending
    · simp only [if_pos hka]
      exact fire_extends top a g k
    · simp only [if_neg hka]
      exact fireList_extends top rest g (k - a.pending)
end

theorem step_extends (top : Str) (w : Walk) (c : Nat) :
    w.shared.archiver.Extends (w.step top c).shared.archiver := by
  by_cases hp : w.root.pending = 0
  · rw [step_of_quiet top w c hp]
    exact extends_refl _
  · have ih := fire_extends top w.root w.shared (c % w.root.pending)
    simp only [Walk.step, if_neg hp]
    rcases hf : fire top (c % w.root.pending) w.root w.shared with ⟨r1, g1, done⟩
    rw [hf] at ih
    cases done <;> exact ih

theorem foldl_extends (top : Str) : ∀ (sched : List Nat) (w : Walk),
    w.shared.archiver.Extends (sched.foldl (Walk.step top) w).shared.archiver
  | [], _ => extends_refl _
  | c :: rest, w => extends_trans (step_extends top w c) (foldl_extends top rest (w.step top c))

theorem packageRecursively_extends (top : Str) (tree : Node) (a : YazlArchiver)
    (sched : List Nat) : a.Extends (packageRecursively top tree a sched).shared.archiver := by
  rw [packageRecursively_eq_after]
  exact foldl_extends top _ (Walk.start top tree a)

theorem create_consistent (baseDir destination : Str) :
    (YazlArchiver.create baseDir destination).Consistent := by
  refine ⟨by simp [YazlArchiver.create, toInt32], by simp [YazlArchiver.create, toInt32], ?_⟩
  intro e he
  simp [YazlArchiver.create] at he


/-! ### packageRecursively: the claims -/

theorem entriesFilePaths_length_of_files {ι : Type} (top : Str) (name : ι → Str) :
    ∀ l : List ι, entriesNoFail (l.map (fun i => (name i, Node.file))) = true
      ∧ (entriesFilePaths top (l.map (fun i => (name i, Node.file)))).length = l.length
  | [] => by simp [entriesNoFail, entriesFilePaths]
  | i :: rest => by
    obtain ⟨h1, h2⟩ := entriesFilePaths_length_of_files top name rest
    refine ⟨?_, ?_⟩
    · simp only [List.map_cons, entriesNoFail, Node.noFail, h1, Bool.and_self]
    · simp only [List.map_cons, entriesFilePaths, Node.filePaths, List.length_append, h2,
        List.length_cons, List.length_nil]
      omega

/-- The calls recorded by a fresh archiver after a walk in which nothing fails. -/
theorem packageRecursively_fresh (top : Str) (es : List (Str × Node))
    (hes : entriesNoFail es = true) (baseDir destination : Str) (sched : List Nat) :
    ((packageRecursively top (.dir es) (YazlArchiver.create baseDir destination)
        sched).shared.archiver.entries.map Prod.fst).Perm (entriesFilePaths top es)
    ∧ ((packageRecursively top (.dir es) (YazlArchiver.create baseDir destination)
        sched).shared.archiver.dirCalls).Perm (entriesDirPaths top es) := by
  obtain ⟨_, _, _, hf, hd⟩ :=
    packageRecursively_noFail top es hes (YazlArchiver.create baseDir destination) sched
  rw [show (YazlArchiver.create baseDir destination).entries = [] from rfl] at hf
  rw [show (YazlArchiver.create baseDir destination).dirCalls = [] from rfl] at hd
  exact ⟨by simpa only [List.map_nil, List.nil_append] using hf,
    by simpa only [List.nil_append] using hd⟩

/-- The counters of a fresh archiver after a walk in which nothing fails. -/
theorem packageRecursively_counters (top : Str) (es : List (Str × Node))
    (hes : entriesNoFail es = true) (baseDir destination : Str) (sched : List Nat) :
    (packageRecursively top (.dir es) (YazlArchiver.create baseDir destination)
        sched).shared.archiver.filesAdded = toInt32 (entriesFilePaths top es).length
    ∧ (packageRecursively top (.dir es) (YazlArchiver.create baseDir destination)
        sched).shared.archiver.dirsAdded = toInt32 (entriesDirPaths top es).length := by
  obtain ⟨hf, hd⟩ := packageRecursively_fresh top es hes baseDir destination sched
  have hext := packageRecursively_extends top (.dir es) (YazlArchiver.create baseDir destination)
    sched
  obtain ⟨hcf, hcd, _⟩ := hext.2.2.2.2 (create_consistent baseDir destination)
  have h1 := hf.length_eq
  have h2 := hd.length_eq
  rw [List.length_map] at h1
  rw [hcf, hcd, h1, h2]
  exact ⟨rfl, rfl⟩

/-- C4: for every directory tree in which no `readdir` or `stat` fails,
`packageRecursively(topDirectory, archiver)` fails if and only if
`topDirectory` itself has zero entries, whatever the order of the callbacks,
and resolves otherwise; a top directory holding only an empty sub-directory
resolves with one directory recorded and zero files added. -/
theorem packageRecursively_fails_iff_top_empty (top : Str) (es : List (Str × Node))
    (a : YazlArchiver) (sched : List Nat) (hes : entriesNoFail es = true) :
    ((∃ e, (packageRecursively top (.dir es) a sched).shared.promise = .rejected e) ↔ es = [])
    ∧ ((packageRecursively top (.dir es) a sched).shared.promise = .resolved ↔ es ≠ [])
    ∧ (∀ (name baseDir destination : Str),
        (packageRecursively top (.dir [(name, .dir [])])
            (YazlArchiver.create baseDir destination) sched).shared.promise = .resolved
        ∧ (packageRecursively top (.dir [(name, .dir [])])
            (YazlArchiver.create baseDir destination) sched).shared.archiver.dirsAdded = 1
        ∧ (packageRecursively top (.dir [(name, .dir [])])
            (YazlArchiver.create baseDir destination) sched).shared.archiver.filesAdded = 0
        ∧ (packageRecursively top (.dir [(name, .dir [])])
            (YazlArchiver.create baseDir destination) sched).shared.archiver.dirCalls
            = [pathJoin top name]) := by
  obtain ⟨h1, h2, _⟩ := packageRecursively_noFail top es hes a sched
  refine ⟨⟨?_, fun he => ⟨_, h1 he⟩⟩, ⟨?_, h2⟩, ?_⟩
  · intro ⟨e, he⟩
    by_contra hne
    rw [h2 hne] at he
    exact absurd he (by simp)
  · intro hres he
    rw [h1 he] at hres
    exact absurd hres (by simp)
  · intro name baseDir destination
    have hes1 : entriesNoFail [(name, Node.dir [])] = true := by
      simp [entriesNoFail, Node.noFail]
    obtain ⟨_, h3, _, _, _⟩ := packageRecursively_noFail top [(name, Node.dir [])] hes1
      (YazlArchiver.create baseDir destination) sched
    obtain ⟨_, hd⟩ := packageRecursively_fresh top [(name, Node.dir [])] hes1 baseDir
      destination sched
    obtain ⟨hcf, hcd⟩ := packageRecursively_counters top [(name, Node.dir [])] hes1 baseDir
      destination sched
    refine ⟨h3 (by simp), ?_, ?_, ?_⟩
    · rw [hcd]
      simp [entriesDirPaths, Node.dirPaths, toInt32]
    · rw [hcf]
      simp [entriesFilePaths, Node.filePaths, toInt32]
    · simp only [entriesDirPaths, Node.dirPaths, List.append_nil] at hd
      exact List.perm_singleton.1 hd

/-- C4 (witness): the directory holding `a.txt` and `sub/b.txt`, scheduled so
that `b.txt` is added first. -/
theorem packageRecursively_fails_iff_top_empty_witness :
    entriesNoFail albumEntries = true
    ∧ ((packageRecursively exampleTop (.dir albumEntries) exampleArchiver
        [0, 1, 1, 1]).shared.promise = .resolved ↔ albumEntries ≠ []) :=
  ⟨by decide,
    (packageRecursively_fails_iff_top_empty exampleTop albumEntries exampleArchiver [0, 1, 1, 1]
      (by decide)).2.1⟩

/-- C5 (as amended): for every finite directory tree with a non-empty top
directory in which no `readdir` or `stat` fails, whatever the order of the
callbacks, `packageRecursively` resolves, the archiver has received exactly
the paths of the non-directory entries of the subtree through `addFile` and
exactly the paths of the directories below the top through `addDirectory`
(each as often as it occurs in the tree), and when fewer than 2^31 files and
fewer than 2^31 directories are in the subtree `filesAdded` and `dirsAdded`
equal their numbers. -/
theorem packageRecursively_adds_every_entry_once (top : Str) (es : List (Str × Node))
    (baseDir destination : Str) (sched : List Nat)
    (hes : entriesNoFail es = true) (hne : es ≠ [])
    (hfiles : (entriesFilePaths top es).length < 2147483648)
    (hdirs : (entriesDirPaths top es).length < 2147483648) :
    (packageRecursively top (.dir es) (YazlArchiver.create baseDir destination)
        sched).shared.promise = .resolved
    ∧ ((packageRecursively top (.dir es) (YazlArchiver.create baseDir destination)
        sched).shared.archiver.entries.map Prod.fst).Perm (entriesFilePaths top es)
    ∧ ((packageRecursively top (.dir es) (YazlArchiver.create baseDir destination)
        sched).shared.archiver.dirCalls).Perm (entriesDirPaths top es)
    ∧ (packageRecursively top (.dir es) (YazlArchiver.create baseDir destination)
        sched).shared.archiver.filesAdded = (entriesFilePaths top es).length
    ∧ (packageRecursively top (.dir es) (YazlArchiver.create baseDir destination)
        sched).shared.archiver.dirsAdded = (entriesDirPaths top es).length := by
  obtain ⟨_, h2, _, _, _⟩ :=
    packageRecursively_noFail top es hes (YazlArchiver.create baseDir destination) sched
  obtain ⟨hf, hd⟩ := packageRecursively_fresh top es hes baseDir destination sched
  obtain ⟨hcf, hcd⟩ := packageRecursively_counters top es hes baseDir destination sched
  refine ⟨h2 hne, hf, hd, ?_, ?_⟩
  · rw [hcf]
    exact toInt32_of_small _ hfiles
  · rw [hcd]
    exact toInt32_of_small _ hdirs

/-- C5 (witness): the directory holding `a.txt` and `sub/b.txt`. -/
theorem packageRecursively_adds_every_entry_once_witness :
    (entriesNoFail albumEntries = true ∧ albumEntries ≠ [])
    ∧ (packageRecursively exampleTop (.dir albumEntries)
        (YazlArchiver.create exampleFileDir "./temp/inf/album.zip".toList)
        [0, 1, 1, 1]).shared.archiver.filesAdded
        = (entriesFilePaths exampleTop albumEntries).length :=
  ⟨⟨by decide, by simp [albumEntries]⟩,
    (packageRecursively_adds_every_entry_once exampleTop albumEntries exampleFileDir
      "./temp/inf/album.zip".toList [0, 1, 1, 1] (by decide) (by simp [albumEntries])
      (by decide) (by decide)).2.2.2.1⟩

/-- C5 (counterexample): in a top directory with 2^31 files nothing fails, yet
after the walk `filesAdded` is -2^31, not the number of files. -/
theorem packageRecursively_filesAdded_wraps :
    entriesNoFail bigEntries = true
    ∧ ((entriesFilePaths exampleTop bigEntries).length : Int) = 2147483648
    ∧ (packageRecursively exampleTop (.dir bigEntries) exampleArchiver
        []).shared.archiver.filesAdded = -2147483648 := by
  obtain ⟨h1, h2⟩ := entriesFilePaths_length_of_files exampleTop (Nat.toDigits 10)
    (List.range 2147483648)
  have hlen : (entriesFilePaths exampleTop bigEntries).length = 2147483648 := by
    rw [bigEntries, h2, List.length_range]
  refine ⟨h1, by rw [hlen]; rfl, ?_⟩
  have hc := (packageRecursively_counters exampleTop bigEntries h1 exampleFileDir
    "./temp/inf/album.zip".toList []).1
  rw [hlen] at hc
  rw [exampleArchiver, hc]
  unfold toInt32
  omega

/-- C6: for every directory tree and every order of the callbacks in which
some `readdir` or `stat` of the walk is handed an error, the promise of
`packageRecursively` ends rejected with an I/O error, it is resolved at no
moment of the run, and the calls `addFile` / `addDirectory` made up to any
moment are still recorded at the end. -/
theorem packageRecursively_rejects_on_error (top : Str) (tree : Node) (a : YazlArchiver)
    (sched : List Nat) (h : 0 < (packageRecursively top tree a sched).shared.errors) :
    (∃ p, (packageRecursively top tree a sched).shared.promise = .rejected (.io p))
    ∧ (∀ k, (Walk.after top tree a (sched.take k)).shared.promise ≠ .resolved)
    ∧ (∀ k, ∃ fs ds,
        (packageRecursively top tree a sched).shared.archiver.entries
          = (Walk.after top tree a (sched.take k)).shared.archiver.entries ++ fs
        ∧ (packageRecursively top tree a sched).shared.archiver.dirCalls
          = (Walk.after top tree a (sched.take k)).shared.archiver.dirCalls ++ ds) := by
  have hrej := (packageRecursively_inv top tree a sched).2.2.2 h
  have hsplit : ∀ k, packageRecursively top tree a sched
      = (sched.drop k ++ List.replicate (Walk.after top tree a sched).root.work 0).foldl
          (Walk.step top) (Walk.after top tree a (sched.take k)) := by
    intro k
    rw [packageRecursively_eq_after]
    simp only [Walk.after, ← List.foldl_append, ← List.append_assoc, List.take_append_drop]
  refine ⟨hrej, ?_, ?_⟩
  · intro k hres
    have hfix := foldl_of_resolved top
      (sched.drop k ++ List.replicate (Walk.after top tree a sched).root.work 0)
      _ (after_inv top tree a (sched.take k)) hres
    rw [← hsplit k] at hfix
    obtain ⟨p, hp⟩ := hrej
    rw [hfix, hres] at hp
    exact absurd hp (by simp)
  · intro k
    obtain ⟨⟨fs, hfs⟩, ⟨ds, hds⟩⟩ := foldl_grows top
      (sched.drop k ++ List.replicate (Walk.after top tree a sched).root.work 0)
      _ (after_inv top tree a (sched.take k))
    rw [← hsplit k] at hfs hds
    exact ⟨fs, ds, hfs, hds⟩

/-- C6 (witness): `fs.readdir` of the sub-directory `locked` fails after
`a.txt` has been added. -/
theorem packageRecursively_rejects_on_error_witness :
    0 < (packageRecursively exampleTop (.dir brokenEntries) exampleArchiver
        [0, 0, 0]).shared.errors
    ∧ (∃ p, (packageRecursively exampleTop (.dir brokenEntries) exampleArchiver
        [0, 0, 0]).shared.promise = .rejected (.io p)) :=
  ⟨by decide,
    (packageRecursively_rejects_on_error exampleTop (.dir brokenEntries) exampleArchiver
      [0, 0, 0] (by decide)).1⟩


/-! ### The access gate on the example rules -/

/-- C2 (as amended): with the rule table `/inf/secret ↦ p1`,
`/inf/secret/nested ↦ p2` neither check ever matches a rule, because the keys
looked up carry no leading slash: `/inf/secret/nested/file` is allowed with
`p2` and with `p1`, and `/inf/other/file` is allowed without a credential.
With the same rules under the keys that are looked up, `/inf/secret/nested/file`
allows `p1` and denies `p2` (the first, shallowest matching key decides), and
`/inf/other/file` without a credential is allowed. -/
theorem access_example_first_key_wins :
    (checkPassword rulesAsWritten "/inf/secret/nested/file".toList (some "p2".toList)
        = [Effect.next]
      ∧ checkPassword rulesAsWritten "/inf/secret/nested/file".toList (some "p1".toList)
        = [Effect.next]
      ∧ checkPassword rulesAsWritten "/inf/other/file".toList none = [Effect.next]
      ∧ hasAccess rulesAsWritten "/inf/secret/nested/file".toList (some "p2".toList) = true
      ∧ hasAccess rulesAsWritten "/inf/secret/nested/file".toList (some "p1".toList) = true
      ∧ hasAccess rulesAsWritten "/inf/other/file".toList none = true)
    ∧ (checkPassword rulesForGate "/inf/secret/nested/file".toList (some "p1".toList)
        = [Effect.next]
      ∧ checkPassword rulesForGate "/inf/secret/nested/file".toList (some "p2".toList)
        = [Effect.send 403]
      ∧ checkPassword rulesForGate "/inf/other/file".toList none = [Effect.next])
    ∧ (hasAccess rulesForListing "/inf/secret/nested/file".toList (some "p1".toList) = true
      ∧ hasAccess rulesForListing "/inf/secret/nested/file".toList (some "p2".toList) = false
      ∧ hasAccess rulesForListing "/inf/other/file".toList none = true) := by
  decide

/-- C2 (counterexample): with the rule table of the example, the request for
`/inf/secret/nested/file` with credential `p1` is let through by
`checkPassword` and granted by `hasAccess`; it is not denied. -/
theorem access_example_p1_not_denied :
    checkPassword rulesAsWritten "/inf/secret/nested/file".toList (some "p1".toList)
      = [Effect.next]
    ∧ hasAccess rulesAsWritten "/inf/secret/nested/file".toList (some "p1".toList) = true := by
  decide

/-! ### YazlArchiver: entry names, publishing, cleanup -/

/-- C8: for every archiver, with base directory `b`, and every relative path
`r`, `getZipPath(b + "/" + r)` returns `r`. -/
theorem getZipPath_of_join (a : YazlArchiver) (r : Str) :
    a.getZipPath (a.baseDir ++ "/".toList ++ r) = r := by
  have hlen : (a.baseDir ++ "/".toList).length = a.baseDir.length + 1 := by simp
  simp only [YazlArchiver.getZipPath, substring]
  rw [← hlen]
  exact List.drop_left _ _

theorem tempPath_ne_destination (a : YazlArchiver) : a.tempPath ≠ a.destination := by
  intro h
  have := congrArg List.length h
  simp [YazlArchiver.tempPath] at this

theorem open_destination (a : YazlArchiver) (fs : Fs) :
    (a.open fs) a.destination = fs a.destination := by
  have hne := tempPath_ne_destination a
  have hne2 : a.destination ≠ a.tempPath := fun e => hne e.symm
  simp [YazlArchiver.open, Fs.set, hne2]

/-- C9: on every file system and for every pattern of failing calls, when
`finalizeArchive` resolves the destination holds exactly the content the
provisional file had, the provisional path is gone and `finished` is true;
when it rejects `finished` is unchanged and the destination is as before or
absent.  Opening the archiver and writing the archive leave the destination
untouched, so only the rename brings the destination name into existence. -/
theorem finalizeArchive_publishes_by_rename (a : YazlArchiver) (fs : Fs) (faults : Faults) :
    ((a.finalizeArchive fs faults).2.2 = true →
        (∃ c, fs a.tempPath = some c ∧ (a.finalizeArchive fs faults).2.1 a.destination = some c)
        ∧ (a.finalizeArchive fs faults).2.1 a.tempPath = none
        ∧ (a.finalizeArchive fs faults).1.finished = true)
    ∧ ((a.finalizeArchive fs faults).2.2 = false →
        (a.finalizeArchive fs faults).1.finished = a.finished
        ∧ ((a.finalizeArchive fs faults).2.1 a.destination = fs a.destination
            ∨ (a.finalizeArchive fs faults).2.1 a.destination = none))
    ∧ (a.open fs) a.destination = fs a.destination
    ∧ (a.flush fs) a.destination = fs a.destination := by
  have hne := tempPath_ne_destination a
  have hne2 : a.destination ≠ a.tempPath := fun e => hne e.symm
  refine ⟨?_, ?_, ?_, ?_⟩
  · cases hsf : faults.statFault <;> cases huf : faults.unlinkFault <;>
      cases hrf : faults.renameFault <;> cases hd : fs a.destination <;>
      cases ht : fs a.tempPath <;>
      simp [YazlArchiver.finalizeArchive, statSync, unlinkSync, renameSync, Fs.set, hsf, huf,
        hrf, hd, ht, hne, hne2]
  · cases hsf : faults.statFault <;> cases huf : faults.unlinkFault <;>
      cases hrf : faults.renameFault <;> cases hd : fs a.destination <;>
      cases ht : fs a.tempPath <;>
      simp [YazlArchiver.finalizeArchive, statSync, unlinkSync, renameSync, Fs.set, hsf, huf,
        hrf, hd, ht, hne, hne2]
  · simp [YazlArchiver.open, Fs.set, hne2]
  · simp [YazlArchiver.flush, Fs.set, hne2]

/-- C10: on every file system and for every pattern of failing calls the
promise of `failureCleanup` resolves; when the deletion succeeds the
provisional file no longer exists; the destination is unchanged either way. -/
theorem failureCleanup_always_resolves (a : YazlArchiver) (fs : Fs) (faults : Faults) :
    (a.failureCleanup fs faults).2 = true
    ∧ ((unlinkSync fs faults a.tempPath).isSome = true →
        (a.failureCleanup fs faults).1 a.tempPath = none)
    ∧ (a.failureCleanup fs faults).1 a.destination = fs a.destination := by
  have hne := tempPath_ne_destination a
  have hne2 : a.destination ≠ a.tempPath := fun e => hne e.symm
  cases huf : faults.unlinkFault <;> cases ht : fs a.tempPath <;>
    simp [YazlArchiver.failureCleanup, unlinkSync, Fs.set, huf, ht, hne2]


/-! ### doZip -/

/-- C3 (the code at the failing input): for a zip request on the served root,
with or without a trailing slash, `doZip` sends the 400 response and then goes
on: with no archive of the root under `./temp` it constructs an archiver,
walks the whole served tree, finalizes and sends the archive and schedules its
deletion; with an archive present it sends that file. -/
theorem doZip_root_goes_on_after_400 :
    (doZip exampleFileDir exampleWorld rootZipRequest).effects
      = [Effect.send 400, Effect.mkdirp "./temp".toList,
          Effect.newArchiver exampleFileDir "./temp/inf.zip".toList,
          Effect.packageRecursively "/srv/file-dir/inf".toList, Effect.finalizeArchive,
          Effect.sendFile "./temp/inf.zip".toList,
          Effect.setTimeout 86400000 "./temp/inf.zip".toList]
    ∧ (doZip exampleFileDir exampleWorld rootSlashZipRequest).effects
      = (doZip exampleFileDir exampleWorld rootZipRequest).effects
    ∧ (doZip exampleFileDir exampleWorld rootZipRequest).files "./temp/inf.zip".toList
      = some ["inf/album/a.txt".toList, "inf/album/sub/b.txt".toList]
    ∧ (doZip exampleFileDir cachedRootWorld rootZipRequest).effects
      = [Effect.send 400, Effect.mkdirp "./temp".toList,
          Effect.sendFile "./temp/inf.zip".toList] := by
  decide

/-- C7 (counterexample): for the requested directory `/inf/album` holding
`a.txt` and `sub/b.txt`, the archive `doZip` publishes has the entry names
`inf/album/a.txt` and `inf/album/sub/b.txt`, not `a.txt` and `sub/b.txt`. -/
theorem doZip_entry_names_keep_request_path :
    (doZip exampleFileDir exampleWorld albumZipRequest).files "./temp/inf/album.zip".toList
      = some ["inf/album/a.txt".toList, "inf/album/sub/b.txt".toList]
    ∧ (doZip exampleFileDir exampleWorld albumZipRequest).files "./temp/inf/album.zip".toList
      ≠ some ["a.txt".toList, "sub/b.txt".toList] := by
  decide


/-- Publishing a freshly written archive when nothing is at the destination
and no call fails. -/
theorem finalizeArchive_fresh (a : YazlArchiver) (fs : Fs) (h : fs a.destination = none) :
    (a.finalizeArchive (a.flush fs) noFaults).2.2 = true
    ∧ (a.finalizeArchive (a.flush fs) noFaults).2.1 a.destination
        = some (a.entries.map Prod.snd) := by
  have hne := tempPath_ne_destination a
  have hne2 : a.destination ≠ a.tempPath := fun e => hne e.symm
  simp [YazlArchiver.finalizeArchive, YazlArchiver.flush, statSync, renameSync, Fs.set, noFaults,
    h, hne2]

/-- The run of `doZip` for a request that starts a build which packages and
finalizes without failure. -/
theorem doZip_builds (FILE_DIR : Str) (w : World) (req : Request) (reqPath : Str)
    (hzip : req.zip = some ['1']) (hdec : decodeURIComponent req.path = some reqPath)
    (hslash : endsWithSlash reqPath = false) (hmk : w.mkdirpOk = true)
    (hfaults : w.faults = noFaults)
    (habsent : w.files ("./temp".toList ++ reqPath ++ ".zip".toList) = none)
    (hres : (packageRecursively (FILE_DIR ++ reqPath) (w.served (FILE_DIR ++ reqPath))
        (YazlArchiver.create FILE_DIR ("./temp".toList ++ reqPath ++ ".zip".toList))
        w.schedule).shared.promise = .resolved) :
    (doZip FILE_DIR w req).files ("./temp".toList ++ reqPath ++ ".zip".toList)
      = some ((packageRecursively (FILE_DIR ++ reqPath) (w.served (FILE_DIR ++ reqPath))
          (YazlArchiver.create FILE_DIR ("./temp".toList ++ reqPath ++ ".zip".toList))
          w.schedule).shared.archiver.entries.map Prod.snd) := by
  have hext := packageRecursively_extends (FILE_DIR ++ reqPath) (w.served (FILE_DIR ++ reqPath))
    (YazlArchiver.create FILE_DIR ("./temp".toList ++ reqPath ++ ".zip".toList)) w.schedule
  have hdest : (packageRecursively (FILE_DIR ++ reqPath) (w.served (FILE_DIR ++ reqPath))
      (YazlArchiver.create FILE_DIR ("./temp".toList ++ reqPath ++ ".zip".toList))
      w.schedule).shared.archiver.destination = "./temp".toList ++ reqPath ++ ".zip".toList :=
    hext.2.1
  have hopen : ((YazlArchiver.create FILE_DIR ("./temp".toList ++ reqPath ++ ".zip".toList)).open
      w.files) (packageRecursively (FILE_DIR ++ reqPath) (w.served (FILE_DIR ++ reqPath))
      (YazlArchiver.create FILE_DIR ("./temp".toList ++ reqPath ++ ".zip".toList))
      w.schedule).shared.archiver.destination = none := by
    rw [hdest]
    have h9 := open_destination
      (YazlArchiver.create FILE_DIR ("./temp".toList ++ reqPath ++ ".zip".toList)) w.files
    rw [show (YazlArchiver.create FILE_DIR ("./temp".toList ++ reqPath ++ ".zip".toList)).destination
      = "./temp".toList ++ reqPath ++ ".zip".toList from rfl] at h9
    rw [h9]
    exact habsent
  obtain ⟨hok, hfile⟩ := finalizeArchive_fresh _ _ hopen
  rw [hdest] at hfile
  simp only [doZip, hzip, hdec, hslash, hmk, habsent, hres, hfaults, ne_eq, not_true_eq_false,
    if_false, Bool.not_true, Bool.false_eq_true, Option.isSome_none]
  rcases hfin : (packageRecursively (FILE_DIR ++ reqPath) (w.served (FILE_DIR ++ reqPath))
      (YazlArchiver.create FILE_DIR ("./temp".toList ++ reqPath ++ ".zip".toList))
      w.schedule).shared.archiver.finalizeArchive
      ((packageRecursively (FILE_DIR ++ reqPath) (w.served (FILE_DIR ++ reqPath))
        (YazlArchiver.create FILE_DIR ("./temp".toList ++ reqPath ++ ".zip".toList))
        w.schedule).shared.archiver.flush
        ((YazlArchiver.create FILE_DIR ("./temp".toList ++ reqPath ++ ".zip".toList)).open
          w.files)) noFaults with ⟨done, files2, ok⟩
  rw [hfin] at hok hfile
  simp only at hok hfile
  subst hok
  exact hfile

theorem drop_baseDir (b r : Str) : substring (b ++ '/' :: r) (b.length + 1) = r := by
  have hlen : (b ++ ['/']).length = b.length + 1 := by simp
  have happ : b ++ '/' :: r = (b ++ ['/']) ++ r := by simp
  rw [substring, happ, ← hlen]
  exact List.drop_left _ _

/-- C7 (as amended): for every served root `FILE_DIR` and every order of the
walk's callbacks, when `/inf/album` holds exactly the files `a.txt` and
`sub/b.txt`, no archive of it exists yet and no call fails, the archive that
`doZip` publishes has exactly the entry names `inf/album/a.txt` and
`inf/album/sub/b.txt`: every entry name is the file's path relative to the
served root, so it begins with the segments of the request path. -/
theorem doZip_entry_names_relative_to_served_root (FILE_DIR : Str) (w : World)
    (hmk : w.mkdirpOk = true) (hfaults : w.faults = noFaults)
    (habsent : w.files "./temp/inf/album.zip".toList = none)
    (hserved : w.served (FILE_DIR ++ "/inf/album".toList) = .dir albumEntries) :
    ∃ names, (doZip FILE_DIR w albumZipRequest).files "./temp/inf/album.zip".toList = some names
      ∧ names.Perm ["inf/album/a.txt".toList, "inf/album/sub/b.txt".toList] := by
  have hpath : "./temp".toList ++ "/inf/album".toList ++ ".zip".toList
      = "./temp/inf/album.zip".toList := by decide
  have hes : entriesNoFail albumEntries = true := by decide
  have hne : albumEntries ≠ [] := by simp [albumEntries]
  obtain ⟨_, hres, _, _, _⟩ := packageRecursively_noFail (FILE_DIR ++ "/inf/album".toList)
    albumEntries hes (YazlArchiver.create FILE_DIR "./temp/inf/album.zip".toList) w.schedule
  obtain ⟨hperm, _⟩ := packageRecursively_fresh (FILE_DIR ++ "/inf/album".toList)
    albumEntries hes FILE_DIR "./temp/inf/album.zip".toList w.schedule
  have hext := packageRecursively_extends (FILE_DIR ++ "/inf/album".toList) (.dir albumEntries)
    (YazlArchiver.create FILE_DIR "./temp/inf/album.zip".toList) w.schedule
  obtain ⟨_, _, hzip⟩ := hext.2.2.2.2 (create_consistent _ _)
  have hbase := hext.1
  have hbuild := doZip_builds FILE_DIR w albumZipRequest "/inf/album".toList rfl (by decide)
    (by decide) hmk hfaults (by rw [hpath]; exact habsent)
    (by rw [hpath, hserved]; exact hres hne)
  rw [hpath, hserved] at hbuild
  refine ⟨_, hbuild, ?_⟩
  have hnames : (packageRecursively (FILE_DIR ++ "/inf/album".toList) (.dir albumEntries)
      (YazlArchiver.create FILE_DIR "./temp/inf/album.zip".toList)
      w.schedule).shared.archiver.entries.map Prod.snd
      = ((packageRecursively (FILE_DIR ++ "/inf/album".toList) (.dir albumEntries)
          (YazlArchiver.create FILE_DIR "./temp/inf/album.zip".toList)
          w.schedule).shared.archiver.entries.map Prod.fst).map
          (fun p => substring p (FILE_DIR.length + 1)) := by
    rw [List.map_map]
    apply List.map_congr_left
    intro e he
    rw [hzip e he]
    simp only [YazlArchiver.getZipPath, hbase, Function.comp]
    rfl
  rw [hnames]
  have htarget : (entriesFilePaths (FILE_DIR ++ "/inf/album".toList) albumEntries).map
      (fun p => substring p (FILE_DIR.length + 1))
      = ["inf/album/a.txt".toList, "inf/album/sub/b.txt".toList] := by
    have h1 : pathJoin (FILE_DIR ++ "/inf/album".toList) "a.txt".toList
        = FILE_DIR ++ '/' :: "inf/album/a.txt".toList := by
      simp [pathJoin]
    have h2 : pathJoin (pathJoin (FILE_DIR ++ "/inf/album".toList) "sub".toList) "b.txt".toList
        = FILE_DIR ++ '/' :: "inf/album/sub/b.txt".toList := by
      simp [pathJoin]
    simp only [albumEntries, entriesFilePaths, Node.filePaths, List.append_nil, List.map_cons,
      List.map_nil, List.singleton_append, h1, h2, drop_baseDir]
  rw [← htarget]
  exact hperm.map _

/-- C7 (witness): the served root `/srv/file-dir` with no archive under
`./temp`. -/
theorem doZip_entry_names_relative_to_served_root_witness :
    (exampleWorld.mkdirpOk = true ∧ exampleWorld.faults = noFaults
      ∧ exampleWorld.files "./temp/inf/album.zip".toList = none)
    ∧ ∃ names,
      (doZip exampleFileDir exampleWorld albumZipRequest).files "./temp/inf/album.zip".toList
        = some names
      ∧ names.Perm ["inf/album/a.txt".toList, "inf/album/sub/b.txt".toList] :=
  ⟨⟨rfl, rfl, rfl⟩,
    doZip_entry_names_relative_to_served_root exampleFileDir exampleWorld rfl rfl rfl rfl⟩


/-! ### doZip: every run -/

/-- What the `'close'` handler of `finalizeArchive` leaves behind. -/
theorem finalizeArchive_outcome (a : YazlArchiver) (fs : Fs) (faults : Faults) :
    ((a.finalizeArchive fs faults).2.2 = true →
        (a.finalizeArchive fs faults).1.finished = true
        ∧ (∃ c, (a.finalizeArchive fs faults).2.1 a.destination = some c)
        ∧ (a.finalizeArchive fs faults).2.1 a.tempPath = none)
    ∧ ((a.finalizeArchive fs faults).2.2 = false → (a.finalizeArchive fs faults).1 = a) := by
  have hne := tempPath_ne_destination a
  have hne2 : a.destination ≠ a.tempPath := fun e => hne e.symm
  refine ⟨?_, ?_⟩
  · cases hsf : faults.statFault <;> cases huf : faults.unlinkFault <;>
      cases hrf : faults.renameFault <;> cases hd : fs a.destination <;>
      cases ht : fs a.tempPath <;>
      simp [YazlArchiver.finalizeArchive, statSync, unlinkSync, renameSync, Fs.set, hsf, huf,
        hrf, hd, ht, hne, hne2]
  · cases hsf : faults.statFault <;> cases huf : faults.unlinkFault <;>
      cases hrf : faults.renameFault <;> cases hd : fs a.destination <;>
      cases ht : fs a.tempPath <;>
      simp [YazlArchiver.finalizeArchive, statSync, unlinkSync, renameSync, Fs.set, hsf, huf,
        hrf, hd, ht, hne, hne2]

/-- What the `'close'` handler of `failureCleanup` leaves behind after a build
that found nothing at the destination. -/
theorem failureCleanup_outcome (a : YazlArchiver) (fs : Fs) (faults : Faults) :
    (faults.unlinkFault = false → (a.failureCleanup (a.flush fs) faults).1 a.tempPath = none)
    ∧ (a.failureCleanup (a.flush fs) faults).1 a.destination = fs a.destination := by
  have hne := tempPath_ne_destination a
  have hne2 : a.destination ≠ a.tempPath := fun e => hne e.symm
  cases huf : faults.unlinkFault <;>
    simp [YazlArchiver.failureCleanup, YazlArchiver.flush, unlinkSync, Fs.set, huf, hne2]

theorem doZip_eq (FILE_DIR : Str) (w : World) (req : Request) (decoded : Str)
    (hzip : req.zip = some ['1']) (hdec : decodeURIComponent req.path = some decoded) :
    doZip FILE_DIR w req = doZipAt FILE_DIR w (trimSlash decoded) := by
  simp only [doZip, hzip, hdec, doZipAt, trimSlash, zipBuilt, zipBegun, zipDestination, ne_eq,
    not_true_eq_false, if_false, List.append_assoc]

theorem doZipAt_shape (FILE_DIR : Str) (w : World) (reqPath : Str) :
    ZipShape FILE_DIR w reqPath (doZipAt FILE_DIR w reqPath) := by
  have hext := packageRecursively_extends (FILE_DIR ++ reqPath)
    (w.served (FILE_DIR ++ reqPath))
    (YazlArchiver.create FILE_DIR (zipDestination reqPath)) w.schedule
  have hdest := hext.2.1
  have hfin : (packageRecursively (FILE_DIR ++ reqPath) (w.served (FILE_DIR ++ reqPath))
      (YazlArchiver.create FILE_DIR (zipDestination reqPath))
      w.schedule).shared.archiver.finished = false := hext.2.2.1
  rw [show (YazlArchiver.create FILE_DIR (zipDestination reqPath)).destination
    = zipDestination reqPath from rfl] at hdest
  have hopen := open_destination (YazlArchiver.create FILE_DIR (zipDestination reqPath)) w.files
  rw [show (YazlArchiver.create FILE_DIR (zipDestination reqPath)).destination
    = zipDestination reqPath from rfl] at hopen
  have hout := finalizeArchive_outcome
    (packageRecursively (FILE_DIR ++ reqPath) (w.served (FILE_DIR ++ reqPath))
      (YazlArchiver.create FILE_DIR (zipDestination reqPath)) w.schedule).shared.archiver
    ((packageRecursively (FILE_DIR ++ reqPath) (w.served (FILE_DIR ++ reqPath))
      (YazlArchiver.create FILE_DIR (zipDestination reqPath)) w.schedule).shared.archiver.flush
      ((YazlArchiver.create FILE_DIR (zipDestination reqPath)).open w.files))
    w.faults
  have hclean := failureCleanup_outcome
    (packageRecursively (FILE_DIR ++ reqPath) (w.served (FILE_DIR ++ reqPath))
      (YazlArchiver.create FILE_DIR (zipDestination reqPath)) w.schedule).shared.archiver
    ((YazlArchiver.create FILE_DIR (zipDestination reqPath)).open w.files)
    w.faults
  simp only [YazlArchiver.tempPath, hdest] at hout hclean
  unfold ZipShape
  cases hmk : w.mkdirpOk with
  | false =>
    refine Or.inl ⟨rfl, ?_, ?_, ?_⟩ <;> simp [doZipAt, hmk]
  | true =>
    cases hfile : w.files (zipDestination reqPath) with
    | some c =>
      refine Or.inr (Or.inl ⟨rfl, ⟨c, rfl⟩, ?_, ?_, ?_⟩) <;> simp [doZipAt, hmk, hfile]
    | none =>
      refine Or.inr (Or.inr ?_)
      rw [hfile] at hopen
      cases hp : (packageRecursively (FILE_DIR ++ reqPath) (w.served (FILE_DIR ++ reqPath))
          (YazlArchiver.create FILE_DIR (zipDestination reqPath)) w.schedule).shared.promise with
      | pending =>
        refine Or.inr (Or.inr (Or.inr ⟨rfl, rfl, ⟨_, ?_, hfin⟩, ?_⟩)) <;>
          simp [doZipAt, hmk, hfile, hp]
      | rejected e =>
        refine Or.inr (Or.inr (Or.inl ⟨rfl, rfl, ⟨_, ?_, hfin⟩, ?_, ?_, ?_⟩))
        · simp [doZipAt, hmk, hfile, hp]
        · simp [doZipAt, hmk, hfile, hp]
        · intro hu
          have := hclean.1 hu
          simpa [doZipAt, hmk, hfile, hp] using this
        · have := hclean.2
          rw [hopen] at this
          simpa [doZipAt, hmk, hfile, hp] using this
      | resolved =>
        rcases hfz : (packageRecursively (FILE_DIR ++ reqPath) (w.served (FILE_DIR ++ reqPath))
          (YazlArchiver.create FILE_DIR (zipDestination reqPath))
          w.schedule).shared.archiver.finalizeArchive
          ((packageRecursively (FILE_DIR ++ reqPath) (w.served (FILE_DIR ++ reqPath))
            (YazlArchiver.create FILE_DIR (zipDestination reqPath))
            w.schedule).shared.archiver.flush
            ((YazlArchiver.create FILE_DIR (zipDestination reqPath)).open w.files)) w.faults
          with ⟨done, files2, ok⟩
        rw [hfz] at hout
        cases ok with
        | true =>
          obtain ⟨h1, h2, h3⟩ := hout.1 rfl
          refine Or.inl ⟨rfl, rfl, ⟨done, ?_, h1⟩, ?_, ?_, ?_⟩
          · simp [doZipAt, hmk, hfile, hp, hfz]
          · simp [doZipAt, hmk, hfile, hp, hfz]
          · simpa [doZipAt, hmk, hfile, hp, hfz] using h2
          · simpa [doZipAt, hmk, hfile, hp, hfz] using h3
        | false =>
          have h1 := hout.2 rfl
          simp only at h1
          refine Or.inr (Or.inl ⟨rfl, rfl, ⟨done, ?_, by rw [h1]; exact hfin⟩, ?_⟩)
          · simp [doZipAt, hmk, hfile, hp, hfz]
          · simp [doZipAt, hmk, hfile, hp, hfz]

theorem doZip_shape (FILE_DIR : Str) (w : World) (req : Request) (decoded : Str)
    (hzip : req.zip = some ['1']) (hdec : decodeURIComponent req.path = some decoded) :
    ZipShape FILE_DIR w (trimSlash decoded) (doZip FILE_DIR w req) := by
  rw [doZip_eq FILE_DIR w req decoded hzip hdec]
  exact doZipAt_shape FILE_DIR w (trimSlash decoded)


/-- C11 (the code at the failing input): when `fs.renameSync` fails, the build
of `/inf/album` is packaged and then fails in `finalizeArchive`; `doZip` runs
no `failureCleanup`, and the provisional file `./temp/inf/album.zip.temp`
stays, with the archive's content.  When the build fails while packaging,
`failureCleanup` runs before the 500 response and the provisional file is
gone. -/
theorem doZip_finalize_failure_skips_cleanup :
    (doZip exampleFileDir renameFailsWorld albumZipRequest).effects
      = [Effect.mkdirp "./temp/inf".toList,
          Effect.newArchiver exampleFileDir "./temp/inf/album.zip".toList,
          Effect.packageRecursively "/srv/file-dir/inf/album".toList, Effect.finalizeArchive,
          Effect.throwTypeError]
    ∧ (doZip exampleFileDir renameFailsWorld albumZipRequest).files
        "./temp/inf/album.zip.temp".toList
      = some ["inf/album/a.txt".toList, "inf/album/sub/b.txt".toList]
    ∧ (doZip exampleFileDir brokenWorld albumZipRequest).effects
      = [Effect.mkdirp "./temp/inf".toList,
          Effect.newArchiver exampleFileDir "./temp/inf/album.zip".toList,
          Effect.packageRecursively "/srv/file-dir/inf/album".toList, Effect.failureCleanup,
          Effect.send 500]
    ∧ (doZip exampleFileDir brokenWorld albumZipRequest).files
        "./temp/inf/album.zip.temp".toList = none := by
  decide

/-- C12 (the code at the failing input): when `fs.statSync` fails with a code
other than `ENOENT`, `finalizeArchive` rejects without a reason; the handler
reads `err.message` of `undefined`, so `doZip` raises a `TypeError` and sends
no 500 response. -/
theorem doZip_finalize_failure_sends_no_500 :
    (doZip exampleFileDir statFailsWorld albumZipRequest).effects
      = [Effect.mkdirp "./temp/inf".toList,
          Effect.newArchiver exampleFileDir "./temp/inf/album.zip".toList,
          Effect.packageRecursively "/srv/file-dir/inf/album".toList, Effect.finalizeArchive,
          Effect.throwTypeError]
    ∧ Effect.send 500 ∉ (doZip exampleFileDir statFailsWorld albumZipRequest).effects
    ∧ Effect.throwTypeError ∈ (doZip exampleFileDir statFailsWorld albumZipRequest).effects := by
  decide

theorem zipBegun_no_build_step (reqPath : Str) (file : Str) :
    (zipBegun reqPath ++ [Effect.sendFile file]).any Effect.isBuildStep = false := by
  by_cases h : reqPath = "/inf".toList <;> simp [zipBegun, h, Effect.isBuildStep]

/-- C13: for every zip request whose canonical destination holds a readable
archive (and whose `mkdirp` of the existing directory resolves), `doZip` sends
that file right after the `mkdirp`: it constructs no archiver, walks no
directory, leaves the files under `./temp` as they are (no provisional file)
and schedules no deletion. -/
theorem doZip_reuses_existing_archive (FILE_DIR : Str) (w : World) (req : Request)
    (decoded : Str) (c : Content)
    (hzip : req.zip = some ['1']) (hdec : decodeURIComponent req.path = some decoded)
    (hmk : w.mkdirpOk = true)
    (hcached : w.files (zipDestination (trimSlash decoded)) = some c) :
    (doZip FILE_DIR w req).effects
      = zipBegun (trimSlash decoded) ++ [Effect.sendFile (zipDestination (trimSlash decoded))]
    ∧ (doZip FILE_DIR w req).effects.any Effect.isBuildStep = false
    ∧ (doZip FILE_DIR w req).archiver = none
    ∧ (doZip FILE_DIR w req).files = w.files := by
  rcases doZip_shape FILE_DIR w req decoded hzip hdec with
    ⟨h, _⟩ | ⟨_, _, he, ha, hf⟩ | ⟨_, h, _⟩ | ⟨_, h, _⟩ | ⟨_, h, _⟩ | ⟨_, h, _⟩
  · rw [hmk] at h
    exact absurd h (by simp)
  · refine ⟨he, ?_, ha, hf⟩
    rw [he]
    exact zipBegun_no_build_step _ _
  all_goals (rw [hcached] at h; exact absurd h (by simp))

/-- C13 (witness): the archive of `inf/album` is already under `./temp`. -/
theorem doZip_reuses_existing_archive_witness :
    (albumZipRequest.zip = some ['1']
      ∧ decodeURIComponent albumZipRequest.path = some "/inf/album".toList
      ∧ cachedAlbumWorld.mkdirpOk = true)
    ∧ (doZip exampleFileDir cachedAlbumWorld albumZipRequest).effects
      = zipBegun (trimSlash "/inf/album".toList)
          ++ [Effect.sendFile (zipDestination (trimSlash "/inf/album".toList))] :=
  ⟨⟨rfl, by decide, rfl⟩,
    (doZip_reuses_existing_archive exampleFileDir cachedAlbumWorld albumZipRequest
      "/inf/album".toList ["inf/album/old.txt".toList] rfl (by decide) rfl (by decide)).1⟩

/-- C14: for every zip request, a build that is published (`finished`) is
followed by exactly one `setTimeout` of the deletion of the destination, with
the delay `TIME_TO_PURGE_ZIPS` of 24 hours, placed after `finalizeArchive` and
the sending of the file; every other run (archive reused, build failed)
schedules none.  The scheduled callback removes the file when `fs.unlink`
succeeds and changes nothing when it fails; once the file is removed, a later
request for the same directory constructs an archiver and walks the directory
again. -/
theorem doZip_schedules_one_purge (FILE_DIR : Str) (w : World) (req : Request) (decoded : Str)
    (hzip : req.zip = some ['1']) (hdec : decodeURIComponent req.path = some decoded) :
    ((∃ a, (doZip FILE_DIR w req).archiver = some a ∧ a.finished = true) →
        (doZip FILE_DIR w req).effects
          = zipBuilt FILE_DIR (trimSlash decoded) ++ [Effect.finalizeArchive,
              Effect.sendFile (zipDestination (trimSlash decoded)),
              Effect.setTimeout TIME_TO_PURGE_ZIPS (zipDestination (trimSlash decoded))]
        ∧ (doZip FILE_DIR w req).effects.filter Effect.isSetTimeout
          = [Effect.setTimeout TIME_TO_PURGE_ZIPS (zipDestination (trimSlash decoded))]
        ∧ ∃ c, (doZip FILE_DIR w req).files (zipDestination (trimSlash decoded)) = some c)
    ∧ ((¬ ∃ a, (doZip FILE_DIR w req).archiver = some a ∧ a.finished = true) →
        (doZip FILE_DIR w req).effects.filter Effect.isSetTimeout = [])
    ∧ TIME_TO_PURGE_ZIPS = 24 * 60 * 60 * 1000
    ∧ (∀ (fs : Fs) (faults : Faults),
        ((unlinkSync fs faults (zipDestination (trimSlash decoded))).isSome = true →
          purgeZip fs faults (zipDestination (trimSlash decoded))
            (zipDestination (trimSlash decoded)) = none)
        ∧ (unlinkSync fs faults (zipDestination (trimSlash decoded)) = none →
          purgeZip fs faults (zipDestination (trimSlash decoded)) = fs))
    ∧ (∀ w2 : World, w2.mkdirpOk = true → w2.files (zipDestination (trimSlash decoded)) = none →
        Effect.newArchiver FILE_DIR (zipDestination (trimSlash decoded))
          ∈ (doZip FILE_DIR w2 req).effects
        ∧ Effect.packageRecursively (FILE_DIR ++ trimSlash decoded)
          ∈ (doZip FILE_DIR w2 req).effects) := by
  have hbegun : ∀ r : Str, (zipBegun r).filter Effect.isSetTimeout = [] := by
    intro r
    by_cases h : r = "/inf".toList <;> simp [zipBegun, h, Effect.isSetTimeout]
  have hbuilt : ∀ r : Str, (zipBuilt FILE_DIR r).filter Effect.isSetTimeout = [] := by
    intro r
    simp [zipBuilt, hbegun, Effect.isSetTimeout]
  refine ⟨?_, ?_, by decide, ?_, ?_⟩
  · intro ⟨a, ha, hfin⟩
    rcases doZip_shape FILE_DIR w req decoded hzip hdec with
      ⟨_, _, h, _⟩ | ⟨_, _, _, h, _⟩ | ⟨_, _, _, he, hc, _⟩ | ⟨_, _, ⟨b, hb, hbf⟩, _⟩
        | ⟨_, _, ⟨b, hb, hbf⟩, _⟩ | ⟨_, _, ⟨b, hb, hbf⟩, _⟩
    · rw [ha] at h
      exact absurd h (by simp)
    · rw [ha] at h
      exact absurd h (by simp)
    · refine ⟨he, ?_, hc⟩
      rw [he]
      simp [hbuilt, Effect.isSetTimeout]
    all_goals
      rw [ha] at hb
      injection hb with hb
      rw [hb, hbf] at hfin
      exact absurd hfin (by simp)
  · intro hno
    rcases doZip_shape FILE_DIR w req decoded hzip hdec with
      ⟨_, he, _⟩ | ⟨_, _, he, _⟩ | ⟨_, _, hex, _⟩ | ⟨_, _, _, he⟩ | ⟨_, _, _, he, _⟩
        | ⟨_, _, _, he⟩
    · rw [he]
      exact hbegun _
    · rw [he]
      simp [hbegun, Effect.isSetTimeout]
    · exact absurd hex hno
    · rw [he]
      simp [hbuilt, Effect.isSetTimeout]
    · rw [he]
      simp [hbuilt, Effect.isSetTimeout]
    · rw [he]
      exact hbuilt _
  · intro fs faults
    refine ⟨?_, ?_⟩
    · intro h
      cases hu : faults.unlinkFault <;>
        cases hf : fs (zipDestination (trimSlash decoded)) <;>
        simp [purgeZip, unlinkSync, Fs.set, hu, hf] at h ⊢
    · intro h
      simp [purgeZip, h]
  · intro w2 hmk hnone
    rcases doZip_shape FILE_DIR w2 req decoded hzip hdec with
      ⟨h, _⟩ | ⟨_, ⟨c, h⟩, _⟩ | ⟨_, _, _, he, _⟩ | ⟨_, _, _, he⟩ | ⟨_, _, _, he, _⟩
        | ⟨_, _, _, he⟩
    · rw [hmk] at h
      exact absurd h (by simp)
    · rw [hnone] at h
      exact absurd h (by simp)
    all_goals
      rw [he]
      simp [zipBuilt]

/-- C14 (witness): the build of `inf/album` on a server with no archive is
published (`finished`); it is followed by exactly one `setTimeout`, of the
deletion of `./temp/inf/album.zip` after `TIME_TO_PURGE_ZIPS`, and the archive
is on the disk.  On the server where the packaging fails, no deletion is
scheduled. -/
theorem doZip_schedules_one_purge_witness :
    (albumZipRequest.zip = some ['1']
      ∧ decodeURIComponent albumZipRequest.path = some "/inf/album".toList)
    ∧ (∃ a, (doZip exampleFileDir exampleWorld albumZipRequest).archiver = some a
        ∧ a.finished = true)
    ∧ (doZip exampleFileDir exampleWorld albumZipRequest).effects
      = [Effect.mkdirp "./temp/inf".toList,
          Effect.newArchiver exampleFileDir "./temp/inf/album.zip".toList,
          Effect.packageRecursively "/srv/file-dir/inf/album".toList, Effect.finalizeArchive,
          Effect.sendFile "./temp/inf/album.zip".toList,
          Effect.setTimeout TIME_TO_PURGE_ZIPS "./temp/inf/album.zip".toList]
    ∧ (doZip exampleFileDir exampleWorld albumZipRequest).effects.filter Effect.isSetTimeout
      = [Effect.setTimeout TIME_TO_PURGE_ZIPS "./temp/inf/album.zip".toList]
    ∧ (∃ c, (doZip exampleFileDir exampleWorld albumZipRequest).files
        "./temp/inf/album.zip".toList = some c)
    ∧ (doZip exampleFileDir brokenWorld albumZipRequest).effects.filter Effect.isSetTimeout
      = [] := by
  have hex : ∃ a, (doZip exampleFileDir exampleWorld albumZipRequest).archiver = some a
      ∧ a.finished = true := by
    have h : (doZip exampleFileDir exampleWorld albumZipRequest).archiver.map
        (fun a => a.finished) = some true := by decide
    cases hx : (doZip exampleFileDir exampleWorld albumZipRequest).archiver with
    | none =>
      rw [hx] at h
      exact absurd h (by simp)
    | some a =>
      rw [hx] at h
      exact ⟨a, rfl, by simpa using h⟩
  have hno : ¬ ∃ a, (doZip exampleFileDir brokenWorld albumZipRequest).archiver = some a
      ∧ a.finished = true := by
    have h : (doZip exampleFileDir brokenWorld albumZipRequest).archiver.map
        (fun a => a.finished) = some false := by decide
    rintro ⟨a, ha, hfin⟩
    rw [ha] at h
    simp [hfin] at h
  obtain ⟨he, hf, hc⟩ :=
    (doZip_schedules_one_purge exampleFileDir exampleWorld albumZipRequest "/inf/album".toList
      rfl (by decide)).1 hex
  exact ⟨⟨rfl, by decide⟩, hex, he, hf, hc,
    (doZip_schedules_one_purge exampleFileDir brokenWorld albumZipRequest "/inf/album".toList
      rfl (by decide)).2.1 hno⟩


/-! ### PreCacher._addImagesToList -/

mutual
theorem addImagesToList_allListed (dirs : Dirs) (readable : Str → Bool) :
    ∀ (s : Source) (relativeDir name : Str) (items : List WorkItem),
      s.allListed = true → s.isDirectoryOrLink = true →
      addImagesToList dirs readable (pathJoin2 relativeDir name) s items
        = some (items ++ expectedItems dirs readable relativeDir name s)
  | .file, _, _, _, _, h => by simp [Source.isDirectoryOrLink] at h
  | .unlistable, _, _, _, h, _ => by simp [Source.allListed] at h
  | .listed entries, relativeDir, name, items, h, _ => by
    simp only [Source.allListed] at h
    simp only [addImagesToList, expectedItems]
    rw [forEachEntry_allListed dirs readable entries (pathJoin2 relativeDir name) items h]
theorem forEachEntry_allListed (dirs : Dirs) (readable : Str → Bool) :
    ∀ (entries : List (Str × Source)) (relativeDir : Str) (items : List WorkItem),
      entriesAllListed entries = true →
      forEachEntry dirs readable relativeDir entries items
        = items ++ expectedEntries dirs readable relativeDir entries
  | [], _, _, _ => by simp [forEachEntry, expectedEntries]
  | (name, s) :: rest, relativeDir, items, h => by
    simp only [entriesAllListed, Bool.and_eq_true] at h
    simp only [forEachEntry, expectedEntries]
    by_cases hd : s.isDirectoryOrLink = true
    · rw [if_pos hd, addImagesToList_allListed dirs readable s relativeDir name items h.1 hd]
      simp only
      rw [forEachEntry_allListed dirs readable rest relativeDir _ h.2, List.append_assoc]
    · rw [if_neg hd]
      have hfile : s = .file := by
        cases s <;> simp [Source.isDirectoryOrLink] at hd
        rfl
      subst hfile
      rw [forEachEntry_allListed dirs readable rest relativeDir _ h.2, List.append_assoc]
      simp only [expectedItems]
end

/-- What `_addImagesToList` pushes for one regular file: nothing when the
extension is not in the list; otherwise one thumbnail item exactly when the
thumbnail is not readable, and for every compression type one lossy item
exactly when its output is not readable. -/
theorem itemsForFile_counts (dirs : Dirs) (readable : Str → Bool) (relativeDir name : Str) :
    (extensionOf name ∉ EXTENSIONS_TO_COMPRESS →
        itemsForFile dirs readable relativeDir name = [])
    ∧ (extensionOf name ∈ EXTENSIONS_TO_COMPRESS →
        ((itemsForFile dirs readable relativeDir name).filter
            (fun i => i.type = ItemType.thumbnail)).length
          = (if readable (pathJoin2 (pathJoin2 dirs.THUMBNAIL_DIR relativeDir)
                (stemOf name ++ thumbnailType.extension)) then 0 else 1)
        ∧ ∀ entry ∈ IMAGE_COMPRESSION_TYPES,
          ((itemsForFile dirs readable relativeDir name).filter
              (fun i => i.type = ItemType.lossy ∧ i.compressionType = entry.2)).length
            = (if readable (pathJoin2 (pathJoin2 dirs.LOSSY_DIR relativeDir)
                  (stemOf name ++ entry.2.extension)) then 0 else 1)) := by
  refine ⟨fun h => by simp [itemsForFile, h], fun h => ⟨?_, ?_⟩⟩
  · simp only [itemsForFile, if_pos h, IMAGE_COMPRESSION_TYPES, List.filterMap_cons,
      List.filterMap_nil]
    cases readable (pathJoin2 (pathJoin2 dirs.THUMBNAIL_DIR relativeDir)
        (stemOf name ++ thumbnailType.extension)) <;>
      cases readable (pathJoin2 (pathJoin2 dirs.LOSSY_DIR relativeDir)
        (stemOf name ++ avifType.extension)) <;>
      cases readable (pathJoin2 (pathJoin2 dirs.LOSSY_DIR relativeDir)
        (stemOf name ++ jpgType.extension)) <;>
      cases readable (pathJoin2 (pathJoin2 dirs.LOSSY_DIR relativeDir)
        (stemOf name ++ jxlType.extension)) <;>
      cases readable (pathJoin2 (pathJoin2 dirs.LOSSY_DIR relativeDir)
        (stemOf name ++ webpType.extension)) <;>
      simp
  · intro entry he
    simp only [IMAGE_COMPRESSION_TYPES, List.mem_cons, List.mem_singleton, List.not_mem_nil,
      or_false] at he
    simp only [itemsForFile, if_pos h, IMAGE_COMPRESSION_TYPES, List.filterMap_cons,
      List.filterMap_nil]
    rcases he with he | he | he | he <;> subst he <;>
      cases readable (pathJoin2 (pathJoin2 dirs.THUMBNAIL_DIR relativeDir)
        (stemOf name ++ thumbnailType.extension)) <;>
      cases readable (pathJoin2 (pathJoin2 dirs.LOSSY_DIR relativeDir)
        (stemOf name ++ avifType.extension)) <;>
      cases readable (pathJoin2 (pathJoin2 dirs.LOSSY_DIR relativeDir)
        (stemOf name ++ jpgType.extension)) <;>
      cases readable (pathJoin2 (pathJoin2 dirs.LOSSY_DIR relativeDir)
        (stemOf name ++ jxlType.extension)) <;>
      cases readable (pathJoin2 (pathJoin2 dirs.LOSSY_DIR relativeDir)
        (stemOf name ++ webpType.extension)) <;>
      simp [avifType, jpgType, jxlType, webpType]

/-- The scan of a tree in which every directory and symbolic link can be
listed appends, file by file, exactly the items each file calls for. -/
theorem addImagesToList_appends_expected (dirs : Dirs) (readable : Str → Bool)
    (entries : List (Str × Source)) (relativeDir : Str) (items : List WorkItem)
    (h : entriesAllListed entries = true) :
    addImagesToList dirs readable relativeDir (.listed entries) items
      = some (items ++ expectedEntries dirs readable relativeDir entries) := by
  simp only [addImagesToList]
  rw [forEachEntry_allListed dirs readable entries relativeDir items h]

/-- C15 (the code at the failing input): with an empty cache, the scan of a
tree whose directory `inf` lists a symbolic link to a regular file before the
image `b.jpg` appends nothing, although `b.jpg` calls for its thumbnail and
four lossy items: the exception of `readdirSync` on the link ends the
`forEach` of `inf`.  And a file named `jpg`, which has no extension, gets five
items. -/
theorem addImagesToList_skips_files_after_unlistable_entry :
    addImagesToList exampleDirs nothingReadable ".".toList linkFirstTree [] = some []
    ∧ (itemsForFile exampleDirs nothingReadable "inf".toList "b.jpg".toList).map
        (fun i => i.destination)
      = ["/srv/thumbnails/inf/b.avif".toList, "/srv/lossy/inf/b.avif".toList,
          "/srv/lossy/inf/b.jpg".toList, "/srv/lossy/inf/b.jxl".toList,
          "/srv/lossy/inf/b.webp".toList]
    ∧ ((addImagesToList exampleDirs nothingReadable ".".toList bareNameTree []).map
        (fun l => l.map (fun i => i.destination)))
      = some ["/srv/thumbnails/avif".toList, "/srv/lossy/avif".toList, "/srv/lossy/jpg".toList,
          "/srv/lossy/jxl".toList, "/srv/lossy/webp".toList] := by
  decide

/-! ### PreCacher: the drain -/

/-- C16 (the code at the failing input): with two items in the backlog,
`start()` followed by an expiry of the watcher's timer before the first item
has completed leaves two items in flight: the timer callback calls
`_process()` while the chain begun by `start()` is still running. -/
theorem precacher_timer_starts_second_chain :
    (PreCacher.run exampleMedia [Event.start, Event.timer []]
        (PreCacher.create [itemOne, itemTwo] exampleDisk)).map (fun p => p.inFlight)
      = some [itemTwo, itemOne]
    ∧ (PreCacher.run exampleMedia [Event.start, Event.timer []]
        (PreCacher.create [itemOne, itemTwo] exampleDisk)).map (fun p => p.inFlight.length)
      = some 2 := by
  decide

/-- C17 (the code at the failing input): on an empty backlog `start()` raises,
and so does the timer callback whose scan finds nothing: `_process()` reads
`item.type` of the `undefined` that `this.items.pop()` returns. -/
theorem precacher_process_raises_on_empty_backlog :
    ((PreCacher.create [] exampleDisk).step exampleMedia Event.start).isNone = true
    ∧ ((PreCacher.create [] exampleDisk).step exampleMedia (Event.timer [])).isNone = true
    ∧ ((PreCacher.create [] exampleDisk)._continueOrComplete).isSome = true := by
  decide

theorem process_of_append (p : PreCacher) (l : List WorkItem) (y : WorkItem)
    (h : p.items = l ++ [y]) :
    p._process = some { p with items := l, inFlight := p.inFlight ++ [y],
                               dequeued := p.dequeued ++ [y] } := by
  simp [PreCacher._process, h]

/-- The end of the callbacks of the only item in flight. -/
theorem finish_single (media : Media) (p : PreCacher) (x : WorkItem) (h : p.inFlight = [x]) :
    ∃ p1 : PreCacher, p.finish media 0 = p1._continueOrComplete ∧ p1.items = p.items
      ∧ p1.inFlight = [] ∧ p1.dequeued = p.dequeued := by
  simp only [PreCacher.finish, h, List.get?_cons_zero, List.eraseIdx_cons_zero]
  split
  · exact ⟨_, rfl, rfl, rfl, rfl⟩
  · split
    · exact ⟨_, rfl, rfl, rfl, rfl⟩
    · split
      · exact ⟨_, rfl, rfl, rfl, rfl⟩
      · exact ⟨_, rfl, rfl, rfl, rfl⟩

/-- One chain, from a state with one item in flight, works through the
backlog from its end. -/
theorem chain_drains (media : Media) : ∀ (n : Nat) (p : PreCacher) (x : WorkItem),
    p.items.length = n → p.inFlight = [x] →
    ∃ q, PreCacher.run media (List.replicate (n + 1) (Event.finish 0)) p = some q
      ∧ q.items = [] ∧ q.inFlight = [] ∧ q.dequeued = p.dequeued ++ p.items.reverse
  | 0, p, x, hn, hx => by
    obtain ⟨p1, hf, hi, hfl, hd⟩ := finish_single media p x hx
    have hnil : p.items = [] := List.length_eq_zero.1 hn
    have hc : p1._continueOrComplete = some p1 := by
      simp [PreCacher._continueOrComplete, hi, hnil]
    refine ⟨p1, ?_, by rw [hi, hnil], hfl, by rw [hd, hnil]; simp⟩
    simp [PreCacher.run, PreCacher.step, hf, hc]
  | n + 1, p, x, hn, hx => by
    obtain ⟨p1, hf, hi, hfl, hd⟩ := finish_single media p x hx
    have hne : p.items ≠ [] := fun e => by rw [e] at hn; simp at hn
    obtain ⟨y, hy⟩ : ∃ y, p.items.getLast? = some y := by
      cases hl : p.items.getLast? with
      | none => exact absurd (List.getLast?_eq_none_iff.1 hl) hne
      | some y => exact ⟨y, rfl⟩
    have hsplit : p.items = p.items.dropLast ++ [y] :=
      (List.dropLast_append_getLast? y hy).symm
    have hc : p1._continueOrComplete
        = some { p1 with items := p.items.dropLast, inFlight := p1.inFlight ++ [y],
                         dequeued := p1.dequeued ++ [y] } := by
      have hlen : p1.items.length ≠ 0 := by rw [hi, hn]; simp
      simp only [PreCacher._continueOrComplete, hlen, ne_eq, not_false_eq_true, if_true]
      exact process_of_append p1 _ y (by rw [hi]; exact hsplit)
    have hlen2 : p.items.dropLast.length = n := by
      rw [List.length_dropLast, hn]
      rfl
    obtain ⟨q, hq, hq1, hq2, hq3⟩ := chain_drains media n
      { p1 with items := p.items.dropLast, inFlight := p1.inFlight ++ [y],
                dequeued := p1.dequeued ++ [y] } y hlen2 (by simp [hfl])
    refine ⟨q, ?_, hq1, hq2, ?_⟩
    · rw [List.replicate_succ]
      simp only [PreCacher.run, PreCacher.step, hf, hc]
      exact hq
    · rw [hq3]
      simp only [hd]
      conv_rhs => rw [hsplit]
      simp

/-- The guarded step: `_continueOrComplete()` never raises, and it changes
neither the disk nor the counters of the encoder. -/
theorem continueOrComplete_total (p1 : PreCacher) :
    ∃ q, p1._continueOrComplete = some q ∧ q.inFlight.length ≤ p1.inFlight.length + 1
      ∧ q.encoderCalls = p1.encoderCalls ∧ q.disk = p1.disk ∧ q.written = p1.written := by
  by_cases hlen : p1.items.length ≠ 0
  · cases hl : p1.items.getLast? with
    | none =>
      have := List.getLast?_eq_none_iff.1 hl
      rw [this] at hlen
      simp at hlen
    | some y =>
      refine ⟨{ p1 with items := p1.items.dropLast, inFlight := p1.inFlight ++ [y],
                        dequeued := p1.dequeued ++ [y] }, ?_, ?_, rfl, rfl, rfl⟩
      · simp only [PreCacher._continueOrComplete, hlen, ne_eq, not_false_eq_true,
          if_true, PreCacher._process, hl]
      · simp
  · exact ⟨p1, by simp only [PreCacher._continueOrComplete, hlen, if_false], by simp,
      rfl, rfl, rfl⟩

theorem finish_keeps_one_in_flight (media : Media) (p : PreCacher)
    (h : p.inFlight.length ≤ 1) :
    ∃ q, p.finish media 0 = some q ∧ q.inFlight.length ≤ 1 := by
  cases hfl : p.inFlight with
  | nil => exact ⟨p, by simp [PreCacher.finish, hfl], by rw [hfl]; simp⟩
  | cons x rest =>
    have hrest : rest = [] := by
      rw [hfl] at h
      simp at h
      exact h
    subst hrest
    obtain ⟨p1, hf, _, hfl1, _⟩ := finish_single media p x hfl
    obtain ⟨q, hq, hq1, _⟩ := continueOrComplete_total p1
    rw [hfl1] at hq1
    exact ⟨q, by rw [hf, hq], by simpa using hq1⟩

theorem chain_keeps_one_in_flight (media : Media) : ∀ (j : Nat) (p : PreCacher),
    p.inFlight.length ≤ 1 →
    ∃ q, PreCacher.run media (List.replicate j (Event.finish 0)) p = some q
      ∧ q.inFlight.length ≤ 1
  | 0, p, h => ⟨p, rfl, h⟩
  | j + 1, p, h => by
    obtain ⟨q, hq, hq1⟩ := finish_keeps_one_in_flight media p h
    obtain ⟨r, hr, hr1⟩ := chain_keeps_one_in_flight media j q hq1
    exact ⟨r, by rw [List.replicate_succ]; simp only [PreCacher.run, PreCacher.step, hq]; exact hr,
      hr1⟩

/-- C18: for every non-empty backlog, every disk and every encoder (so for
every choice of the items whose source cannot be read, whose encoding fails or
whose output cannot be written), the drain begun by `start()` raises no
exception, takes every item of the backlog exactly once, the last first, never
has more than one item in flight, and ends with an empty backlog and nothing
in flight. -/
theorem precacher_drain_takes_each_item_once (media : Media) (disk : Disk)
    (items : List WorkItem) (h : items ≠ []) :
    (∃ q, PreCacher.run media (Event.start :: List.replicate items.length (Event.finish 0))
          (PreCacher.create items disk) = some q
        ∧ q.items = [] ∧ q.inFlight = [] ∧ q.dequeued = items.reverse)
    ∧ (∀ j, ∃ q, PreCacher.run media (Event.start :: List.replicate j (Event.finish 0))
          (PreCacher.create items disk) = some q
        ∧ q.inFlight.length ≤ 1) := by
  obtain ⟨y, hy⟩ : ∃ y, items.getLast? = some y := by
    cases hl : items.getLast? with
    | none => exact absurd (List.getLast?_eq_none_iff.1 hl) h
    | some y => exact ⟨y, rfl⟩
  have hsplit : items = items.dropLast ++ [y] := (List.dropLast_append_getLast? y hy).symm
  have hstart : (PreCacher.create items disk).step media Event.start
      = some { PreCacher.create items disk with
                items := items.dropLast, inFlight := [y], dequeued := [y] } := by
    simp only [PreCacher.step]
    rw [process_of_append (PreCacher.create items disk) items.dropLast y hsplit]
    rfl
  have hlen : items.length = items.dropLast.length + 1 := by
    conv_lhs => rw [hsplit]
    simp
  refine ⟨?_, ?_⟩
  · obtain ⟨q, hq, hq1, hq2, hq3⟩ := chain_drains media items.dropLast.length
      { PreCacher.create items disk with
        items := items.dropLast, inFlight := [y], dequeued := [y] } y rfl rfl
    refine ⟨q, ?_, hq1, hq2, ?_⟩
    · simp only [PreCacher.run, hstart]
      rw [hlen]
      exact hq
    · rw [hq3]
      conv_rhs => rw [hsplit]
      simp
  · intro j
    obtain ⟨q, hq, hq1⟩ := chain_keeps_one_in_flight media j
      { PreCacher.create items disk with
        items := items.dropLast, inFlight := [y], dequeued := [y] } (by simp)
    exact ⟨q, by simp only [PreCacher.run, hstart]; exact hq, hq1⟩

/-- C18 (witness): a backlog of two items; the source of the second is not on
the disk, so reading it fails. -/
theorem precacher_drain_takes_each_item_once_witness :
    [itemOne, itemTwo] ≠ []
    ∧ ∃ q, PreCacher.run exampleMedia
          (Event.start :: List.replicate [itemOne, itemTwo].length (Event.finish 0))
          (PreCacher.create [itemOne, itemTwo] exampleDisk) = some q
        ∧ q.items = [] ∧ q.inFlight = [] ∧ q.dequeued = [itemOne, itemTwo].reverse :=
  ⟨by decide,
    (precacher_drain_takes_each_item_once exampleMedia exampleDisk [itemOne, itemTwo]
      (by decide)).1⟩

/-- The build of the only item in flight, when its source can be read. -/
theorem finish_build_outcome (media : Media) (p : PreCacher)
    (item : WorkItem) (imageBuffer : Bytes)
    (hfl : p.inFlight = [item]) (hsrc : p.disk item.source = some imageBuffer) :
    ∃ q, p.finish media 0 = some q
      ∧ q.encoderCalls = p.encoderCalls + 1
      ∧ ∀ out, media.encode item.type item.compressionType imageBuffer = some out →
          media.writable item.destination = true →
          q.disk item.destination = some out ∧ q.written = p.written ++ [item.destination] := by
  have hcont : ∀ p1 : PreCacher, ∃ q, p1._continueOrComplete = some q
      ∧ q.encoderCalls = p1.encoderCalls ∧ q.disk = p1.disk ∧ q.written = p1.written := by
    intro p1
    obtain ⟨q, hq, _, h1, h2, h3⟩ := continueOrComplete_total p1
    exact ⟨q, hq, h1, h2, h3⟩
  simp only [PreCacher.finish, hfl, List.get?_cons_zero, List.eraseIdx_cons_zero, hsrc]
  cases henc : media.encode item.type item.compressionType imageBuffer with
  | none =>
    obtain ⟨q, hq, h1, _, _⟩ := hcont
      { p with inFlight := [], encoderCalls := p.encoderCalls + 1 }
    exact ⟨q, hq, h1, fun out ho => absurd ho (by simp)⟩
  | some out =>
    by_cases hw : media.writable item.destination = true
    · simp only [hw, if_true]
      obtain ⟨q, hq, h1, h2, h3⟩ := hcont
        { p with inFlight := [], encoderCalls := p.encoderCalls + 1,
                 disk := fun q => if q = item.destination then some out else p.disk q,
                 written := p.written ++ [item.destination] }
      refine ⟨q, hq, h1, fun out2 ho _ => ⟨?_, h3⟩⟩
      injection ho with ho
      rw [h2, ← ho]
      simp
    · simp only [hw, if_false]
      obtain ⟨q, hq, h1, _, _⟩ := hcont
        { p with inFlight := [], encoderCalls := p.encoderCalls + 1 }
      exact ⟨q, hq, h1, fun out2 _ hw2 => absurd hw2 (by simp)⟩

/-- Every item pushed by the scan has a destination that `fs.accessSync` found
unreadable: existence is checked when the item is enqueued. -/
theorem itemsForFile_destination_not_readable (dirs : Dirs) (readable : Str → Bool)
    (relativeDir name : Str) :
    ∀ i ∈ itemsForFile dirs readable relativeDir name, readable i.destination = false := by
  intro i hi
  unfold itemsForFile at hi
  split at hi
  · rcases List.mem_append.1 hi with h | h
    · split at h
      · simp at h
      · rename_i hr
        simp only [List.mem_singleton] at h
        subst h
        simpa using hr
    · obtain ⟨e, _, he⟩ := List.mem_filterMap.1 h
      split at he
      · simp at he
      · rename_i hr
        injection he with he
        subst he
        simpa using hr
  · simp at hi

/-- C19 (the claim as stated fails): the item `itemOne` is dequeued while its
destination exists on the disk (with the older content `[9]`); the background
build invokes the encoder once and rewrites the destination with the fresh
output. -/
theorem precacher_build_rewrites_existing_destination :
    exampleDisk itemOne.destination = some [9]
    ∧ (PreCacher.run exampleMedia [Event.start, Event.finish 0]
        (PreCacher.create [itemOne] exampleDisk)).map
          (fun p => (p.encoderCalls, p.written, p.disk itemOne.destination))
      = some (1, [itemOne.destination], some [0, 1, 2, 3]) := by
  decide

/-- C19 (as amended): existence is checked when an item is enqueued, not when
it is built.  The scan pushes only items whose destination is not readable;
the background build of a dequeued WorkItem does not look at its destination:
whenever the source can be read it invokes the encoder once, and when the
encoder and the write succeed it writes the fresh output to the destination,
whether or not a file was there; it raises no exception. -/
theorem precacher_existence_checked_at_enqueue_only (media : Media) (p : PreCacher)
    (item : WorkItem) (imageBuffer : Bytes) (dirs : Dirs) (readable : Str → Bool)
    (relativeDir name : Str)
    (hfl : p.inFlight = [item]) (hsrc : p.disk item.source = some imageBuffer) :
    (∀ i ∈ itemsForFile dirs readable relativeDir name, readable i.destination = false)
    ∧ ∃ q, p.finish media 0 = some q
      ∧ q.encoderCalls = p.encoderCalls + 1
      ∧ ∀ out, media.encode item.type item.compressionType imageBuffer = some out →
          media.writable item.destination = true →
          q.disk item.destination = some out ∧ q.written = p.written ++ [item.destination] :=
  ⟨itemsForFile_destination_not_readable dirs readable relativeDir name,
    finish_build_outcome media p item imageBuffer hfl hsrc⟩

/-- C19 (witness): `itemOne` in flight on the example disk, where both its
source and its destination exist. -/
theorem precacher_existence_checked_at_enqueue_only_witness :
    ({ PreCacher.create [] exampleDisk with inFlight := [itemOne] } : PreCacher).inFlight
        = [itemOne]
    ∧ exampleDisk itemOne.source = some [1, 2, 3]
    ∧ exampleDisk itemOne.destination = some [9]
    ∧ ∃ q, PreCacher.finish exampleMedia
          { PreCacher.create [] exampleDisk with inFlight := [itemOne] } 0 = some q
        ∧ q.encoderCalls = 0 + 1 :=
  ⟨rfl, by decide, by decide,
    (precacher_existence_checked_at_enqueue_only exampleMedia
      { PreCacher.create [] exampleDisk with inFlight := [itemOne] } itemOne [1, 2, 3]
      exampleDirs nothingReadable ['.'] "one.jpg".toList rfl (by decide)).2.imp
      (fun _ h => ⟨h.1, h.2.1⟩)⟩

/-! ### The cache path of a request -/

/-- C20 (the code at the failing input): for `GET /lossy/inf/my%20photo.jpg`
the middleware cuts the decoded path `/inf/my photo.jpg` at the index of the
last dot of the undecoded path, and uses the cache path
`/srv/lossy/inf/my photo.j.webp`; the `PreCacher` enqueues, for the same source
and profile, the destination `/srv/lossy/inf/my photo.webp`.  For
`/inf/a.b.jpg`, which needs no percent-encoding, the two agree. -/
theorem imageCompress_cache_path_cut_at_undecoded_index :
    imageCompress exampleDirs photoRequest
      = ImagePlan.makeLossyImage "/srv/file-dir/inf/my photo.jpg".toList
          "/srv/lossy/inf/my photo.j.webp".toList webpType
    ∧ (addImagesToList exampleDirs nothingReadable ['.'] photoTree []).map
        (fun items => (items.filter
          (fun i => i.type = ItemType.lossy ∧ i.compressionType = webpType)).map
            (fun i => (i.source, i.destination)))
      = some [("/srv/file-dir/inf/my photo.jpg".toList, "/srv/lossy/inf/my photo.webp".toList)]
    ∧ imageCompress exampleDirs dottedRequest
      = ImagePlan.makeLossyImage "/srv/file-dir/inf/a.b.jpg".toList
          "/srv/lossy/inf/a.b.webp".toList webpType
    ∧ (addImagesToList exampleDirs nothingReadable ['.'] dottedTree []).map
        (fun items => (items.filter
          (fun i => i.type = ItemType.lossy ∧ i.compressionType = webpType)).map
            (fun i => (i.source, i.destination)))
      = some [("/srv/file-dir/inf/a.b.jpg".toList, "/srv/lossy/inf/a.b.webp".toList)] := by
  decide


/-! ### forbidden, and the two access checks -/

/-- The loops of `checkPassword` and of `hasAccess` decide alike when they are
given the same parts: the two checks differ only in the parts they walk. -/
theorem checkPasswordLoop_next_iff (map : PasswordMap) (pass : Option Str) :
    ∀ (parts : List Str) (pathPortion : Str),
      checkPasswordLoop map pass parts pathPortion
        = (if hasAccessLoop map pass parts pathPortion then [Effect.next] else [Effect.send 403])
  | [], _ => by simp [checkPasswordLoop, hasAccessLoop]
  | part :: rest, pathPortion => by
    have ih := checkPasswordLoop_next_iff map pass rest (nextPortion pathPortion part)
    rcases hm : getProperty map (nextPortion pathPortion part) with _ | correctPass
    · simp only [checkPasswordLoop, hasAccessLoop, hm]
      exact ih
    · by_cases ht : correctPass.truthy = true
      · simp only [checkPasswordLoop, hasAccessLoop, hm, ht, if_true]
      · simp only [checkPasswordLoop, hasAccessLoop, hm, ht, if_false]
        exact ih

/-- C24 (the code at the failing input): with the one rule `secret: p1`, the
request for `/inf/secret/file` without credential passes `checkPassword`, which
looks up `inf`, `inf/secret`, `inf/secret/file`, while `hasAccess` for the same
path, which looks up `secret` first, denies it; with the rule under the key
`inf/secret` the gate answers 403 and `hasAccess` allows. -/
theorem checkPassword_disagrees_with_hasAccess :
    checkPassword listingRule "/inf/secret/file".toList none = [Effect.next]
    ∧ hasAccess listingRule "/inf/secret/file".toList none = false
    ∧ checkPassword gateRule "/inf/secret/file".toList none = [Effect.send 403]
    ∧ hasAccess gateRule "/inf/secret/file".toList none = true := by
  decide

/-- What `forbidden` does, by the two tests of the URL. -/
theorem forbidden_cases (originalUrl : Str) :
    (includes "..".toList originalUrl = true → Effect.next ∉ forbidden originalUrl)
    ∧ (includes "..".toList originalUrl = false → includes "//".toList originalUrl = false →
        forbidden originalUrl = [Effect.next])
    ∧ (includes "..".toList originalUrl = false → includes "//".toList originalUrl = true →
        forbidden originalUrl = [Effect.send 400, Effect.next]) := by
  refine ⟨fun h => ?_, fun h1 h2 => ?_, fun h1 h2 => ?_⟩
  · unfold forbidden
    rw [h]
    by_cases h2 : includes "//".toList originalUrl = true
    · rw [h2]
      decide
    · rw [Bool.not_eq_true] at h2
      rw [h2]
      decide
  · unfold forbidden
    rw [h1, h2]
    rfl
  · unfold forbidden
    rw [h1, h2]
    rfl

/-- C25 (the code at the failing input): for the URL `/files/inf//a`, which
contains `//` and no `..`, `forbidden` sends the 400 response and then calls
`next()`, so the request reaches the later handlers; for a URL with both it
sends two responses. -/
theorem forbidden_calls_next_after_400 :
    forbidden "/files/inf//a".toList = [Effect.send 400, Effect.next]
    ∧ forbidden "/files//inf/../a".toList = [Effect.send 400, Effect.send 400]
    ∧ forbidden "/files/inf/../a".toList = [Effect.send 400]
    ∧ forbidden "/files/inf/a".toList = [Effect.next] := by
  decide

/-- C26 (the code at the failing input): the URL
`/files/inf/%2e%2e/%2e%2e/etc?zip=1` contains neither `//` nor `..`, so
`forbidden` lets it through; `decodeURIComponent` turns its path into
`/inf/../../etc`, and `doZip` packages `/srv/file-dir/inf/../../etc`.  Likewise
`/lossy/inf/%2e%2e/%2e%2e/etc/key.png` makes `imageCompress` read
`/srv/etc/key.png` and write `/srv/etc/key.png.webp`, and `makeThumbnail` derives
`/srv/etc/key.png` and `/srv/etc/key.avif`: none of them is under the served
root or the cache roots. -/
theorem decoded_path_escapes_served_root :
    forbidden ("/files".toList ++ escapingZipRequest.path ++ "?zip=1".toList) = [Effect.next]
    ∧ decodeURIComponent escapingZipRequest.path = some "/inf/../../etc".toList
    ∧ "..".toList ∈ split '/' "/inf/../../etc".toList
    ∧ (doZip exampleFileDir exampleWorld escapingZipRequest).effects
      = [Effect.mkdirp "./temp/inf/../..".toList,
          Effect.newArchiver exampleFileDir "./temp/inf/../../etc.zip".toList,
          Effect.packageRecursively "/srv/file-dir/inf/../../etc".toList,
          Effect.failureCleanup, Effect.send 500]
    ∧ forbidden ("/lossy".toList ++ escapingRequest.path) = [Effect.next]
    ∧ imageCompress exampleDirs escapingRequest
      = ImagePlan.makeLossyImage "/srv/etc/key.png".toList "/srv/etc/key.png.webp".toList webpType
    ∧ isUnder exampleDirs.FILE_DIR "/srv/etc/key.png".toList = false
    ∧ isUnder exampleDirs.LOSSY_DIR "/srv/etc/key.png.webp".toList = false
    ∧ forbidden ("/thumbnails".toList ++ escapingRequest.path) = [Effect.next]
    ∧ thumbnailPaths exampleDirs "/inf/../../etc/key.png".toList avifType
      = { originalPath := "/srv/etc/key.png".toList, directory := "/srv/etc".toList,
          output := "/srv/etc/key.avif".toList }
    ∧ isUnder exampleDirs.THUMBNAIL_DIR "/srv/etc/key.avif".toList = false := by
  decide

/-! ### imageCompress outside the allow-list -/

/-- C22 (the claim as stated fails): the requests for `/inf/notes.txt` and for
`/inf/README` (no extension) are answered 404, not with the original file. -/
theorem imageCompress_answers_404_outside_allow_list :
    imageCompress exampleDirs notesRequest = ImagePlan.notFound
    ∧ imageCompress exampleDirs readmeRequest = ImagePlan.notFound
    ∧ "txt".toList ∉ EXTENSIONS_TO_COMPRESS
    ∧ imageCompress exampleDirs gifRequest
      = ImagePlan.sendOriginal "/srv/file-dir/inf/anim.GIF".toList := by
  decide

/-- C22 (as amended): for every lossy-image request whose path decodes, that
does not ask for the original (`x-no-compression`, `original=1`), and whose
lower-cased extension is not in `EXTENSIONS_TO_COMPRESS` (or whose path has no
dot), `imageCompress` bypasses the cache: it serves the original file when the
extension is `gif`, and answers 404 otherwise. -/
theorem imageCompress_outside_allow_list (dirs : Dirs) (req : ImageRequest) (decoded : Str)
    (hdec : decodeURIComponent req.path = some decoded)
    (hnc : req.noCompression = false) (horig : req.original ≠ some ['1'])
    (hext : lastIndexOf '.' req.path = -1
      ∨ toLowerCase (substring req.path (lastIndexOf '.' req.path + 1).toNat)
          ∉ EXTENSIONS_TO_COMPRESS) :
    imageCompress dirs req
      = (if lastIndexOf '.' req.path ≠ -1
            ∧ toLowerCase (substring req.path (lastIndexOf '.' req.path + 1).toNat)
                = "gif".toList
          then ImagePlan.sendOriginal (pathJoin2 dirs.FILE_DIR ('.' :: trimSlash decoded))
          else ImagePlan.notFound) := by
  unfold imageCompress
  simp only [hdec, hnc, horig, Bool.false_eq_true, false_or, if_false, trimSlash]
  by_cases hdot : lastIndexOf '.' req.path = -1
  · simp [hdot]
  · have hnot := hext.resolve_left hdot
    simp only [hdot, ne_eq, not_false_eq_true, if_true, hnot, if_false, true_and]

/-- C22 (witness): the request for `/inf/anim.GIF`. -/
theorem imageCompress_outside_allow_list_witness :
    imageCompress exampleDirs gifRequest
      = (if lastIndexOf '.' gifRequest.path ≠ -1
            ∧ toLowerCase (substring gifRequest.path (lastIndexOf '.' gifRequest.path + 1).toNat)
                = "gif".toList
          then ImagePlan.sendOriginal
            (pathJoin2 exampleDirs.FILE_DIR ('.' :: trimSlash "/inf/anim.GIF".toList))
          else ImagePlan.notFound) :=
  imageCompress_outside_allow_list exampleDirs gifRequest "/inf/anim.GIF".toList
    (by decide) rfl (by decide) (Or.inr (by decide))

/-! ### Get-or-build: the second call -/

/-- A build that wrote its output resolved with it (or with `undefined` in
build-only mode), after one call of the encoder. -/
theorem buildLossyImage_written (media : Media) (vol : Volume) (originalPath lossyPath : Str)
    (returnImage : Bool) (imageType : CompressionType)
    (h : (buildLossyImage media vol originalPath lossyPath returnImage imageType).written ≠ []) :
    ∃ out,
      (buildLossyImage media vol originalPath lossyPath returnImage imageType).settlement
        = Settlement.resolved (if returnImage then some out else none)
      ∧ (buildLossyImage media vol originalPath lossyPath returnImage imageType).encoderCalls = 1
      ∧ (buildLossyImage media vol originalPath lossyPath returnImage imageType).disk lossyPath
        = some out := by
  rcases hsrc : vol.disk originalPath with _ | data
  · simp [buildLossyImage, hsrc] at h
  · by_cases hmk : vol.mkdirpOk (lossyPath.take (lastIndexOf '/' lossyPath).toNat) = true
    · rcases henc : media.encode ItemType.lossy imageType data with _ | out
      · simp [buildLossyImage, hsrc, hmk, henc] at h
      · by_cases hw : media.writable lossyPath = true
        · refine ⟨out, ?_, ?_, ?_⟩ <;> simp [buildLossyImage, hsrc, hmk, henc, hw]
        · simp [buildLossyImage, hsrc, hmk, henc, hw] at h
    · simp [buildLossyImage, hsrc, hmk] at h

/-- A call of `makeLossyImage` that wrote a file went through the miss
branch. -/
theorem makeLossyImage_written (media : Media) (vol : Volume) (originalPath lossyPath : Str)
    (returnImage : Bool) (imageType : CompressionType)
    (h : (makeLossyImage media vol originalPath lossyPath returnImage imageType).written ≠ []) :
    makeLossyImage media vol originalPath lossyPath returnImage imageType
      = buildLossyImage media vol originalPath lossyPath returnImage imageType := by
  cases returnImage with
  | true =>
    rcases hl : vol.disk lossyPath with _ | data
    · simp [makeLossyImage, hl]
    · simp [makeLossyImage, hl] at h
  | false =>
    by_cases hs : ((vol.disk lossyPath).isSome || vol.isDirectory lossyPath) = true
    · simp only [makeLossyImage, hs, if_true, if_false, Bool.false_eq_true] at h
      exact absurd rfl h
    · simp only [makeLossyImage, hs, if_false, Bool.false_eq_true]

/-- What `makeLossyImage` does when the output is a file of the volume. -/
theorem makeLossyImage_cached (media : Media) (vol : Volume) (originalPath lossyPath : Str)
    (returnImage : Bool) (imageType : CompressionType) (data : Bytes)
    (h : vol.disk lossyPath = some data) :
    (makeLossyImage media vol originalPath lossyPath returnImage imageType).settlement
        = Settlement.resolved (if returnImage then some data else none)
      ∧ (makeLossyImage media vol originalPath lossyPath returnImage imageType).encoderCalls = 0
      ∧ (makeLossyImage media vol originalPath lossyPath returnImage imageType).written = []
      ∧ (makeLossyImage media vol originalPath lossyPath returnImage imageType).disk = vol.disk := by
  unfold makeLossyImage
  cases returnImage with
  | true => simp [h]
  | false => simp [h]

/-- In build-only mode `makeLossyImage` resolves with `undefined` only. -/
theorem makeLossyImage_build_only (media : Media) (vol : Volume) (originalPath lossyPath : Str)
    (imageType : CompressionType) (image : Option Bytes)
    (h : (makeLossyImage media vol originalPath lossyPath false imageType).settlement
      = Settlement.resolved image) : image = none := by
  by_cases hs : ((vol.disk lossyPath).isSome || vol.isDirectory lossyPath) = true
  · simp only [makeLossyImage, hs, if_true, if_false, Bool.false_eq_true] at h
    injection h with h
    exact h.symm
  · simp only [makeLossyImage, hs, if_false, Bool.false_eq_true] at h
    rcases hsrc : vol.disk originalPath with _ | data
    · simp [buildLossyImage, hsrc] at h
    · by_cases hmk : vol.mkdirpOk (lossyPath.take (lastIndexOf '/' lossyPath).toNat) = true
      · rcases henc : media.encode ItemType.lossy imageType data with _ | out
        · simp [buildLossyImage, hsrc, hmk, henc] at h
        · by_cases hw : media.writable lossyPath = true
          · simp [buildLossyImage, hsrc, hmk, henc, hw] at h
            exact h.symm
          · simp [buildLossyImage, hsrc, hmk, henc, hw] at h
            exact h.symm
      · simp [buildLossyImage, hsrc, hmk] at h

/-- A call of `makeThumbnail` that wrote a file sent the encoder's output and
wrote it to the output path. -/
theorem makeThumbnail_written (dirs : Dirs) (media : Media) (vol : Volume) (req : ImageRequest)
    (h : (makeThumbnail dirs media vol req).written ≠ []) :
    ∃ decoded out, decodeURIComponent req.path = some decoded
      ∧ (makeThumbnail dirs media vol req).response = ImageResponse.sendImage out
      ∧ (makeThumbnail dirs media vol req).encoderCalls = 1
      ∧ (makeThumbnail dirs media vol req).disk
          (thumbnailPaths dirs decoded (thumbnailTypeOrDefault req.imagecompress)).output
        = some out := by
  rcases hdec : decodeURIComponent req.path with _ | decoded
  · simp [makeThumbnail, hdec] at h
  · refine ⟨decoded, ?_⟩
    by_cases hacc : ((vol.disk
        (thumbnailPaths dirs decoded (thumbnailTypeOrDefault req.imagecompress)).output).isSome
        || vol.isDirectory
          (thumbnailPaths dirs decoded (thumbnailTypeOrDefault req.imagecompress)).output) = true
    · simp only [makeThumbnail, hdec, hacc, if_true] at h
      exact absurd rfl h
    · by_cases hmk : vol.mkdirpOk
          (thumbnailPaths dirs decoded (thumbnailTypeOrDefault req.imagecompress)).directory = true
      · rcases hsrc : vol.disk
            (thumbnailPaths dirs decoded (thumbnailTypeOrDefault req.imagecompress)).originalPath
          with _ | imageBuffer
        · simp only [makeThumbnail, hdec, hacc, hmk, hsrc, if_true, if_false, Bool.false_eq_true] at h
          exact absurd rfl h
        · rcases henc : media.encode ItemType.thumbnail
              (thumbnailTypeOrDefault req.imagecompress) imageBuffer with _ | out
          · simp only [makeThumbnail, hdec, hacc, hmk, hsrc, henc, if_true, if_false, Bool.false_eq_true] at h
            exact absurd rfl h
          · by_cases hw : media.writable
                (thumbnailPaths dirs decoded (thumbnailTypeOrDefault req.imagecompress)).output
                = true
            · refine ⟨out, rfl, ?_, ?_, ?_⟩ <;>
                simp [makeThumbnail, hdec, hacc, hmk, hsrc, henc, hw]
            · simp only [makeThumbnail, hdec, hacc, hmk, hsrc, henc, hw, if_true, if_false, Bool.false_eq_true] at h
              exact absurd rfl h
      · simp only [makeThumbnail, hdec, hacc, hmk, if_true, if_false, Bool.false_eq_true] at h
        exact absurd rfl h

/-- What `makeThumbnail` does when the output is a file of the volume. -/
theorem makeThumbnail_cached (dirs : Dirs) (media : Media) (vol : Volume) (req : ImageRequest)
    (decoded : Str) (data : Bytes) (hdec : decodeURIComponent req.path = some decoded)
    (h : vol.disk (thumbnailPaths dirs decoded (thumbnailTypeOrDefault req.imagecompress)).output
      = some data) :
    (makeThumbnail dirs media vol req).response
        = ImageResponse.sendFile
            (thumbnailPaths dirs decoded (thumbnailTypeOrDefault req.imagecompress)).output
      ∧ (makeThumbnail dirs media vol req).encoderCalls = 0
      ∧ (makeThumbnail dirs media vol req).written = []
      ∧ (makeThumbnail dirs media vol req).disk = vol.disk := by
  unfold makeThumbnail
  simp [hdec, h]

/-- C21: for every source, profile, encoder and volume: when a first call of
`makeLossyImage` built the output and wrote it, a second call for the same
paths and profile on the files the first left resolves with the cached file's
bytes, the ones the first call produced (with `undefined` in build-only mode,
like the first), invokes the encoder zero times and writes nothing; in
build-only mode `makeLossyImage` never resolves with bytes; and when a first
call of `makeThumbnail` built and wrote the thumbnail, a second call for the
same request sends the cached file, whose bytes are the ones the first call
sent, with zero calls of the encoder. -/
theorem getOrBuild_second_call_reads_cache (media : Media) (vol : Volume)
    (originalPath lossyPath : Str) (returnImage : Bool) (imageType : CompressionType)
    (dirs : Dirs) (req : ImageRequest) :
    ((makeLossyImage media vol originalPath lossyPath returnImage imageType).written ≠ [] →
      ∃ out,
        (makeLossyImage media vol originalPath lossyPath returnImage imageType).settlement
          = Settlement.resolved (if returnImage then some out else none)
        ∧ (makeLossyImage media vol originalPath lossyPath returnImage imageType).encoderCalls = 1
        ∧ (makeLossyImage media vol originalPath lossyPath returnImage imageType).disk lossyPath
          = some out
        ∧ (makeLossyImage media
            (vol.after (makeLossyImage media vol originalPath lossyPath returnImage imageType).disk)
            originalPath lossyPath returnImage imageType).settlement
          = Settlement.resolved (if returnImage then some out else none)
        ∧ (makeLossyImage media
            (vol.after (makeLossyImage media vol originalPath lossyPath returnImage imageType).disk)
            originalPath lossyPath returnImage imageType).encoderCalls = 0
        ∧ (makeLossyImage media
            (vol.after (makeLossyImage media vol originalPath lossyPath returnImage imageType).disk)
            originalPath lossyPath returnImage imageType).written = [])
    ∧ (∀ image,
        (makeLossyImage media vol originalPath lossyPath false imageType).settlement
          = Settlement.resolved image → image = none)
    ∧ ((makeThumbnail dirs media vol req).written ≠ [] →
      ∃ out output,
        (makeThumbnail dirs media vol req).response = ImageResponse.sendImage out
        ∧ (makeThumbnail dirs media vol req).encoderCalls = 1
        ∧ (makeThumbnail dirs media vol req).disk output = some out
        ∧ (makeThumbnail dirs media (vol.after (makeThumbnail dirs media vol req).disk) req).response
          = ImageResponse.sendFile output
        ∧ (makeThumbnail dirs media (vol.after (makeThumbnail dirs media vol req).disk)
            req).encoderCalls = 0
        ∧ (makeThumbnail dirs media (vol.after (makeThumbnail dirs media vol req).disk)
            req).written = []) := by
  refine ⟨fun h => ?_, fun image h => makeLossyImage_build_only media vol _ _ _ image h,
    fun h => ?_⟩
  · have heq := makeLossyImage_written media vol originalPath lossyPath returnImage imageType h
    rw [heq] at h
    obtain ⟨out, h1, h2, h3⟩ :=
      buildLossyImage_written media vol originalPath lossyPath returnImage imageType h
    rw [heq]
    obtain ⟨c1, c2, c3, _⟩ := makeLossyImage_cached media
      (vol.after (buildLossyImage media vol originalPath lossyPath returnImage imageType).disk)
      originalPath lossyPath returnImage imageType out h3
    exact ⟨out, h1, h2, h3, c1, c2, c3⟩
  · obtain ⟨decoded, out, hdec, h1, h2, h3⟩ := makeThumbnail_written dirs media vol req h
    obtain ⟨c1, c2, c3, _⟩ := makeThumbnail_cached dirs media
      (vol.after (makeThumbnail dirs media vol req).disk) req decoded out hdec h3
    exact ⟨out, _, h1, h2, h3, c1, c2, c3⟩

/-- C21 (witness): on the example volume the lossy `avif` of `inf/one.jpg` and
its thumbnail are missing, so the first calls build and write them. -/
theorem getOrBuild_second_call_reads_cache_witness :
    (makeLossyImage exampleMedia exampleVolume "/srv/file-dir/inf/one.jpg".toList
        "/srv/lossy/inf/one.avif".toList true avifType).written ≠ []
    ∧ (makeThumbnail exampleDirs exampleMedia exampleVolume oneRequest).written ≠ []
    ∧ (∃ out,
        (makeLossyImage exampleMedia exampleVolume "/srv/file-dir/inf/one.jpg".toList
            "/srv/lossy/inf/one.avif".toList true avifType).settlement
          = Settlement.resolved (some out)
        ∧ (makeLossyImage exampleMedia
            (exampleVolume.after (makeLossyImage exampleMedia exampleVolume
              "/srv/file-dir/inf/one.jpg".toList "/srv/lossy/inf/one.avif".toList true
              avifType).disk)
            "/srv/file-dir/inf/one.jpg".toList "/srv/lossy/inf/one.avif".toList true
            avifType).settlement = Settlement.resolved (some out))
    ∧ ∃ out output,
        (makeThumbnail exampleDirs exampleMedia exampleVolume oneRequest).response
          = ImageResponse.sendImage out
        ∧ (makeThumbnail exampleDirs exampleMedia
            (exampleVolume.after
              (makeThumbnail exampleDirs exampleMedia exampleVolume oneRequest).disk)
            oneRequest).response = ImageResponse.sendFile output :=
  ⟨by decide, by decide,
    ((getOrBuild_second_call_reads_cache exampleMedia exampleVolume
        "/srv/file-dir/inf/one.jpg".toList "/srv/lossy/inf/one.avif".toList true avifType
        exampleDirs oneRequest).1 (by decide)).imp
      (fun _ h => ⟨h.1, h.2.2.2.1⟩),
    ((getOrBuild_second_call_reads_cache exampleMedia exampleVolume
        "/srv/file-dir/inf/one.jpg".toList "/srv/lossy/inf/one.avif".toList true avifType
        exampleDirs oneRequest).2.2 (by decide)).imp
      (fun _ h => h.imp (fun _ g => ⟨g.1, g.2.2.2.1⟩))⟩

/-! ### PreCacher.watch: one re-scan for a burst -/

/-- A `rename` event while no timer is armed arms the timer for it. -/
theorem onEvent_rename_idle (w : Watcher) (t : Nat) (relativeDir : Str)
    (hidle : w.armed = []) (hnow : w.now ≤ t) :
    (w.onEvent t WatchEvent.rename relativeDir).Armed t relativeDir
      ∧ (w.onEvent t WatchEvent.rename relativeDir).scans = w.scans := by
  have hmax : max w.now t = t := max_eq_right hnow
  cases htm : w.timer with
  | none =>
    refine ⟨⟨w.nextHandle, ?_, ?_, ?_⟩, ?_⟩ <;>
      simp [Watcher.onEvent, Watcher.advance, Watcher.setTimeout, hidle, htm, hmax]
  | some handle =>
    refine ⟨⟨w.nextHandle, ?_, ?_, ?_⟩, ?_⟩ <;>
      simp [Watcher.onEvent, Watcher.advance, Watcher.setTimeout, Watcher.clearTimeout, hidle,
        htm, hmax]

/-- A `rename` event before the armed timer is due clears it and arms the
timer anew; no re-scan runs. -/
theorem onEvent_rename_armed (w : Watcher) (t0 : Nat) (dir0 : Str) (t : Nat) (relativeDir : Str)
    (h : w.Armed t0 dir0) (h1 : t0 ≤ t) (h2 : t < t0 + 1000) :
    (w.onEvent t WatchEvent.rename relativeDir).Armed t relativeDir
      ∧ (w.onEvent t WatchEvent.rename relativeDir).scans = w.scans := by
  obtain ⟨handle, ha, htm, hn⟩ := h
  have hmax : max w.now t = t := by rw [hn]; exact max_eq_right h1
  have hnot : ¬ t0 + 1000 ≤ t := by omega
  refine ⟨⟨w.nextHandle, ?_, ?_, ?_⟩, ?_⟩ <;>
    simp [Watcher.onEvent, Watcher.advance, Watcher.setTimeout, Watcher.clearTimeout, ha, htm,
      hmax, h2, hnot]

/-- The rest of a burst: every event finds the timer of the one before it
still armed. -/
theorem run_renames_armed : ∀ (rest : List (Nat × Str)) (w : Watcher) (t : Nat) (dir : Str),
    w.Armed t dir →
    List.Chain (fun a b : Nat × Str => a.1 ≤ b.1 ∧ b.1 < a.1 + 1000) (t, dir) rest →
    (Watcher.run (renames rest) w).Armed (rest.getLastD (t, dir)).1 (rest.getLastD (t, dir)).2
      ∧ (Watcher.run (renames rest) w).scans = w.scans
  | [], w, t, dir, h, _ => ⟨h, rfl⟩
  | (t1, dir1) :: rest, w, t, dir, h, hc => by
    rw [List.chain_cons] at hc
    obtain ⟨h1, h2⟩ := onEvent_rename_armed w t dir t1 dir1 h hc.1.1 hc.1.2
    obtain ⟨h3, h4⟩ := run_renames_armed rest _ t1 dir1 h1 hc.2
    rw [List.getLastD_cons]
    exact ⟨h3, h4.trans h2⟩

/-- What the event loop does with the one armed timer. -/
theorem advance_armed (w : Watcher) (t : Nat) (dir : Str) (h : w.Armed t dir) (T : Nat) :
    (T < t + 1000 → (w.advance T).scans = w.scans)
    ∧ (t + 1000 ≤ T →
        (w.advance T).scans = w.scans ++ [(t + 1000, dir)] ∧ (w.advance T).armed = []) := by
  obtain ⟨handle, ha, _, _⟩ := h
  refine ⟨fun hT => ?_, fun hT => ⟨?_, ?_⟩⟩
  · have : ¬ t + 1000 ≤ T := by omega
    simp [Watcher.advance, ha, this]
  · simp [Watcher.advance, ha, hT]
  · have : ¬ T < t + 1000 := by omega
    simp [Watcher.advance, ha, this]

/-- C23: for every burst of `rename` events on watched directories, given by
the time and the directory of the first event and of the rest, in which each
event comes less than 1000 ms after the one before it, starting with no timer
armed: after the burst exactly one timer is armed, the one of the last event
(each event has cleared the timer of the one before it), no re-scan has run
during the burst nor runs before 1000 ms have passed since the last event, and
from then on exactly one re-scan has run, that of the last event's directory,
and no timer is left. -/
theorem watch_burst_runs_one_rescan (w : Watcher) (first : Nat × Str) (rest : List (Nat × Str))
    (hidle : w.armed = []) (hnow : w.now ≤ first.1)
    (hburst : List.Chain (fun a b : Nat × Str => a.1 ≤ b.1 ∧ b.1 < a.1 + 1000) first rest) :
    (∃ handle, (Watcher.run (renames (first :: rest)) w).armed
        = [{ handle := handle, due := (rest.getLastD first).1 + 1000,
             relativeDir := (rest.getLastD first).2 }])
    ∧ (Watcher.run (renames (first :: rest)) w).scans = w.scans
    ∧ (∀ T, T < (rest.getLastD first).1 + 1000 →
        ((Watcher.run (renames (first :: rest)) w).advance T).scans = w.scans)
    ∧ (∀ T, (rest.getLastD first).1 + 1000 ≤ T →
        ((Watcher.run (renames (first :: rest)) w).advance T).scans
            = w.scans ++ [((rest.getLastD first).1 + 1000, (rest.getLastD first).2)]
          ∧ ((Watcher.run (renames (first :: rest)) w).advance T).armed = []) := by
  obtain ⟨t, dir⟩ := first
  obtain ⟨h1, h2⟩ := onEvent_rename_idle w t dir hidle hnow
  obtain ⟨h3, h4⟩ := run_renames_armed rest _ t dir h1 hburst
  have hrun : Watcher.run (renames ((t, dir) :: rest)) w
      = Watcher.run (renames rest) (w.onEvent t WatchEvent.rename dir) := rfl
  rw [hrun]
  have hs := h4.trans h2
  refine ⟨?_, hs, fun T hT => ?_, fun T hT => ?_⟩
  · obtain ⟨handle, ha, _, _⟩ := h3
    exact ⟨handle, ha⟩
  · rw [(advance_armed _ _ _ h3 T).1 hT, hs]
  · obtain ⟨e1, e2⟩ := (advance_armed _ _ _ h3 T).2 hT
    rw [e1, hs]
    exact ⟨rfl, e2⟩

/-- C23 (witness): three `rename` events at 10, 500 and 1400 ms in the
directories `a`, `b` and `c`; the one re-scan is that of `c`, at 2400 ms. -/
theorem watch_burst_runs_one_rescan_witness :
    Watcher.create.armed = [] ∧ Watcher.create.now ≤ 10
    ∧ List.Chain (fun a b : Nat × Str => a.1 ≤ b.1 ∧ b.1 < a.1 + 1000) (10, ['a'])
        [(500, ['b']), (1400, ['c'])]
    ∧ ((Watcher.run (renames [(10, ['a']), (500, ['b']), (1400, ['c'])])
          Watcher.create).advance 2399).scans = []
    ∧ ((Watcher.run (renames [(10, ['a']), (500, ['b']), (1400, ['c'])])
          Watcher.create).advance 2400).scans = [(2400, ['c'])] :=
  ⟨rfl, by decide,
    List.Chain.cons ⟨by decide, by decide⟩ (List.Chain.cons ⟨by decide, by decide⟩ List.Chain.nil),
    (watch_burst_runs_one_rescan Watcher.create (10, ['a']) [(500, ['b']), (1400, ['c'])] rfl
      (by decide)
      (List.Chain.cons ⟨by decide, by decide⟩
        (List.Chain.cons ⟨by decide, by decide⟩ List.Chain.nil))).2.2.1 2399 (by decide),
    ((watch_burst_runs_one_rescan Watcher.create (10, ['a']) [(500, ['b']), (1400, ['c'])] rfl
      (by decide)
      (List.Chain.cons ⟨by decide, by decide⟩
        (List.Chain.cons ⟨by decide, by decide⟩ List.Chain.nil))).2.2.2 2400 (by decide)).1⟩


end FileServer
